import Mathlib

/-!
Verification of the archuffer compression core (LZ77 + canonical Huffman +
bit-level I/O + archive path safety) against its specification.

Byte strings (`bytes` in the source) are modelled as `List Nat` with each
element below 256; bits are `Nat` values 0/1.  Fallible operations return
`Except Perr`, where `Perr.eofError` models `EOFError` (a truncated stream)
and `Perr.valueError` models `ValueError`.
-/

namespace Archuffer

/-- Error kinds raised by the codec: `eofError` models Python `EOFError`,
`valueError` models Python `ValueError`. -/
inductive Perr where
  | eofError : Perr
  | valueError : Perr
deriving DecidableEq

/-- The low `n` bits of `v`, most significant first (the order in which
`BitWriter.write_bits` emits them and `BitReader.read_bits` consumes them). -/
def toBits : Nat → Nat → List Nat
  | 0, _ => []
  | n+1, v => ((v >>> n) &&& 1) :: toBits n v

/-- Recombine a most-significant-first bit list into a number. -/
def ofBits (l : List Nat) : Nat := l.foldl (fun a b => 2 * a + b) 0

/-- All bits of a byte string, most significant bit of each byte first. -/
def bytesToBits (bs : List Nat) : List Nat := bs.flatMap (toBits 8)

/-! ### `bitops.BitWriter` -/

/-- State of `bitops.BitWriter`: a byte buffer, an accumulator of pending
bits, and the count of valid bits in the accumulator. -/
structure BitWriter where
  buffer : List Nat
  bit_buffer : Nat
  bit_count : Nat
deriving DecidableEq

namespace BitWriter

/-- `BitWriter.__init__`. -/
def init : BitWriter := ⟨[], 0, 0⟩

/-- One iteration of the loop in `BitWriter.write_bits`: shift one bit into
the accumulator and emit a byte when it fills. -/
def push1 (w : BitWriter) (bit : Nat) : BitWriter :=
  let bb := (w.bit_buffer <<< 1) ||| bit
  if w.bit_count + 1 = 8 then ⟨w.buffer ++ [bb], 0, 0⟩
  else ⟨w.buffer, bb, w.bit_count + 1⟩

/-- `BitWriter.write_bits(value, nbits)`: the loop runs `i` from `nbits-1`
down to 0, pushing bit `(value >> i) & 1`. -/
def write_bits (w : BitWriter) (value : Nat) : Nat → BitWriter
  | 0 => w
  | n+1 => (w.push1 ((value >>> n) &&& 1)).write_bits value n

/-- `BitWriter.write_bytes(data)`: pad any pending bits to a full byte
(left-shifted, zero padded), then append the raw bytes. -/
def write_bytes (w : BitWriter) (data : List Nat) : BitWriter :=
  if 0 < w.bit_count then
    ⟨w.buffer ++ [w.bit_buffer <<< (8 - w.bit_count)] ++ data, 0, 0⟩
  else
    ⟨w.buffer ++ data, w.bit_buffer, w.bit_count⟩

/-- `BitWriter.flush()`: pad any pending bits with zeros and return the
accumulated bytes. -/
def flush (w : BitWriter) : List Nat :=
  if 0 < w.bit_count then w.buffer ++ [w.bit_buffer <<< (8 - w.bit_count)]
  else w.buffer

/-- The sequence of bits the writer has committed so far. -/
def wbits (w : BitWriter) : List Nat :=
  bytesToBits w.buffer ++ toBits w.bit_count w.bit_buffer

/-- Well-formedness of a writer state. -/
structure Inv (w : BitWriter) : Prop where
  bytes : ∀ b ∈ w.buffer, b < 256
  cnt : w.bit_count < 8
  acc : w.bit_buffer < 2 ^ w.bit_count

end BitWriter

/-! ### `bitops.BitReader` -/

/-- State of `bitops.BitReader`: the input bytes, the byte cursor, the
current source byte, and the count of its unread bits. -/
structure BitReader where
  data : List Nat
  pos : Nat
  bit_buffer : Nat
  bit_count : Nat
deriving DecidableEq

namespace BitReader

/-- `BitReader.__init__(data)`. -/
def init (data : List Nat) : BitReader := ⟨data, 0, 0, 0⟩

/-- One iteration of the loop in `BitReader.read_bits`: refill the one-byte
buffer if it is empty (raising `EOFError` at end of data), then return the
next most-significant unread bit. -/
def read1 (s : BitReader) : Except Perr (Nat × BitReader) :=
  if s.bit_count = 0 then
    if s.data.length ≤ s.pos then .error .eofError
    else
      let bb := s.data.getD s.pos 0
      .ok ((bb >>> 7) &&& 1, ⟨s.data, s.pos + 1, bb, 7⟩)
  else
    .ok ((s.bit_buffer >>> (s.bit_count - 1)) &&& 1,
         ⟨s.data, s.pos, s.bit_buffer, s.bit_count - 1⟩)

/-- The loop of `BitReader.read_bits` with the accumulated result; an
`EOFError` from the bit fetch propagates. -/
def read_bits_go (s : BitReader) : Nat → Nat → Except Perr (Nat × BitReader)
  | 0, acc => .ok (acc, s)
  | n+1, acc =>
      match s.read1 with
      | .error e => .error e
      | .ok (b, s') => s'.read_bits_go n ((acc <<< 1) ||| b)

/-- `BitReader.read_bits(nbits)`. -/
def read_bits (s : BitReader) (nbits : Nat) : Except Perr (Nat × BitReader) :=
  s.read_bits_go nbits 0

/-- `BitReader.read_bytes(nbytes)`: drop any unread bits of the current
byte, return the next `nbytes` bytes (shorter if the source is shorter —
Python slicing clamps), and advance the byte cursor by `nbytes`
unconditionally.  Python slicing cannot raise, so this is a total
function. -/
def read_bytes (s : BitReader) (nbytes : Nat) : List Nat × BitReader :=
  ((s.data.drop s.pos).take nbytes, ⟨s.data, s.pos + nbytes, s.bit_buffer, 0⟩)

/-- The reader `s` sits `k` bits into the byte string `B`. -/
structure Inv (B : List Nat) (k : Nat) (s : BitReader) : Prop where
  data : s.data = B
  posle : s.pos ≤ B.length
  pos8 : 8 * s.pos = k + s.bit_count
  cnt : s.bit_count < 8
  buf : s.bit_count ≠ 0 → s.bit_buffer = B.getD (s.pos - 1) 0

end BitReader

/-! ### Python dictionaries

Python `dict`s are modelled as insertion-ordered association lists with
unique keys: `dget` is `d.get(k, dflt)` / `d[k]`, `dmem` is `k in d`,
`dset` is `d[k] = v` (which updates the value in place for an existing key
and appends a new key at the end, as Python dicts preserve insertion
order), and `dincr` is `Counter`'s `d[k] += 1` (missing keys count as 0).
-/

def dget {κ α : Type} [DecidableEq κ] (d : List (κ × α)) (k : κ) (dflt : α) : α :=
  match d.find? (fun p => decide (p.1 = k)) with
  | some p => p.2
  | none => dflt

def dmem {κ α : Type} [DecidableEq κ] (d : List (κ × α)) (k : κ) : Bool :=
  d.any (fun p => decide (p.1 = k))

def dset {κ α : Type} [DecidableEq κ] (d : List (κ × α)) (k : κ) (v : α) : List (κ × α) :=
  if dmem d k then d.map (fun p => if p.1 = k then (k, v) else p)
  else d ++ [(k, v)]

def dincr (d : List (Nat × Nat)) (k : Nat) : List (Nat × Nat) :=
  dset d k (dget d k 0 + 1)

/-! ### `lz77.LZ77Compressor`

A token `(distance, length, literal)` is a literal when `literal ≥ 0` and a
match `(distance, length, -1)` otherwise, exactly as in the source.  The
hash table (a `defaultdict(list)`) is an association list from the 24-bit
key to the bucket; a missing key reads as the empty bucket.
-/

/-- LZ77 token `(distance, length, literal)`. -/
abbrev Token := Nat × Nat × Int

namespace LZ77

def MIN_MATCH : Nat := 3
def MAX_MATCH : Nat := 258
def WINDOW_SIZE : Nat := 32768
def MAX_HASH_CHAIN : Nat := 32

/-- `LZ77Compressor._hash3`: pack the three bytes at `pos` big-endian,
masked to 24 bits; 0 when fewer than 3 bytes remain. -/
def hash3 (data : List Nat) (pos : Nat) : Nat :=
  if data.length < pos + 3 then 0
  else ((data.getD pos 0 <<< 16) ||| (data.getD (pos + 1) 0 <<< 8) |||
    data.getD (pos + 2) 0) &&& 0xFFFFFF

/-- The inner `while` of `_find_best_match`, with the number of remaining
iterations (`max_len - length`, which only ever shrinks) as structural
fuel: extend a 3-byte match while bytes keep matching and
`length < max_len`. -/
def extend_match_go (data : List Nat) (prev_pos pos max_len : Nat) :
    Nat → Nat → Nat
  | 0, length => length
  | fuel + 1, length =>
      if length < max_len ∧ data.getD (prev_pos + length) 0 = data.getD (pos + length) 0 then
        extend_match_go data prev_pos pos max_len fuel (length + 1)
      else length

def extend_match (data : List Nat) (prev_pos pos max_len : Nat) (length : Nat) : Nat :=
  extend_match_go data prev_pos pos max_len (max_len - length) length

/-- The candidate loop of `_find_best_match`, iterating the bucket newest
first (`reversed`), with the source's `break`/`continue` structure.
Returns `(best_dist, best_len)`. -/
def match_loop (data : List Nat) (pos window_start max_len : Nat) :
    List Nat → Nat → Nat → Nat → Nat × Nat
  | [], _, best_len, best_dist => (best_dist, best_len)
  | prev_pos :: rest, chain_count, best_len, best_dist =>
      if prev_pos < window_start then (best_dist, best_len)
      else if MAX_HASH_CHAIN ≤ chain_count then (best_dist, best_len)
      else if pos ≤ prev_pos then
        match_loop data pos window_start max_len rest (chain_count + 1) best_len best_dist
      else if (data.drop prev_pos).take 3 ≠ (data.drop pos).take 3 then
        match_loop data pos window_start max_len rest (chain_count + 1) best_len best_dist
      else
        let length := extend_match data prev_pos pos max_len 3
        if best_len < length then
          if length = max_len then (pos - prev_pos, length)
          else match_loop data pos window_start max_len rest (chain_count + 1) length (pos - prev_pos)
        else match_loop data pos window_start max_len rest (chain_count + 1) best_len best_dist

/-- `LZ77Compressor._find_best_match`: search the hash bucket for the best
match at `pos`, then record `pos` in the bucket (dropping the oldest entry
when the bucket held more than 256 positions).  Returns the
`(distance, length)` pair (length 0 when below `MIN_MATCH`) and the
updated hash table.  `window_start = pos - WINDOW_SIZE` uses truncated
`Nat` subtraction, which is exactly `max(0, pos - WINDOW_SIZE)`. -/
def find_best_match (ht : List (Nat × List Nat)) (data : List Nat) (pos : Nat) :
    (Nat × Nat) × List (Nat × List Nat) :=
  if data.length < pos + MIN_MATCH then ((0, 0), ht)
  else
    let h := hash3 data pos
    let max_len := min MAX_MATCH (data.length - pos)
    let window_start := pos - WINDOW_SIZE
    let bucket := dget ht h []
    let best := match_loop data pos window_start max_len bucket.reverse 0 (MIN_MATCH - 1) 0
    let bucket := if 256 < bucket.length then bucket.tail else bucket
    let ht := dset ht h (bucket ++ [pos])
    ((best.1, if MIN_MATCH ≤ best.2 then best.2 else 0), ht)

/-- The main loop of `LZ77Compressor.compress` (no progress callback):
emit a match and advance by its length, or emit a literal and advance by
one.  The fuel is an upper bound on the remaining loop iterations (the
position advances by at least one per iteration, so `data.length - pos`
iterations always suffice and the fuel never runs out with
`pos < data.length`). -/
def compress_loop (data : List Nat) : Nat → Nat → List Token →
    List (Nat × Nat) → List (Nat × List Nat) →
    List Token × List (Nat × Nat) × List (Nat × List Nat)
  | 0, _, tokens, freq, ht => (tokens, freq, ht)
  | fuel + 1, pos, tokens, freq, ht =>
      if pos < data.length then
        let r := find_best_match ht data pos
        if MIN_MATCH ≤ r.1.2 then
          compress_loop data fuel (pos + r.1.2) (tokens ++ [(r.1.1, r.1.2, -1)])
            (dincr freq (256 + (r.1.2 - MIN_MATCH))) r.2
        else
          compress_loop data fuel (pos + 1) (tokens ++ [(0, 0, Int.ofNat (data.getD pos 0))])
            (dincr freq (data.getD pos 0)) r.2
      else (tokens, freq, ht)

/-- `LZ77Compressor.compress` without a callback: the hash table is reset
at entry; returns tokens, the frequency counter, and (for the bucket-size
invariant) the final hash table. -/
def compress_full (data : List Nat) : List Token × List (Nat × Nat) × List (Nat × List Nat) :=
  compress_loop data data.length 0 [] [] []

/-- `LZ77Compressor.compress`'s `(tokens, frequencies)` result. -/
def compress (data : List Nat) : List Token × List (Nat × Nat) :=
  ((compress_full data).1, (compress_full data).2.1)

/-- The copy loop of `LZ77Compressor.decompress`: append `length` bytes one
at a time starting at `match_pos` (overlap-friendly). -/
def copy_match (output : List Nat) (match_pos : Nat) : Nat → List Nat
  | 0 => output
  | n + 1 => copy_match (output ++ [output.getD match_pos 0]) (match_pos + 1) n

/-- The token walk of `LZ77Compressor.decompress`; a match whose distance
is zero or exceeds the bytes produced so far raises `ValueError`. -/
def decompress_tokens : List Token → List Nat → Except Perr (List Nat)
  | [], output => .ok output
  | (distance, length, literal) :: rest, output =>
      if 0 ≤ literal then decompress_tokens rest (output ++ [literal.toNat])
      else if distance = 0 ∨ output.length < distance then .error .valueError
      else decompress_tokens rest (copy_match output (output.length - distance) length)

/-- `LZ77Compressor.decompress`. -/
def decompress (tokens : List Token) : Except Perr (List Nat) :=
  decompress_tokens tokens []

end LZ77

/-! ### `huffman.CanonicalHuffman`

The merge tree is built with Python's `heapq`, so the heap operations below
are a direct port of CPython's `heapq.heapify` / `heappush` / `heappop`
(`_siftup` / `_siftdown`), with `HuffmanNode.__lt__` comparing
frequencies. -/

/-- `huffman.HuffmanNode`: leaves carry a symbol, internal nodes carry two
children; every node carries its frequency. -/
inductive HTree where
  | leaf (symbol : Nat) (freq : Nat) : HTree
  | node (freq : Nat) (left right : HTree) : HTree
deriving DecidableEq

instance : Inhabited HTree := ⟨HTree.leaf 0 0⟩

def HTree.freq : HTree → Nat
  | .leaf _ f => f
  | .node f _ _ => f

namespace Heapq

/-- CPython `heapq._siftdown`'s `while` loop, carrying `newitem`
(`newitem = heap[pos]` at the call sites).  The fuel bounds the remaining
iterations; `pos` itself suffices because the position strictly decreases
toward the root, so the fuel never runs out while `startpos < pos`. -/
def siftdownLoop : Nat → List HTree → Nat → Nat → HTree → List HTree
  | 0, heap, _, pos, newitem => heap.set pos newitem
  | fuel + 1, heap, startpos, pos, newitem =>
      if startpos < pos then
        let parentpos := (pos - 1) / 2
        let parent := heap.getD parentpos default
        if newitem.freq < parent.freq then
          siftdownLoop fuel (heap.set pos parent) startpos parentpos newitem
        else heap.set pos newitem
      else heap.set pos newitem

/-- CPython `heapq._siftup`'s `while` loop; after it bottoms out the item
is sifted back down (`_siftdown`) exactly as in the source.  The fuel
bounds the remaining iterations; `endpos - pos` suffices because the
position strictly increases toward the leaves. -/
def siftupLoop : Nat → List HTree → Nat → Nat → Nat → HTree → List HTree
  | 0, heap, _, startpos, pos, newitem =>
      siftdownLoop pos (heap.set pos newitem) startpos pos newitem
  | fuel + 1, heap, endpos, startpos, pos, newitem =>
      if 2 * pos + 1 < endpos then
        let childpos := 2 * pos + 1
        let childpos :=
          if childpos + 1 < endpos ∧
              ¬ (heap.getD childpos default).freq < (heap.getD (childpos + 1) default).freq then
            childpos + 1
          else childpos
        siftupLoop fuel (heap.set pos (heap.getD childpos default)) endpos startpos
          childpos newitem
      else siftdownLoop pos (heap.set pos newitem) startpos pos newitem

/-- CPython `heapq._siftup(heap, pos)`. -/
def siftup (heap : List HTree) (pos : Nat) : List HTree :=
  siftupLoop (heap.length - pos) heap heap.length pos pos (heap.getD pos default)

/-- CPython `heapq.heappush`. -/
def heappush (heap : List HTree) (item : HTree) : List HTree :=
  siftdownLoop heap.length (heap ++ [item]) 0 heap.length item

/-- CPython `heapq.heappop` (callers guarantee a non-empty heap). -/
def heappop (heap : List HTree) : HTree × List HTree :=
  let lastelt := heap.getLastD default
  let rest := heap.dropLast
  if rest.isEmpty then (lastelt, rest)
  else (rest.getD 0 default, siftup (rest.set 0 lastelt) 0)

/-- CPython `heapq.heapify`: sift up entries `n//2 - 1 .. 0`. -/
def heapify (x : List HTree) : List HTree :=
  ((List.range (x.length / 2)).reverse).foldl (fun h i => siftup h i) x

end Heapq

namespace Huffman

/-- The merge loop of `build_from_frequencies` (`while len(heap) > 1`),
with enough fuel for the whole merge (each round removes one element). -/
def merge_loop : Nat → List HTree → List HTree
  | 0, heap => heap
  | fuel + 1, heap =>
      if 1 < heap.length then
        let p1 := Heapq.heappop heap
        let p2 := Heapq.heappop p1.2
        merge_loop fuel (Heapq.heappush p2.2 (.node (p1.1.freq + p2.1.freq) p1.1 p2.1))
      else heap

/-- `CanonicalHuffman._get_code_lengths`: leaf depths, minimum 1, collected
in traversal order (the symbols of the merge tree are distinct, so this
is the insertion order of the Python dict). -/
def get_code_lengths : HTree → Nat → List (Nat × Nat)
  | .leaf s _, depth => [(s, max 1 depth)]
  | .node _ l r, depth => get_code_lengths l (depth + 1) ++ get_code_lengths r (depth + 1)

/-- Insertion sort by a boolean `≤` test.  Python's `sorted` is used only
on lists with pairwise-distinct keys, where any comparison sort produces
the same, uniquely determined, output. -/
def insertSorted {α : Type} (le : α → α → Bool) (x : α) : List α → List α
  | [] => [x]
  | y :: ys => if le x y then x :: y :: ys else y :: insertSorted le x ys

def sortBy {α : Type} (le : α → α → Bool) : List α → List α
  | [] => []
  | x :: xs => insertSorted le x (sortBy le xs)

/-- The Python sort key `(self.code_lengths[s], s)` compared
lexicographically. -/
def lexLe (code_lengths : List (Nat × Nat)) (a b : Nat) : Bool :=
  dget code_lengths a 0 < dget code_lengths b 0 ||
    (dget code_lengths a 0 = dget code_lengths b 0 && a ≤ b)

/-- The assignment loop of `_generate_canonical_codes`:
`code <<= (length - prev_length); codes[s] = (code, length); code += 1`.
The iteration order (by `(length, symbol)`) makes the shift amounts
non-negative, so truncated subtraction agrees with Python. -/
def canon_loop (code_lengths : List (Nat × Nat)) :
    List Nat → Nat → Nat → List (Nat × (Nat × Nat))
  | [], _, _ => []
  | symbol :: rest, code, prev_length =>
      let length := dget code_lengths symbol 0
      let code := code <<< (length - prev_length)
      (symbol, (code, length)) :: canon_loop code_lengths rest (code + 1) length

/-- The coder state: `code_lengths`, `codes` and the sorted `symbols`
list. -/
structure Huff where
  code_lengths : List (Nat × Nat)
  codes : List (Nat × (Nat × Nat))
  symbols : List Nat
deriving DecidableEq

/-- `CanonicalHuffman._generate_canonical_codes` applied to a given
`code_lengths` table: set `symbols = sorted(keys)`, then assign canonical
codes in `(length, symbol)` order. -/
def generate_canonical_codes (code_lengths : List (Nat × Nat)) : Huff :=
  let symbols := sortBy (fun a b => a ≤ b) (code_lengths.map Prod.fst)
  if symbols.isEmpty then ⟨code_lengths, [], symbols⟩
  else ⟨code_lengths, canon_loop code_lengths (sortBy (lexLe code_lengths) symbols) 0 0, symbols⟩

/-- `CanonicalHuffman.build_from_frequencies`. -/
def build_from_frequencies (frequencies : List (Nat × Nat)) : Huff :=
  if frequencies.isEmpty then ⟨[], [], []⟩
  else if frequencies.length = 1 then
    generate_canonical_codes [((frequencies.headD (0, 0)).1, 1)]
  else
    let heap := Heapq.heapify (frequencies.map (fun p => HTree.leaf p.1 p.2))
    let merged := merge_loop heap.length heap
    generate_canonical_codes (get_code_lengths (merged.headD default) 0)

/-- `CanonicalHuffman.encode_symbol`: `(0, 1)` for unknown symbols. -/
def encode_symbol (hf : Huff) (symbol : Nat) : Nat × Nat :=
  dget hf.codes symbol (0, 1)

/-- `CanonicalHuffman.save_metadata`: 16 bits of symbol count, then 9 bits
of symbol and 5 bits of length per symbol, in ascending symbol order. -/
def save_metadata (hf : Huff) : List Nat :=
  let w := BitWriter.init.write_bits hf.symbols.length 16
  ((sortBy (fun a b => a ≤ b) hf.symbols).foldl
    (fun w symbol =>
      (w.write_bits symbol 9).write_bits (dget hf.code_lengths symbol 0) 5) w).flush

/-- The read loop of `CanonicalHuffman.load_metadata`. -/
def load_loop : Nat → BitReader → List (Nat × Nat) →
    Except Perr (List (Nat × Nat) × BitReader)
  | 0, r, acc => .ok (acc, r)
  | n + 1, r, acc =>
      match r.read_bits 9 with
      | .error e => .error e
      | .ok (symbol, r1) =>
          match r1.read_bits 5 with
          | .error e => .error e
          | .ok (length, r2) => load_loop n r2 (dset acc symbol length)

/-- `CanonicalHuffman.load_metadata`: rebuild `code_lengths`, regenerate
the canonical codes (which also resets `symbols` to the sorted key list,
overwriting the intermediate `list(keys())` assignment in the source),
and return the number of bytes consumed. -/
def load_metadata (data : List Nat) : Except Perr (Huff × Nat) :=
  match (BitReader.init data).read_bits 16 with
  | .error e => .error e
  | .ok (num_symbols, r) =>
      match load_loop num_symbols r [] with
      | .error e => .error e
      | .ok (code_lengths, r1) => .ok (generate_canonical_codes code_lengths, r1.pos)

end Huffman

/-! ### `archiver.Archiver` -/

namespace Arch

def VERSION : Nat := 1

/-- `Archiver._build_decode_tree`: map `(code, length)` to symbol for every
symbol of the code book (`codes[symbol]` always exists for a generated
book, so the lookup default is never consulted). -/
def build_decode_tree (hf : Huffman.Huff) : List ((Nat × Nat) × Nat) :=
  hf.symbols.foldl
    (fun tree symbol => dset tree (dget hf.codes symbol (0, 0)) symbol) []

/-- `Archiver._decode_symbol`'s probe loop for `length` in `1..25`:
accumulate one bit, look the `(code, length)` pair up, and raise
`ValueError` once the 25 probes (the fuel) are used up. -/
def decode_symbol_go (tree : List ((Nat × Nat) × Nat)) :
    Nat → BitReader → Nat → Nat → Except Perr (Nat × BitReader)
  | 0, _, _, _ => .error .valueError
  | fuel + 1, r, code, length =>
      match r.read_bits 1 with
      | .error e => .error e
      | .ok (bit, r1) =>
          let code1 := (code <<< 1) ||| bit
          if dmem tree (code1, length) then .ok (dget tree (code1, length) 0, r1)
          else decode_symbol_go tree fuel r1 code1 (length + 1)

/-- `Archiver._decode_symbol`. -/
def decode_symbol (r : BitReader) (tree : List ((Nat × Nat) × Nat)) :
    Except Perr (Nat × BitReader) :=
  decode_symbol_go tree 25 r 0 1

/-- `Archiver.compress` without a progress callback (`on_progress=None`). -/
def compress (data : List Nat) : List Nat :=
  if data.isEmpty then [VERSION, 0, 0, 0, 0]
  else
    let tf := LZ77.compress data
    let hf := Huffman.build_from_frequencies tf.2
    let w := (BitWriter.init.write_bits VERSION 8).write_bits data.length 32
    let metadata := Huffman.save_metadata hf
    let w := (w.write_bits metadata.length 16).write_bytes metadata
    (tf.1.foldl
      (fun w t =>
        if 0 ≤ t.2.2 then
          let cl := Huffman.encode_symbol hf t.2.2.toNat
          w.write_bits cl.1 cl.2
        else
          let cl := Huffman.encode_symbol hf (256 + (t.2.1 - LZ77.MIN_MATCH))
          (w.write_bits cl.1 cl.2).write_bits (t.1 - 1) 15) w).flush

/-- The token-reconstruction loop of `Archiver.decompress`
(`while output_len < orig_size`).  The fuel bounds the remaining
iterations; `orig_size - output_len` suffices because every decoded token
advances `output_len` by at least one. -/
def decompress_loop (tree : List ((Nat × Nat) × Nat)) (orig_size : Nat) :
    Nat → BitReader → List Token → Nat → Except Perr (List Token)
  | 0, _, tokens, _ => .ok tokens
  | fuel + 1, r, tokens, output_len =>
      if output_len < orig_size then
        match decode_symbol r tree with
        | .error e => .error e
        | .ok (symbol, r1) =>
            if symbol < 256 then
              decompress_loop tree orig_size fuel r1
                (tokens ++ [(0, 0, Int.ofNat symbol)]) (output_len + 1)
            else
              match r1.read_bits 15 with
              | .error e => .error e
              | .ok (d, r2) =>
                  decompress_loop tree orig_size fuel r2
                    (tokens ++ [(d + 1, symbol - 256 + LZ77.MIN_MATCH, -1)])
                    (output_len + (symbol - 256 + LZ77.MIN_MATCH))
      else .ok tokens

/-- `Archiver.decompress` without a progress callback. -/
def decompress (data : List Nat) : Except Perr (List Nat) :=
  match (BitReader.init data).read_bits 8 with
  | .error e => .error e
  | .ok (version, r) =>
      if version ≠ VERSION then .error .valueError
      else
        match r.read_bits 32 with
        | .error e => .error e
        | .ok (orig_size, r1) =>
            if orig_size = 0 then .ok []
            else
              match r1.read_bits 16 with
              | .error e => .error e
              | .ok (metadata_len, r2) =>
                  let br := r2.read_bytes metadata_len
                  match Huffman.load_metadata br.1 with
                  | .error e => .error e
                  | .ok (hf, _) =>
                      match decompress_loop (build_decode_tree hf) orig_size orig_size br.2 [] 0 with
                      | .error e => .error e
                      | .ok tokens => LZ77.decompress tokens

end Arch

/-! ### Progress callbacks

A Python progress callback is an arbitrary stateful callable that may
raise: modelled as a state transformer returning the next state and
whether the call raised. -/

structure ProgressCb (σ : Type) where
  run : σ → Nat → Nat → σ × Bool

namespace LZ77

/-- The loop of `LZ77Compressor.compress` with a progress callback: the
call `on_progress(pos, total)` at the end of each iteration is NOT
protected by any `try`, so a raise propagates (`Except.error`). -/
def compress_loop_cb {σ : Type} (cb : ProgressCb σ) (data : List Nat) :
    Nat → Nat → List Token → List (Nat × Nat) → List (Nat × List Nat) → σ →
    Except Unit (List Token × List (Nat × Nat) × List (Nat × List Nat) × σ)
  | 0, _, tokens, freq, ht, st => .ok (tokens, freq, ht, st)
  | fuel + 1, pos, tokens, freq, ht, st =>
      if pos < data.length then
        let r := find_best_match ht data pos
        if MIN_MATCH ≤ r.1.2 then
          let pos1 := pos + r.1.2
          let c := cb.run st pos1 data.length
          if c.2 then .error ()
          else
            compress_loop_cb cb data fuel pos1 (tokens ++ [(r.1.1, r.1.2, -1)])
              (dincr freq (256 + (r.1.2 - MIN_MATCH))) r.2 c.1
        else
          let pos1 := pos + 1
          let c := cb.run st pos1 data.length
          if c.2 then .error ()
          else
            compress_loop_cb cb data fuel pos1
              (tokens ++ [(0, 0, Int.ofNat (data.getD pos 0))])
              (dincr freq (data.getD pos 0)) r.2 c.1
      else .ok (tokens, freq, ht, st)

/-- `LZ77Compressor.compress` with a progress callback. -/
def compress_cb {σ : Type} (cb : ProgressCb σ) (data : List Nat) (st : σ) :
    Except Unit (List Token × List (Nat × Nat) × List (Nat × List Nat) × σ) :=
  compress_loop_cb cb data data.length 0 [] [] [] st

end LZ77

namespace Arch

/-- `Archiver.compress` with a progress callback: the LZ77 loop's calls
propagate exceptions, while the final `on_progress(len(data), len(data))`
is wrapped in `try ... except Exception: pass` (state changes made by the
raising call are kept, the exception is dropped). -/
def compress_cb {σ : Type} (cb : ProgressCb σ) (data : List Nat) (st : σ) :
    Except Unit (List Nat × σ) :=
  if data.isEmpty then .ok ([VERSION, 0, 0, 0, 0], st)
  else
    match LZ77.compress_cb cb data st with
    | .error e => .error e
    | .ok (tokens, freq, _, st1) =>
        let hf := Huffman.build_from_frequencies freq
        let w := (BitWriter.init.write_bits VERSION 8).write_bits data.length 32
        let metadata := Huffman.save_metadata hf
        let w := (w.write_bits metadata.length 16).write_bytes metadata
        let w := tokens.foldl
          (fun w t =>
            if 0 ≤ t.2.2 then
              let cl := Huffman.encode_symbol hf t.2.2.toNat
              w.write_bits cl.1 cl.2
            else
              let cl := Huffman.encode_symbol hf (256 + (t.2.1 - LZ77.MIN_MATCH))
              (w.write_bits cl.1 cl.2).write_bits (t.1 - 1) 15) w
        let c := cb.run st1 data.length data.length
        .ok (w.flush, c.1)

end Arch

/-! ### Bit-level descriptions of the streams `compress` emits -/

/-- The four bytes of a 32-bit big-endian field holding the low 32 bits of
`L` (the order `BitWriter.write_bits(L, 32)` emits them in). -/
def be32 (L : Nat) : List Nat :=
  [L / 2 ^ 24 % 256, L / 2 ^ 16 % 256, L / 2 ^ 8 % 256, L % 256]

/-- The four bytes of `len(x)` in little-endian order, as `original_size`
is described by the specification. -/
def le32 (L : Nat) : List Nat :=
  [L % 256, L / 2 ^ 8 % 256, L / 2 ^ 16 % 256, L / 2 ^ 24 % 256]

namespace Huffman

/-- The bits `save_metadata` writes for the per-symbol table. -/
def metadataBits (code_lengths : List (Nat × Nat)) (symbols : List Nat) : List Nat :=
  symbols.flatMap (fun s => toBits 9 s ++ toBits 5 (dget code_lengths s 0))

end Huffman

namespace Arch

/-- The bits `Archiver.compress` writes for one token. -/
def tokenBits (hf : Huffman.Huff) (t : Token) : List Nat :=
  if 0 ≤ t.2.2 then
    toBits (Huffman.encode_symbol hf t.2.2.toNat).2 (Huffman.encode_symbol hf t.2.2.toNat).1
  else
    toBits (Huffman.encode_symbol hf (256 + (t.2.1 - LZ77.MIN_MATCH))).2
        (Huffman.encode_symbol hf (256 + (t.2.1 - LZ77.MIN_MATCH))).1 ++
      toBits 15 (t.1 - 1)

/-- The bits `Archiver.compress` writes for a token list. -/
def tokensBits (hf : Huffman.Huff) (ts : List Token) : List Nat :=
  ts.flatMap (tokenBits hf)

end Arch

namespace Arch

/-- The code book `compress` builds for input `x`. -/
def hfOf (x : List Nat) : Huffman.Huff :=
  Huffman.build_from_frequencies (LZ77.compress x).2

/-- The serialized code-book metadata `compress` embeds for input `x`. -/
def mdOf (x : List Nat) : List Nat := Huffman.save_metadata (hfOf x)

/-- Every bit `compress` writes before flushing, in order: version,
original size, metadata length, metadata bytes, token stream. -/
def streamBits (x : List Nat) : List Nat :=
  toBits 8 VERSION ++ toBits 32 x.length ++ toBits 16 (mdOf x).length ++
    bytesToBits (mdOf x) ++ tokensBits (hfOf x) (LZ77.compress x).1

end Arch

/-- The number of output bytes one LZ77 token expands to: 1 for a
literal, the stored match length for a match. -/
def tokLen (t : Token) : Nat := if 0 ≤ t.2.2 then 1 else t.2.1

/-- Total number of output bytes a token list expands to. -/
def tokSum (ts : List Token) : Nat := (ts.map tokLen).sum

/-- The decoding contract for one symbol of a code book: `encode_symbol`
yields a code that fits in its bit length, the decode tree maps the
`(code, length)` pair back to the symbol, and no strict bit-prefix of the
code is a key of the tree (so `_decode_symbol`'s probe stops exactly
there). -/
def DecodableSym (hf : Huffman.Huff) (tree : List ((Nat × Nat) × Nat)) (s : Nat) : Prop :=
  ∃ c l, Huffman.encode_symbol hf s = (c, l) ∧ c < 2 ^ l ∧ 1 ≤ l ∧ l ≤ 25 ∧
    dmem tree (c, l) = true ∧ dget tree (c, l) 0 = s ∧
    ∀ j, 1 ≤ j → j < l → dmem tree (c >>> (l - j), j) = false

/-- Shape and decodability of one LZ77 token under a code book and decode
tree: a literal carries a byte and zero distance and length; a match
carries the `-1` marker, a window-bounded distance and a length in
`3..258`; in both cases the token's Huffman symbol decodes back to
itself. -/
def GoodTok (hf : Huffman.Huff) (tree : List ((Nat × Nat) × Nat)) (t : Token) : Prop :=
  (0 ≤ t.2.2 → t.1 = 0 ∧ t.2.1 = 0 ∧ t.2.2.toNat < 256 ∧
    DecodableSym hf tree t.2.2.toNat) ∧
  (t.2.2 < 0 → t.2.2 = -1 ∧ 1 ≤ t.1 ∧ t.1 ≤ 32768 ∧ 3 ≤ t.2.1 ∧ t.2.1 ≤ 258 ∧
    DecodableSym hf tree (256 + (t.2.1 - 3)))

/-! ### `main._safe_join` and the POSIX path functions it calls

`_safe_join` runs `os.path.abspath`, `os.path.join` and
`os.path.commonpath`; on POSIX these are `posixpath.abspath`,
`posixpath.join` and `posixpath.commonpath` (CPython), modelled here over
`List Char` with `os.sep = '/'` and `os.curdir = '.'`.  The working
directory is a parameter (`os.getcwd()` is always absolute). -/

/-- `posixpath.isabs`: the path starts with the separator. -/
def isAbs (p : List Char) : Bool := p.take 1 = ['/']

/-- Python `str.split('/')` (`''` splits to `['']`). -/
def splitSlash : List Char → List (List Char)
  | [] => [[]]
  | c :: rest =>
      if c = '/' then [] :: splitSlash rest
      else
        match splitSlash rest with
        | [] => [[c]]
        | s :: ss => (c :: s) :: ss

/-- Python `'/'.join(parts)`. -/
def joinSlash : List (List Char) → List Char
  | [] => []
  | [c] => c
  | c :: rest => c ++ '/' :: joinSlash rest

/-- The component-accumulation loop of `posixpath.normpath`: skip `''` and
`'.'`, append ordinary components, and let `'..'` pop the accumulator
except at the root of an absolute path or after an unresolved `'..'`. -/
def normLoop (initial_slashes : Nat) : List (List Char) → List (List Char) → List (List Char)
  | acc, [] => acc
  | acc, comp :: rest =>
      if comp = [] ∨ comp = ['.'] then normLoop initial_slashes acc rest
      else if comp ≠ ['.', '.'] ∨ (initial_slashes = 0 ∧ acc = []) ∨
          (acc ≠ [] ∧ acc.getLast? = some ['.', '.']) then
        normLoop initial_slashes (acc ++ [comp]) rest
      else if acc ≠ [] then normLoop initial_slashes acc.dropLast rest
      else normLoop initial_slashes acc rest

/-- `posixpath.normpath`. -/
def normpath (p : List Char) : List Char :=
  if p = [] then ['.']
  else
    let initial_slashes : Nat :=
      if p.take 1 = ['/'] then
        if p.take 2 = ['/', '/'] ∧ p.take 3 ≠ ['/', '/', '/'] then 2 else 1
      else 0
    let new_comps := normLoop initial_slashes [] (splitSlash p)
    let path := List.replicate initial_slashes '/' ++ joinSlash new_comps
    if path = [] then ['.'] else path

/-- `posixpath.join` for two arguments. -/
def pjoin (a b : List Char) : List Char :=
  if b.take 1 = ['/'] then b
  else if a = [] ∨ a.getLast? = some '/' then a ++ b
  else a ++ '/' :: b

/-- `posixpath.abspath`, with the process working directory `cwd` passed
explicitly. -/
def abspath (cwd p : List Char) : List Char :=
  if p.take 1 = ['/'] then normpath p else normpath (pjoin cwd p)

/-- Python string `<` (code-point lexicographic). -/
def strLt : List Char → List Char → Bool
  | _, [] => false
  | [], _ :: _ => true
  | a :: as, b :: bs => if a = b then strLt as bs else decide (a < b)

/-- Python list-of-strings `<` (lexicographic). -/
def strListLt : List (List Char) → List (List Char) → Bool
  | _, [] => false
  | [], _ :: _ => true
  | a :: as, b :: bs => if a = b then strListLt as bs else strLt a b

/-- The common-initial-segment loop of `posixpath.commonpath` (`common =
s1[:i]` at the first index where `min` and `max` disagree; when the
shorter list is exhausted it is the answer). -/
def commonInit : List (List Char) → List (List Char) → List (List Char)
  | a :: as, b :: bs => if a = b then a :: commonInit as bs else []
  | _, _ => []

/-- The filtered component list `posixpath.commonpath` compares: split on
`'/'`, drop empty components and `'.'`. -/
def comps (p : List Char) : List (List Char) :=
  (splitSlash p).filter (fun c => decide (c ≠ [] ∧ c ≠ ['.']))

/-- `posixpath.commonpath` for exactly two paths: mixing an absolute and a
relative path raises `ValueError`; otherwise take the component lists of
`min` and `max`, keep their common initial segment, and re-attach the
root for absolute inputs. -/
def commonpath2 (p q : List Char) : Except Perr (List Char) :=
  if isAbs p ≠ isAbs q then .error .valueError
  else
    let sp := comps p
    let sq := comps q
    let s1 := if strListLt sq sp then sq else sp
    let s2 := if strListLt sp sq then sq else sp
    let common := commonInit s1 s2
    .ok (if isAbs p then '/' :: joinSlash common else joinSlash common)

/-- `main._safe_join(base, arc_path)`: `base_abs = abspath(base)`,
`normalized = arc_path` with separators normalised (on POSIX only
backslashes are rewritten), `candidate = abspath(join(base_abs,
normalized))`; raise `ValueError` unless
`commonpath([candidate, base_abs]) == base_abs`. -/
def safe_join (cwd base arc : List Char) : Except Perr (List Char) :=
  let base_abs := abspath cwd base
  let normalized := arc.map (fun c => if c = '\\' then '/' else c)
  let candidate := abspath cwd (pjoin base_abs normalized)
  match commonpath2 candidate base_abs with
  | .error e => .error e
  | .ok cp => if cp ≠ base_abs then .error .valueError else .ok candidate

/-! ### Arithmetic facts about bits -/

theorem toBits_length (n v : Nat) : (toBits n v).length = n := by
  induction n generalizing v with
  | zero => rfl
  | succ n ih => simp [toBits, ih]

theorem toBits_lt_two (n v : Nat) : ∀ b ∈ toBits n v, b < 2 := by
  induction n generalizing v with
  | zero => simp [toBits]
  | succ n ih =>
      intro b hb
      simp only [toBits, List.mem_cons] at hb
      rcases hb with h | h
      · subst h; exact Nat.lt_succ_of_le (Nat.and_le_right)
      · exact ih v b h

theorem shiftRight_and_one (v n : Nat) : (v >>> n) &&& 1 = v / 2 ^ n % 2 := by
  rw [Nat.shiftRight_eq_div_pow, Nat.and_one_is_mod]

theorem toBits_mod (n v : Nat) : toBits n (v % 2 ^ n) = toBits n v := by
  induction n generalizing v with
  | zero => rfl
  | succ n ih =>
      simp only [toBits]
      congr 1
      · rw [shiftRight_and_one, shiftRight_and_one, pow_succ,
          Nat.mod_mul_right_div_self, Nat.mod_mod_of_dvd _ (dvd_refl 2)]
      · have h2 : v % 2 ^ (n + 1) % 2 ^ n = v % 2 ^ n := by
          rw [Nat.mod_mod_of_dvd _ (by rw [pow_succ]; exact ⟨2, rfl⟩)]
        rw [← ih (v % 2 ^ (n+1)), h2, ih]

theorem toBits_append (m n v : Nat) :
    toBits (m + n) v = toBits m (v >>> n) ++ toBits n v := by
  induction m with
  | zero => simp [toBits]
  | succ m ih =>
      have : m + 1 + n = (m + n) + 1 := by omega
      rw [this]
      simp only [toBits, ih, List.cons_append]
      congr 1
      rw [← Nat.shiftRight_add, Nat.add_comm n m]

theorem toBits_zero (n : Nat) : toBits n 0 = List.replicate n 0 := by
  induction n with
  | zero => rfl
  | succ n ih => simp [toBits, ih, List.replicate_succ, Nat.shiftRight_eq_div_pow]

theorem toBits_two_mul_add (n v b : Nat) (hb : b < 2) :
    toBits (n + 1) (2 * v + b) = toBits n v ++ [b] := by
  induction n generalizing v with
  | zero =>
      simp only [toBits, List.nil_append]
      rw [shiftRight_and_one]
      simp
      omega
  | succ n ih =>
      simp only [toBits] at ih ⊢
      rw [List.cons_append]
      congr 1
      · rw [shiftRight_and_one, shiftRight_and_one]
        have h : (2 * v + b) / 2 = v := by omega
        rw [pow_succ, Nat.mul_comm (2 ^ n) 2, ← Nat.div_div_eq_div_mul, h]
      · exact ih v

theorem two_mul_or_one (x : Nat) : 2 * x ||| 1 = 2 * x + 1 := by
  apply Nat.eq_of_testBit_eq
  intro i
  rw [Nat.testBit_or]
  cases i with
  | zero =>
      rw [Nat.testBit_zero, Nat.testBit_zero, Nat.testBit_zero]
      simp
      omega
  | succ n =>
      rw [Nat.testBit_succ, Nat.testBit_succ, Nat.testBit_succ]
      have h1 : 2 * x / 2 = x := by omega
      have h2 : (2 * x + 1) / 2 = x := by omega
      have h3 : (1:Nat) / 2 = 0 := by omega
      rw [h1, h2, h3]
      simp

theorem shiftLeft_or_bit (x b : Nat) (hb : b < 2) : (x <<< 1) ||| b = 2 * x + b := by
  have hx : x <<< 1 = 2 * x := by rw [Nat.shiftLeft_eq]; ring
  interval_cases b
  · simp [hx]
  · rw [hx, two_mul_or_one]

theorem bytesToBits_nil : bytesToBits [] = [] := rfl

theorem bytesToBits_cons (b : Nat) (bs : List Nat) :
    bytesToBits (b :: bs) = toBits 8 b ++ bytesToBits bs := rfl

theorem bytesToBits_append (a b : List Nat) :
    bytesToBits (a ++ b) = bytesToBits a ++ bytesToBits b := by
  simp [bytesToBits, List.flatMap_append]

theorem bytesToBits_length (bs : List Nat) : (bytesToBits bs).length = 8 * bs.length := by
  induction bs with
  | nil => rfl
  | cons b t ih =>
      rw [bytesToBits_cons, List.length_append, toBits_length, ih, List.length_cons]
      ring

theorem toBits_getD (n v i : Nat) (h : i < n) :
    (toBits n v).getD i 0 = (v >>> (n - 1 - i)) &&& 1 := by
  induction n generalizing i with
  | zero => omega
  | succ n ih =>
      cases i with
      | zero => simp [toBits]
      | succ i =>
          have hi : i < n := by omega
          simp only [toBits, List.getD_cons_succ]
          rw [ih i hi]
          congr 2
          omega

theorem bytesToBits_getD (B : List Nat) (k : Nat) (h : k < 8 * B.length) :
    (bytesToBits B).getD k 0 = (B.getD (k / 8) 0 >>> (7 - k % 8)) &&& 1 := by
  induction B generalizing k with
  | nil => simp at h
  | cons b bs ih =>
      rw [bytesToBits_cons]
      by_cases hk : k < 8
      · rw [List.getD_append _ _ _ _ (by rw [toBits_length]; exact hk)]
        rw [toBits_getD 8 b k hk]
        have h1 : k / 8 = 0 := Nat.div_eq_of_lt hk
        have h2 : k % 8 = k := Nat.mod_eq_of_lt hk
        rw [h1, h2]
        rfl
      · have h8 : 8 ≤ k := by omega
        rw [List.getD_append_right _ _ _ _ (by rw [toBits_length]; exact h8)]
        rw [toBits_length]
        have hlen : k - 8 < 8 * bs.length := by simp at h; omega
        rw [ih _ hlen]
        have h1 : (k - 8) / 8 = k / 8 - 1 := by omega
        have h2 : (k - 8) % 8 = k % 8 := by omega
        have h3 : 1 ≤ k / 8 := by omega
        rw [h1, h2]
        congr 2
        cases hq : k / 8 with
        | zero => omega
        | succ q => simp

theorem drop_eq_cons_getD {α : Type} (l : List α) (k : Nat) (x : α) (xs : List α) (d : α)
    (h : l.drop k = x :: xs) :
    l.getD k d = x ∧ l.drop (k + 1) = xs ∧ k < l.length := by
  have hk : k < l.length := by
    by_contra hk
    rw [List.drop_eq_nil_of_le (by omega)] at h
    exact List.noConfusion h
  refine ⟨?_, ?_, hk⟩
  · have h0 : l[k]? = some x := by
      have hd := List.getElem?_drop l k 0
      rw [Nat.add_zero, h] at hd
      simpa using hd.symm
    rw [List.getD_eq_getD_get?, List.get?_eq_getElem?, h0]
    rfl
  · have hdd : l.drop (k + 1) = (l.drop k).drop 1 := by
      rw [List.drop_drop, Nat.add_comm]
    rw [hdd, h]
    rfl

/-! ### Writer semantics: the bit stream produced so far -/

namespace BitWriter

theorem winit_inv : Inv init := ⟨by simp [init], by simp [init], by simp [init]⟩

theorem init_wbits : wbits init = [] := rfl

theorem wbits_length (w : BitWriter) :
    (wbits w).length = 8 * w.buffer.length + w.bit_count := by
  simp [wbits, bytesToBits_length, toBits_length]

theorem bit_count_eq_mod (w : BitWriter) (hw : Inv w) :
    w.bit_count = (wbits w).length % 8 := by
  rw [wbits_length, Nat.add_comm, Nat.add_mul_mod_self_left,
    Nat.mod_eq_of_lt hw.cnt]

theorem bytesToBits_singleton (x : Nat) : bytesToBits [x] = toBits 8 x := by
  simp [bytesToBits]

theorem push1_spec (w : BitWriter) (b : Nat) (hw : Inv w) (hb : b < 2) :
    Inv (w.push1 b) ∧ (w.push1 b).wbits = w.wbits ++ [b] := by
  have hacc : (w.bit_buffer <<< 1) ||| b = 2 * w.bit_buffer + b :=
    shiftLeft_or_bit _ _ hb
  by_cases h8 : w.bit_count + 1 = 8
  · have hc7 : w.bit_count = 7 := by omega
    have hdef : w.push1 b = ⟨w.buffer ++ [2 * w.bit_buffer + b], 0, 0⟩ := by
      unfold push1
      simp only [hacc]
      rw [if_pos h8]
    rw [hdef]
    constructor
    · refine ⟨?_, by norm_num, by norm_num⟩
      intro x hx
      rcases List.mem_append.mp hx with h | h
      · exact hw.bytes x h
      · simp at h
        subst h
        have hb2 := hw.acc
        rw [hc7] at hb2
        norm_num at hb2 ⊢
        omega
    · simp only [wbits, bytesToBits_append, bytesToBits_singleton]
      rw [toBits_two_mul_add 7 _ _ hb, hc7]
      simp [toBits]
  · have hdef : w.push1 b = ⟨w.buffer, 2 * w.bit_buffer + b, w.bit_count + 1⟩ := by
      unfold push1
      simp only [hacc]
      rw [if_neg h8]
    rw [hdef]
    constructor
    · refine ⟨hw.bytes, by show w.bit_count + 1 < 8; have := hw.cnt; omega, ?_⟩
      have hb2 := hw.acc
      show 2 * w.bit_buffer + b < 2 ^ (w.bit_count + 1)
      rw [pow_succ]
      omega
    · simp only [wbits]
      rw [toBits_two_mul_add _ _ _ hb]
      simp

theorem write_bits_zero (w : BitWriter) (v : Nat) : w.write_bits v 0 = w := rfl

theorem write_bits_succ (w : BitWriter) (v n : Nat) :
    w.write_bits v (n + 1) = (w.push1 ((v >>> n) &&& 1)).write_bits v n := rfl

theorem write_bits_spec (w : BitWriter) (v : Nat) (n : Nat) (hw : Inv w) :
    Inv (w.write_bits v n) ∧ (w.write_bits v n).wbits = w.wbits ++ toBits n v := by
  induction n generalizing w with
  | zero => simpa [write_bits_zero, toBits] using hw
  | succ n ih =>
      have hb : (v >>> n) &&& 1 < 2 := Nat.lt_succ_of_le Nat.and_le_right
      obtain ⟨hinv1, hbits1⟩ := push1_spec w ((v >>> n) &&& 1) hw hb
      obtain ⟨hinv2, hbits2⟩ := ih _ hinv1
      rw [write_bits_succ]
      refine ⟨hinv2, ?_⟩
      rw [hbits2, hbits1, List.append_assoc]
      rfl

theorem write_bytes_aligned_spec (w : BitWriter) (data : List Nat) (hw : Inv w)
    (hc : w.bit_count = 0) (hd : ∀ b ∈ data, b < 256) :
    Inv (w.write_bytes data) ∧
    (w.write_bytes data).wbits = w.wbits ++ bytesToBits data ∧
    (w.write_bytes data).bit_count = 0 := by
  have hdef : w.write_bytes data = ⟨w.buffer ++ data, w.bit_buffer, w.bit_count⟩ := by
    unfold write_bytes
    rw [hc]
    simp
  rw [hdef]
  refine ⟨⟨?_, hw.cnt, hw.acc⟩, ?_, hc⟩
  · intro x hx
    rcases List.mem_append.mp hx with h | h
    · exact hw.bytes x h
    · exact hd x h
  · simp only [wbits, bytesToBits_append, hc, toBits]
    simp

theorem flush_spec (w : BitWriter) (hw : Inv w) :
    bytesToBits (w.flush) =
      w.wbits ++ List.replicate ((8 - (wbits w).length % 8) % 8) 0 ∧
    (∀ b ∈ w.flush, b < 256) ∧
    (w.flush).length = ((wbits w).length + 7) / 8 := by
  have hmod := bit_count_eq_mod w hw
  have hlen := wbits_length w
  unfold flush
  by_cases hc : 0 < w.bit_count
  · simp only [if_pos hc]
    have hcnt := hw.cnt
    have hacc := hw.acc
    have hsh : w.bit_buffer <<< (8 - w.bit_count) = w.bit_buffer * 2 ^ (8 - w.bit_count) :=
      Nat.shiftLeft_eq _ _
    have hpad : toBits 8 (w.bit_buffer * 2 ^ (8 - w.bit_count)) =
        toBits w.bit_count w.bit_buffer ++ List.replicate (8 - w.bit_count) 0 := by
      have hsplit : toBits (w.bit_count + (8 - w.bit_count)) (w.bit_buffer * 2 ^ (8 - w.bit_count)) =
          toBits w.bit_count ((w.bit_buffer * 2 ^ (8 - w.bit_count)) >>> (8 - w.bit_count))
            ++ toBits (8 - w.bit_count) (w.bit_buffer * 2 ^ (8 - w.bit_count)) :=
        toBits_append _ _ _
      have h8 : w.bit_count + (8 - w.bit_count) = 8 := by omega
      rw [h8] at hsplit
      rw [hsplit]
      congr 1
      · congr 1
        rw [Nat.shiftRight_eq_div_pow]
        exact Nat.mul_div_cancel _ (pow_pos (by norm_num) _)
      · rw [← toBits_mod, Nat.mul_mod_left, toBits_zero]
    constructor
    · have hcount : (8 - (wbits w).length % 8) % 8 = 8 - w.bit_count := by
        rw [← hmod]
        omega
      rw [hcount, bytesToBits_append, bytesToBits_singleton, hsh, hpad, wbits,
        ← List.append_assoc]
    constructor
    · intro x hx
      rcases List.mem_append.mp hx with h | h
      · exact hw.bytes x h
      · simp at h
        subst h
        rw [hsh]
        calc w.bit_buffer * 2 ^ (8 - w.bit_count)
            < 2 ^ w.bit_count * 2 ^ (8 - w.bit_count) := by
              exact (Nat.mul_lt_mul_right (pow_pos (by norm_num) _)).mpr hacc
          _ = 256 := by
              rw [← pow_add]
              have h8 : w.bit_count + (8 - w.bit_count) = 8 := by omega
              rw [h8]
              norm_num
    · rw [List.length_append]
      simp only [List.length_cons, List.length_nil]
      omega
  · simp only [if_neg hc]
    have hc0 : w.bit_count = 0 := by omega
    refine ⟨?_, hw.bytes, ?_⟩
    · rw [← hmod, hc0]
      simp [wbits, hc0, toBits]
    · omega

end BitWriter

/-! ### Reader semantics: position in the bit stream -/

namespace BitReader

theorem init_inv (B : List Nat) : Inv B 0 (init B) :=
  ⟨rfl, Nat.zero_le _, rfl, by norm_num [init], fun h => absurd rfl h⟩

theorem read_bits_go_zero (s : BitReader) (acc : Nat) :
    s.read_bits_go 0 acc = .ok (acc, s) := rfl

theorem read_bits_go_succ (s : BitReader) (n acc : Nat) :
    s.read_bits_go (n + 1) acc =
      match s.read1 with
      | .error e => .error e
      | .ok (b, s') => s'.read_bits_go n ((acc <<< 1) ||| b) := rfl

theorem read1_spec (B : List Nat) (k : Nat) (s : BitReader) (hs : Inv B k s)
    (hk : k < 8 * B.length) (hB : ∀ b ∈ B, b < 256) :
    ∃ s', s.read1 = .ok ((bytesToBits B).getD k 0, s') ∧ Inv B (k + 1) s' := by
  obtain ⟨hdata, hposle, hpos8, hcnt, hbuf⟩ := hs
  subst hdata
  have hbit := bytesToBits_getD s.data k hk
  by_cases hc : s.bit_count = 0
  · have hpos : 8 * s.pos = k := by omega
    have hplt : s.pos < s.data.length := by omega
    refine ⟨⟨s.data, s.pos + 1, s.data.getD s.pos 0, 7⟩, ?_, ?_⟩
    · have hdef : s.read1 = .ok ((s.data.getD s.pos 0 >>> 7) &&& 1,
          ⟨s.data, s.pos + 1, s.data.getD s.pos 0, 7⟩) := by
        unfold read1
        rw [if_pos hc, if_neg (by omega)]
      rw [hdef, hbit]
      have h1 : k / 8 = s.pos := by omega
      have h2 : k % 8 = 0 := by omega
      rw [h1, h2]
    · refine ⟨rfl, ?_, ?_, ?_, fun _ => by simp⟩
      · show s.pos + 1 ≤ s.data.length
        omega
      · show 8 * (s.pos + 1) = (k + 1) + 7
        omega
      · show (7:Nat) < 8
        norm_num
  · have hc1 : 1 ≤ s.bit_count := by omega
    have hpos1 : 1 ≤ s.pos := by omega
    refine ⟨⟨s.data, s.pos, s.bit_buffer, s.bit_count - 1⟩, ?_, ?_⟩
    · have hdef : s.read1 = .ok ((s.bit_buffer >>> (s.bit_count - 1)) &&& 1,
          ⟨s.data, s.pos, s.bit_buffer, s.bit_count - 1⟩) := by
        unfold read1
        rw [if_neg hc]
      rw [hdef, hbit, hbuf hc]
      have h1 : k / 8 = s.pos - 1 := by omega
      have h2 : k % 8 = 8 - s.bit_count := by omega
      rw [h1, h2]
      have h3 : 7 - (8 - s.bit_count) = s.bit_count - 1 := by omega
      rw [h3]
    · refine ⟨rfl, hposle, ?_, ?_, ?_⟩
      · show 8 * s.pos = (k + 1) + (s.bit_count - 1)
        omega
      · show s.bit_count - 1 < 8
        omega
      · intro h
        exact hbuf hc

theorem read_bits_go_spec (B : List Nat) (hB : ∀ b ∈ B, b < 256) :
    ∀ (n : Nat) (acc v : Nat) (rest : List Nat) (k : Nat) (s : BitReader),
      Inv B k s → (bytesToBits B).drop k = toBits n v ++ rest → v < 2 ^ n →
      ∃ s', s.read_bits_go n acc = .ok (acc * 2 ^ n + v, s') ∧ Inv B (k + n) s' ∧
            (bytesToBits B).drop (k + n) = rest := by
  intro n
  induction n with
  | zero =>
      intro acc v rest k s hs hdrop hv
      have hv0 : v = 0 := by omega
      subst hv0
      refine ⟨s, ?_, by simpa using hs, by simpa [toBits] using hdrop⟩
      rw [read_bits_go_zero]
      norm_num
  | succ n ih =>
      intro acc v rest k s hs hdrop hv
      have hcons : (bytesToBits B).drop k = ((v >>> n) &&& 1) :: (toBits n v ++ rest) := by
        rw [hdrop]
        rfl
      obtain ⟨hget, hdrop1, hklt⟩ := drop_eq_cons_getD _ _ _ _ 0 hcons
      have hklt8 : k < 8 * B.length := by
        rw [bytesToBits_length] at hklt
        exact hklt
      obtain ⟨s1, hr1, hs1⟩ := read1_spec B k s hs hklt8 hB
      rw [hget] at hr1
      have hb2 : (v >>> n) &&& 1 < 2 := Nat.lt_succ_of_le Nat.and_le_right
      have hdrop1' : (bytesToBits B).drop (k + 1) = toBits n (v % 2 ^ n) ++ rest := by
        rw [hdrop1, toBits_mod]
      obtain ⟨s2, hr2, hs2, hrest⟩ :=
        ih ((acc <<< 1) ||| ((v >>> n) &&& 1)) (v % 2 ^ n) rest (k + 1) s1 hs1 hdrop1'
          (Nat.mod_lt _ (pow_pos (by norm_num) _))
      refine ⟨s2, ?_, by simpa [Nat.add_assoc, Nat.add_comm 1 n] using hs2,
        by rw [show k + (n + 1) = k + 1 + n by omega]; exact hrest⟩
      rw [read_bits_go_succ, hr1]
      show s1.read_bits_go n ((acc <<< 1) ||| ((v >>> n) &&& 1)) = _
      rw [hr2]
      congr 2
      have hbv : (v >>> n) &&& 1 = v / 2 ^ n := by
        rw [shiftRight_and_one]
        have hlt : v / 2 ^ n < 2 := by
          apply (Nat.div_lt_iff_lt_mul (pow_pos (by norm_num) _)).mpr
          have h21 : (2:Nat) ^ (n + 1) = 2 ^ n * 2 := pow_succ 2 n
          omega
        exact Nat.mod_eq_of_lt hlt
      rw [shiftLeft_or_bit _ _ hb2, hbv]
      have hsplit : 2 ^ n * (v / 2 ^ n) + v % 2 ^ n = v := Nat.div_add_mod _ _
      rw [pow_succ]
      calc (2 * acc + v / 2 ^ n) * 2 ^ n + v % 2 ^ n
          = acc * (2 ^ n * 2) + (2 ^ n * (v / 2 ^ n) + v % 2 ^ n) := by ring
        _ = acc * (2 ^ n * 2) + v := by rw [hsplit]

theorem read_bits_spec (B : List Nat) (hB : ∀ b ∈ B, b < 256) (n v : Nat)
    (rest : List Nat) (k : Nat) (s : BitReader) (hs : Inv B k s)
    (hdrop : (bytesToBits B).drop k = toBits n v ++ rest) (hv : v < 2 ^ n) :
    ∃ s', s.read_bits n = .ok (v, s') ∧ Inv B (k + n) s' ∧
          (bytesToBits B).drop (k + n) = rest := by
  obtain ⟨s', hr, hs', hrest⟩ := read_bits_go_spec B hB n 0 v rest k s hs hdrop hv
  exact ⟨s', by simpa [read_bits] using hr, hs', hrest⟩

theorem read_bytes_spec (B : List Nat) (k : Nat) (s : BitReader) (m : Nat)
    (hs : Inv B k s) (hc : s.bit_count = 0) (hm : s.pos + m ≤ B.length) :
    s.read_bytes m = ((B.drop s.pos).take m, ⟨B, s.pos + m, s.bit_buffer, 0⟩) ∧
    Inv B (k + 8 * m) ⟨B, s.pos + m, s.bit_buffer, 0⟩ := by
  constructor
  · unfold read_bytes
    rw [hs.data]
  · refine ⟨rfl, hm, ?_, by show (0:Nat) < 8; norm_num, fun h => absurd rfl h⟩
    show 8 * (s.pos + m) = k + 8 * m + 0
    have hp8 := hs.pos8
    omega

theorem read_bits_exhausted (s : BitReader) (n : Nat) (hc : s.bit_count = 0)
    (hp : s.data.length ≤ s.pos) (hn : 0 < n) :
    s.read_bits n = .error Perr.eofError := by
  cases n with
  | zero => omega
  | succ m =>
      have h1 : s.read1 = .error Perr.eofError := by
        unfold read1
        rw [if_pos hc, if_pos hp]
      show s.read_bits_go (m + 1) 0 = .error Perr.eofError
      rw [read_bits_go_succ, h1]

end BitReader


/-! ### Claim C10 -/

/-- C10: `BitReader.read_bytes` never raises on exhausted input: when fewer
than `n` bytes remain past the byte cursor, `read_bytes n` returns the
shorter remaining slice (`data[pos:]`, of length `< n`, possibly empty) and
still advances the cursor by `n`, past the end of the data — unlike
`read_bits`, which raises `Truncated` (`EOFError`) when the source is
exhausted mid-read. -/
theorem C10_read_bytes_total (s : BitReader) (n : Nat)
    (h : s.data.length - s.pos < n) :
    (s.read_bytes n).1 = s.data.drop s.pos ∧
    (s.read_bytes n).1.length < n ∧
    (s.read_bytes n).2.pos = s.pos + n ∧
    s.data.length < (s.read_bytes n).2.pos ∧
    (∀ (r : BitReader) (m : Nat), r.bit_count = 0 → r.data.length ≤ r.pos →
      0 < m → r.read_bits m = .error Perr.eofError) := by
  refine ⟨?_, ?_, rfl, ?_, fun r m hc hp hm => BitReader.read_bits_exhausted r m hc hp hm⟩
  · show (s.data.drop s.pos).take n = s.data.drop s.pos
    apply List.take_of_length_le
    rw [List.length_drop]
    omega
  · show ((s.data.drop s.pos).take n).length < n
    rw [List.length_take, List.length_drop]
    omega
  · show s.data.length < s.pos + n
    omega

/-- Witness for C10 at a concrete exhausted reader: one byte of data, the
cursor already at the end, a two-byte read requested. -/
theorem C10_read_bytes_total_witness :
    (⟨[7], 1, 0, 0⟩ : BitReader).data.length - 1 < 2 ∧
    (((⟨[7], 1, 0, 0⟩ : BitReader).read_bytes 2).1 = ([7] : List Nat).drop 1 ∧
     ((⟨[7], 1, 0, 0⟩ : BitReader).read_bytes 2).1.length < 2 ∧
     ((⟨[7], 1, 0, 0⟩ : BitReader).read_bytes 2).2.pos = 1 + 2 ∧
     (⟨[7], 1, 0, 0⟩ : BitReader).data.length < ((⟨[7], 1, 0, 0⟩ : BitReader).read_bytes 2).2.pos ∧
     (∀ (r : BitReader) (m : Nat), r.bit_count = 0 → r.data.length ≤ r.pos →
       0 < m → r.read_bits m = .error Perr.eofError)) :=
  ⟨by decide, C10_read_bytes_total ⟨[7], 1, 0, 0⟩ 2 (by decide)⟩


/-! ### Dictionary lemmas -/

theorem dget_nil {κ α : Type} [DecidableEq κ] (k : κ) (dflt : α) :
    dget ([] : List (κ × α)) k dflt = dflt := rfl

theorem dget_cons {κ α : Type} [DecidableEq κ] (p : κ × α) (t : List (κ × α)) (k : κ)
    (dflt : α) : dget (p :: t) k dflt = if p.1 = k then p.2 else dget t k dflt := by
  by_cases h : p.1 = k
  · rw [if_pos h]
    unfold dget
    rw [List.find?_cons_of_pos _ (by simpa using h)]
  · rw [if_neg h]
    unfold dget
    rw [List.find?_cons_of_neg _ (by simpa using h)]

theorem dmem_cons {κ α : Type} [DecidableEq κ] (p : κ × α) (t : List (κ × α)) (k : κ) :
    dmem (p :: t) k = (decide (p.1 = k) || dmem t k) := by
  unfold dmem
  simp

theorem dset_nil {κ α : Type} [DecidableEq κ] (k : κ) (v : α) :
    dset ([] : List (κ × α)) k v = [(k, v)] := rfl

theorem dset_cons_eq {κ α : Type} [DecidableEq κ] (p : κ × α) (t : List (κ × α)) (k : κ)
    (v : α) (hp : p.1 = k) :
    dset (p :: t) k v = (k, v) :: t.map (fun q => if q.1 = k then (k, v) else q) := by
  unfold dset
  rw [if_pos (by rw [dmem_cons]; simp [hp])]
  simp [hp]

theorem dset_cons_ne {κ α : Type} [DecidableEq κ] (p : κ × α) (t : List (κ × α)) (k : κ)
    (v : α) (hp : ¬ p.1 = k) :
    dset (p :: t) k v = p :: dset t k v := by
  unfold dset
  rw [dmem_cons]
  by_cases hm : dmem t k
  · rw [hm]
    simp [hp]
  · simp only [hm]
    simp [hp]

theorem dget_dset_self {κ α : Type} [DecidableEq κ] (d : List (κ × α)) (k : κ) (v : α)
    (dflt : α) : dget (dset d k v) k dflt = v := by
  induction d with
  | nil => rw [dset_nil, dget_cons]; simp
  | cons p t ih =>
      by_cases hp : p.1 = k
      · rw [dset_cons_eq _ _ _ _ hp, dget_cons]
        simp
      · rw [dset_cons_ne _ _ _ _ hp, dget_cons, if_neg hp]
        exact ih

theorem dget_map_replace {κ α : Type} [DecidableEq κ] (t : List (κ × α)) (k k' : κ)
    (v : α) (dflt : α) (hne : ¬ k' = k) :
    dget (t.map (fun q => if q.1 = k then (k, v) else q)) k' dflt = dget t k' dflt := by
  induction t with
  | nil => rfl
  | cons q t ih =>
      by_cases hq : q.1 = k
      · simp only [List.map_cons, if_pos hq]
        rw [dget_cons, dget_cons, if_neg (fun hh => hne hh.symm), if_neg (by rw [hq]; exact fun hh => hne hh.symm)]
        exact ih
      · simp only [List.map_cons, if_neg hq]
        rw [dget_cons, dget_cons]
        by_cases hq' : q.1 = k'
        · rw [if_pos hq', if_pos hq']
        · rw [if_neg hq', if_neg hq']
          exact ih

theorem dget_dset_ne {κ α : Type} [DecidableEq κ] (d : List (κ × α)) (k k' : κ) (v : α)
    (dflt : α) (hne : ¬ k' = k) : dget (dset d k v) k' dflt = dget d k' dflt := by
  induction d with
  | nil =>
      rw [dset_nil, dget_cons, if_neg (fun hh => hne hh.symm)]
  | cons p t ih =>
      by_cases hp : p.1 = k
      · rw [dset_cons_eq _ _ _ _ hp, dget_cons, if_neg (fun hh => hne hh.symm),
          dget_map_replace _ _ _ _ _ hne, dget_cons, if_neg (by rw [hp]; exact fun hh => hne hh.symm)]
      · rw [dset_cons_ne _ _ _ _ hp, dget_cons, dget_cons]
        by_cases hq : p.1 = k'
        · rw [if_pos hq, if_pos hq]
        · rw [if_neg hq, if_neg hq]
          exact ih

theorem mem_dset {κ α : Type} [DecidableEq κ] (d : List (κ × α)) (k : κ) (v : α)
    (q : κ × α) (hq : q ∈ dset d k v) : q = (k, v) ∨ q ∈ d := by
  unfold dset at hq
  by_cases hm : dmem d k
  · rw [if_pos hm] at hq
    obtain ⟨p, hp, hpq⟩ := List.mem_map.mp hq
    by_cases hpk : p.1 = k
    · rw [if_pos hpk] at hpq
      exact Or.inl hpq.symm
    · rw [if_neg hpk] at hpq
      exact Or.inr (hpq ▸ hp)
  · rw [if_neg hm] at hq
    rcases List.mem_append.mp hq with h | h
    · exact Or.inr h
    · simp at h
      exact Or.inl h

theorem dget_mem {κ α : Type} [DecidableEq κ] (d : List (κ × α)) (k : κ) (dflt : α) :
    dget d k dflt = dflt ∨ (k, dget d k dflt) ∈ d := by
  unfold dget
  cases hf : d.find? (fun p => decide (p.1 = k)) with
  | none => exact Or.inl rfl
  | some p =>
      right
      have hmem := List.mem_of_find?_eq_some hf
      have hkey : p.1 = k := by
        have := List.find?_some hf
        simpa using this
      have : (k, p.2) = p := by
        rw [← hkey]
      rw [this]
      exact hmem


/-! ### LZ77 loop-step lemmas -/

namespace LZ77

theorem compress_loop_exit (data : List Nat) (tokens : List Token)
    (freq : List (Nat × Nat)) (ht : List (Nat × List Nat)) (fuel pos : Nat)
    (h : ¬ pos < data.length) :
    compress_loop data fuel pos tokens freq ht = (tokens, freq, ht) := by
  cases fuel with
  | zero => rfl
  | succ f =>
      show (if pos < data.length then _ else (tokens, freq, ht)) = (tokens, freq, ht)
      rw [if_neg h]

theorem compress_loop_match (data : List Nat) (tokens : List Token)
    (freq : List (Nat × Nat)) (ht : List (Nat × List Nat)) (fuel pos : Nat)
    (h : pos < data.length)
    (hm : MIN_MATCH ≤ (find_best_match ht data pos).1.2) :
    compress_loop data (fuel + 1) pos tokens freq ht =
      compress_loop data fuel (pos + (find_best_match ht data pos).1.2)
        (tokens ++ [((find_best_match ht data pos).1.1,
          (find_best_match ht data pos).1.2, -1)])
        (dincr freq (256 + ((find_best_match ht data pos).1.2 - MIN_MATCH)))
        (find_best_match ht data pos).2 := by
  show (if pos < data.length then _ else _) = _
  rw [if_pos h]
  show (if MIN_MATCH ≤ (find_best_match ht data pos).1.2 then _ else _) = _
  rw [if_pos hm]

theorem compress_loop_literal (data : List Nat) (tokens : List Token)
    (freq : List (Nat × Nat)) (ht : List (Nat × List Nat)) (fuel pos : Nat)
    (h : pos < data.length)
    (hm : ¬ MIN_MATCH ≤ (find_best_match ht data pos).1.2) :
    compress_loop data (fuel + 1) pos tokens freq ht =
      compress_loop data fuel (pos + 1)
        (tokens ++ [(0, 0, Int.ofNat (data.getD pos 0))])
        (dincr freq (data.getD pos 0))
        (find_best_match ht data pos).2 := by
  show (if pos < data.length then _ else _) = _
  rw [if_pos h]
  show (if MIN_MATCH ≤ (find_best_match ht data pos).1.2 then _ else _) = _
  rw [if_neg hm]

/-! ### LZ77 on uniform (all-`97`) data -/

theorem getD_replicate (n i a : Nat) (h : i < n) :
    (List.replicate n a).getD i 0 = a := by
  rw [List.getD_eq_getElem?_getD, List.getElem?_replicate, if_pos h]
  rfl

theorem hash3_uniform (N pos : Nat) (h : pos + 3 ≤ N) :
    hash3 (List.replicate N 97) pos = 6381921 := by
  unfold hash3
  rw [List.length_replicate, if_neg (by omega)]
  rw [getD_replicate _ _ _ (by omega), getD_replicate _ _ _ (by omega),
    getD_replicate _ _ _ (by omega)]
  decide

theorem extend_match_uniform (N prev pos max_len : Nat) (hprev : prev < pos)
    (hmax : pos + max_len ≤ N) :
    ∀ l : Nat, l ≤ max_len →
      extend_match (List.replicate N 97) prev pos max_len l = max_len := by
  suffices hgen : ∀ d l, l ≤ max_len → max_len - l = d →
      extend_match_go (List.replicate N 97) prev pos max_len d l = max_len by
    intro l hl
    exact hgen (max_len - l) l hl rfl
  intro d
  induction d with
  | zero =>
      intro l hl hd
      have hl' : l = max_len := by omega
      subst hl'
      rfl
  | succ d ih =>
      intro l hl hd
      have hlt : l < max_len := by omega
      show (if l < max_len ∧ _ then _ else l) = max_len
      rw [if_pos ⟨hlt, by
        rw [getD_replicate _ _ _ (by omega), getD_replicate _ _ _ (by omega)]⟩]
      exact ih (l + 1) (by omega) (by omega)

theorem take3_drop_replicate (N i : Nat) (h : i + 3 ≤ N) :
    ((List.replicate N 97).drop i).take 3 = List.replicate 3 97 := by
  rw [List.drop_replicate, List.take_replicate]
  congr 1
  omega

theorem match_loop_first_max (data : List Nat) (pos ws max_len : Nat)
    (prev : Nat) (rest : List Nat)
    (h1 : ws ≤ prev) (h2 : prev < pos)
    (h3 : (data.drop prev).take 3 = (data.drop pos).take 3)
    (h4 : extend_match data prev pos max_len 3 = max_len)
    (h5 : 2 < max_len) :
    match_loop data pos ws max_len (prev :: rest) 0 2 0 = (pos - prev, max_len) := by
  unfold match_loop
  rw [if_neg (by omega), if_neg (by norm_num [MAX_HASH_CHAIN]),
    if_neg (by omega), if_neg (by simp [h3]), h4, if_pos h5, if_pos rfl]

theorem find_best_match_uniform (N pos prev : Nat) (ht : List (Nat × List Nat))
    (bs : List Nat) (hbucket : dget ht 6381921 [] = bs ++ [prev])
    (hprev : prev < pos) (hwin : pos - 32768 ≤ prev) (hpos3 : pos + 3 ≤ N)
    (hblen : bs.length + 1 ≤ 256) :
    find_best_match ht (List.replicate N 97) pos =
      ((pos - prev, min 258 (N - pos)), dset ht 6381921 (bs ++ [prev] ++ [pos])) := by
  have hml : 2 < min 258 (N - pos) := by omega
  have hext : extend_match (List.replicate N 97) prev pos (min 258 (N - pos)) 3 =
      min 258 (N - pos) :=
    extend_match_uniform N prev pos _ hprev (by omega) 3 (by omega)
  have hloop := match_loop_first_max (List.replicate N 97) pos (pos - 32768)
    (min 258 (N - pos)) prev bs.reverse hwin hprev
    (by rw [take3_drop_replicate _ _ (by omega), take3_drop_replicate _ _ hpos3])
    hext hml
  unfold find_best_match
  rw [List.length_replicate, if_neg (by simp only [MIN_MATCH]; omega)]
  simp only [hash3_uniform N pos hpos3, hbucket, List.reverse_append,
    List.reverse_cons, List.reverse_nil, List.nil_append, List.cons_append,
    MIN_MATCH, MAX_MATCH, WINDOW_SIZE]
  rw [hloop]
  rw [if_pos (show 3 ≤ 258 ⊓ (N - pos) by omega),
    if_neg (show ¬ 256 < (bs ++ [prev]).length by simp; omega)]

theorem find_best_match_pos0 (N : Nat) (h3 : 3 ≤ N) :
    find_best_match [] (List.replicate N 97) 0 = ((0, 0), [(6381921, [0])]) := by
  unfold find_best_match
  rw [List.length_replicate, if_neg (by simp only [MIN_MATCH]; omega)]
  rw [hash3_uniform N 0 (by omega)]
  rfl

end LZ77


/-! ### C9: bucket size bounds and the 257-entry run -/

namespace LZ77

theorem find_best_match_bound (ht : List (Nat × List Nat)) (data : List Nat)
    (pos : Nat) (hht : ∀ p ∈ ht, p.2.length ≤ 257) :
    ∀ p ∈ (find_best_match ht data pos).2, p.2.length ≤ 257 := by
  unfold find_best_match
  by_cases hc : data.length < pos + MIN_MATCH
  · rw [if_pos hc]
    exact hht
  · rw [if_neg hc]
    intro p hp
    simp only at hp
    rcases mem_dset _ _ _ _ hp with h | h
    · subst h
      simp only
      have hb : (dget ht (hash3 data pos) []).length ≤ 257 := by
        rcases dget_mem ht (hash3 data pos) ([] : List Nat) with h0 | h0
        · rw [h0]
          simp
        · exact hht _ h0
      by_cases h256 : 256 < (dget ht (hash3 data pos) []).length
      · rw [if_pos h256]
        rw [List.length_append, List.length_tail]
        simp
        omega
      · rw [if_neg h256]
        rw [List.length_append]
        simp
        omega
    · exact hht p h

theorem compress_loop_bound (data : List Nat) :
    ∀ (fuel pos : Nat) (tokens : List Token) (freq : List (Nat × Nat))
      (ht : List (Nat × List Nat)),
      (∀ p ∈ ht, p.2.length ≤ 257) →
      ∀ p ∈ (compress_loop data fuel pos tokens freq ht).2.2, p.2.length ≤ 257 := by
  intro fuel
  induction fuel with
  | zero =>
      intro pos tokens freq ht hht
      exact hht
  | succ fuel ih =>
      intro pos tokens freq ht hht
      by_cases hlt : pos < data.length
      · have hstep := find_best_match_bound ht data pos hht
        by_cases hm : MIN_MATCH ≤ (find_best_match ht data pos).1.2
        · rw [compress_loop_match data tokens freq ht fuel pos hlt hm]
          exact ih _ _ _ _ hstep
        · rw [compress_loop_literal data tokens freq ht fuel pos hlt hm]
          exact ih _ _ _ _ hstep
      · rw [compress_loop_exit data tokens freq ht (fuel + 1) pos hlt]
        exact hht

end LZ77

/-- C9 (amended): each `_find_best_match` insertion keeps every bucket at
257 = `BUCKET_LIMIT + 1` entries or fewer (the oldest entry is dropped
before appending only when the bucket already exceeds 256 entries), and
consequently every bucket of the hash table of any `compress` call is
bounded by 257 throughout. -/
theorem C9_bucket_le_257 (data : List Nat) :
    (∀ (ht : List (Nat × List Nat)) (pos : Nat),
      (∀ p ∈ ht, p.2.length ≤ 257) →
      ∀ p ∈ (LZ77.find_best_match ht data pos).2, p.2.length ≤ 257) ∧
    (∀ p ∈ (LZ77.compress_full data).2.2, p.2.length ≤ 257) :=
  ⟨fun ht pos hht => LZ77.find_best_match_bound ht data pos hht,
   LZ77.compress_loop_bound data data.length 0 [] [] [] (by simp)⟩

/-- Witness for C9 (amended) at a concrete input. -/
theorem C9_bucket_le_257_witness :
    ∀ p ∈ (LZ77.compress_full [97, 97, 97, 97, 97]).2.2, p.2.length ≤ 257 :=
  (C9_bucket_le_257 [97, 97, 97, 97, 97]).2

theorem c9_loop : ∀ (j k : Nat), k + j = 256 →
    ∀ (fuel : Nat) (tokens : List Token) (freq : List (Nat × Nat))
      (ht : List (Nat × List Nat)),
      65794 - (1 + 258 * k) ≤ fuel →
      dget ht 6381921 [] = 0 :: (List.range k).map (fun i => 1 + 258 * i) →
      dget ((LZ77.compress_loop (List.replicate 65794 97) fuel (1 + 258 * k)
          tokens freq ht).2.2) 6381921 []
        = 0 :: (List.range 256).map (fun i => 1 + 258 * i) := by
  intro j
  induction j with
  | zero =>
      intro k hk fuel tokens freq ht hfuel hht
      have hk' : k = 256 := by omega
      subst hk'
      rw [LZ77.compress_loop_exit _ _ _ _ _ _ (by rw [List.length_replicate]; omega)]
      exact hht
  | succ j ih =>
      intro k hk fuel tokens freq ht hfuel hht
      have hk255 : k ≤ 255 := by omega
      have hpos : 1 + 258 * k < 65794 := by omega
      cases fuel with
      | zero => omega
      | succ f =>
      -- split the bucket into its front and its newest entry
      have hsplit : (0 : Nat) :: (List.range k).map (fun i => 1 + 258 * i) =
          (if k = 0 then ([] : List Nat)
           else 0 :: (List.range (k - 1)).map (fun i => 1 + 258 * i)) ++
            [if k = 0 then 0 else 1 + 258 * (k - 1)] := by
        by_cases hk0 : k = 0
        · subst hk0
          simp
        · rw [if_neg hk0, if_neg hk0]
          have hk1 : k = (k - 1) + 1 := by omega
          rw [hk1, List.range_succ, List.map_append]
          simp
      have hfind := LZ77.find_best_match_uniform 65794 (1 + 258 * k)
        (if k = 0 then 0 else 1 + 258 * (k - 1)) ht
        (if k = 0 then ([] : List Nat)
         else 0 :: (List.range (k - 1)).map (fun i => 1 + 258 * i))
        (by rw [hht, hsplit])
        (by by_cases hk0 : k = 0
            · simp [hk0]
            · rw [if_neg hk0]
              omega)
        (by by_cases hk0 : k = 0
            · simp [hk0]
            · rw [if_neg hk0]
              omega)
        (by omega)
        (by by_cases hk0 : k = 0
            · simp [hk0]
            · rw [if_neg hk0]
              simp only [List.length_cons, List.length_map, List.length_range]
              omega)
      have hm : LZ77.MIN_MATCH ≤
          (LZ77.find_best_match ht (List.replicate 65794 97) (1 + 258 * k)).1.2 := by
        rw [hfind]
        show LZ77.MIN_MATCH ≤ min 258 (65794 - (1 + 258 * k))
        simp only [LZ77.MIN_MATCH]
        omega
      rw [LZ77.compress_loop_match _ _ _ _ _ _ (by rw [List.length_replicate]; omega) hm]
      rw [hfind]
      by_cases hk254 : k ≤ 254
      · have hmin : min 258 (65794 - (1 + 258 * k)) = 258 := by omega
        simp only [hmin]
        have hpos' : 1 + 258 * k + 258 = 1 + 258 * (k + 1) := by ring
        rw [hpos']
        apply ih (k + 1) (by omega) f _ _ _ (by omega)
        rw [dget_dset_self]
        rw [← hsplit]
        have hrange : (List.range (k + 1)).map (fun i => 1 + 258 * i) =
            (List.range k).map (fun i => 1 + 258 * i) ++ [1 + 258 * k] := by
          rw [List.range_succ, List.map_append]
          rfl
        rw [hrange]
        rfl
      · have hk255' : k = 255 := by omega
        subst hk255'
        have hmin : min 258 (65794 - (1 + 258 * 255)) = 3 := by norm_num
        simp only [hmin]
        rw [LZ77.compress_loop_exit _ _ _ _ _ _ (by rw [List.length_replicate]; norm_num)]
        rw [dget_dset_self, ← hsplit]
        have hrange : (List.range 256).map (fun i => 1 + 258 * i) =
            (List.range 255).map (fun i => 1 + 258 * i) ++ [1 + 258 * 255] := by
          rw [List.range_succ, List.map_append]
          rfl
        rw [hrange]
        rfl

/-- C9 counterexample: compressing 65794 bytes of `0x61` makes the bucket
of the all-`0x61` trigram reach 257 entries, exceeding `BUCKET_LIMIT`
= 256 (the pop happens before the append and only when the bucket already
has more than 256 entries). -/
theorem C9_counterexample :
    (dget ((LZ77.compress_full (List.replicate 65794 97)).2.2) 6381921 []).length = 257 ∧
    ¬ (dget ((LZ77.compress_full (List.replicate 65794 97)).2.2) 6381921 []).length ≤ 256 := by
  have hfind0 := LZ77.find_best_match_pos0 65794 (by norm_num)
  have hstep0 : LZ77.compress_full (List.replicate 65794 97) =
      LZ77.compress_loop (List.replicate 65794 97) 65793 1
        ([] ++ [(0, 0, Int.ofNat ((List.replicate 65794 97).getD 0 0))])
        (dincr [] ((List.replicate 65794 97).getD 0 0)) [(6381921, [0])] := by
    unfold LZ77.compress_full
    rw [List.length_replicate]
    rw [show (65794 : Nat) = 65793 + 1 from rfl]
    rw [LZ77.compress_loop_literal _ _ _ _ _ _ (by rw [List.length_replicate]; norm_num)
      (by rw [hfind0]; norm_num [LZ77.MIN_MATCH]), hfind0]
  have hmain := c9_loop 256 0 (by norm_num) 65793
    ([] ++ [(0, 0, Int.ofNat ((List.replicate 65794 97).getD 0 0))])
    (dincr [] ((List.replicate 65794 97).getD 0 0)) [(6381921, [0])]
    (by norm_num)
    (by rw [dget_cons]; simp)
  constructor
  · rw [hstep0]
    have h1 : (1 : Nat) = 1 + 258 * 0 := by norm_num
    rw [h1, hmain]
    simp
  · rw [hstep0]
    have h1 : (1 : Nat) = 1 + 258 * 0 := by norm_num
    rw [h1, hmain]
    simp


/-! ### From bit streams back to bytes -/

theorem ofBits_foldl (n : Nat) : ∀ (v a : Nat),
    (toBits n v).foldl (fun x b => 2 * x + b) a = a * 2 ^ n + v % 2 ^ n := by
  induction n with
  | zero =>
      intro v a
      simp [toBits]
      omega
  | succ n ih =>
      intro v a
      have hmm : v % 2 ^ (n + 1) = v % 2 ^ n + 2 ^ n * (v / 2 ^ n % 2) := by
        rw [pow_succ, Nat.mod_mul]
      show ((toBits n v).foldl (fun x b => 2 * x + b) (2 * a + ((v >>> n) &&& 1))) = _
      rw [ih v (2 * a + ((v >>> n) &&& 1)), shiftRight_and_one]
      calc (2 * a + v / 2 ^ n % 2) * 2 ^ n + v % 2 ^ n
          = a * (2 ^ n * 2) + (v % 2 ^ n + 2 ^ n * (v / 2 ^ n % 2)) := by ring
        _ = a * 2 ^ (n + 1) + v % 2 ^ (n + 1) := by rw [← hmm, pow_succ]

theorem ofBits_toBits (n v : Nat) : ofBits (toBits n v) = v % 2 ^ n := by
  unfold ofBits
  rw [ofBits_foldl]
  simp

theorem toBits_inj (n a b : Nat) (ha : a < 2 ^ n) (hb : b < 2 ^ n)
    (h : toBits n a = toBits n b) : a = b := by
  have h2 := congrArg ofBits h
  rw [ofBits_toBits, ofBits_toBits, Nat.mod_eq_of_lt ha, Nat.mod_eq_of_lt hb] at h2
  exact h2

theorem bytesToBits_peel (bs : List Nat) (b0 : Nat) (rest : List Nat)
    (hbs : ∀ b ∈ bs, b < 256) (hb0 : b0 < 256)
    (heq : bytesToBits bs = toBits 8 b0 ++ rest) :
    ∃ bs', bs = b0 :: bs' ∧ (∀ b ∈ bs', b < 256) ∧ bytesToBits bs' = rest := by
  cases bs with
  | nil =>
      exfalso
      have hlen := congrArg List.length heq
      simp [bytesToBits, toBits_length] at hlen
      omega
  | cons c bs' =>
      rw [bytesToBits_cons] at heq
      have hinj := List.append_inj heq (by rw [toBits_length, toBits_length])
      have hc : c = b0 := by
        apply toBits_inj 8 c b0
        · exact hbs c (by simp)
        · exact hb0
        · exact hinj.1
      refine ⟨bs', by rw [hc], fun b hb => hbs b (by simp [hb]), hinj.2⟩

theorem bytesToBits_peel_list (p : List Nat) : ∀ (bs : List Nat) (rest : List Nat),
    (∀ b ∈ bs, b < 256) → (∀ b ∈ p, b < 256) →
    bytesToBits bs = bytesToBits p ++ rest →
    ∃ bs', bs = p ++ bs' ∧ (∀ b ∈ bs', b < 256) ∧ bytesToBits bs' = rest := by
  induction p with
  | nil =>
      intro bs rest hbs _ heq
      exact ⟨bs, rfl, hbs, by simpa [bytesToBits] using heq⟩
  | cons q p ih =>
      intro bs rest hbs hp heq
      rw [bytesToBits_cons, List.append_assoc] at heq
      obtain ⟨bs1, hbs1, hb1, hrest1⟩ :=
        bytesToBits_peel bs q (bytesToBits p ++ rest) hbs (hp q (by simp)) heq
      obtain ⟨bs2, hbs2, hb2, hrest2⟩ :=
        ih bs1 rest hb1 (fun b hb => hp b (by simp [hb])) hrest1
      exact ⟨bs2, by rw [hbs1, hbs2]; rfl, hb2, hrest2⟩

theorem toBits32_bytes (L : Nat) :
    toBits 32 L = toBits 8 (L / 2 ^ 24 % 256) ++ toBits 8 (L / 2 ^ 16 % 256) ++
      toBits 8 (L / 2 ^ 8 % 256) ++ toBits 8 (L % 256) := by
  have hsplit : ∀ (m k v : Nat), toBits (m + k) v = toBits m (v >>> k) ++ toBits k v :=
    toBits_append
  have h1 := hsplit 8 24 L
  have h2 := hsplit 8 16 L
  have h3 := hsplit 8 8 L
  norm_num at h1 h2 h3
  rw [h1, h2, h3]
  have hb : ∀ (k : Nat), toBits 8 (L >>> k) = toBits 8 (L / 2 ^ k % 256) := by
    intro k
    rw [Nat.shiftRight_eq_div_pow]
    conv_lhs => rw [← toBits_mod]
    norm_num
  have hlast : toBits 8 L = toBits 8 (L % 256) := by
    conv_lhs => rw [← toBits_mod 8 L]
    norm_num
  rw [hb 24, hb 16, hb 8, hlast]
  conv_rhs => rw [List.append_assoc, List.append_assoc]

theorem bytesToBits_be32 (L : Nat) : bytesToBits (be32 L) = toBits 32 L := by
  simp only [be32, bytesToBits, List.flatMap_cons, List.flatMap_nil, List.append_nil]
  rw [toBits32_bytes]
  simp only [List.append_assoc]

theorem be32_bytes_lt (L : Nat) : ∀ b ∈ be32 L, b < 256 := by
  intro b hb
  simp [be32] at hb
  rcases hb with h | h | h | h <;> (rw [h]; exact Nat.mod_lt _ (by norm_num))

/-! ### What `compress` writes, as a bit stream -/

namespace BitWriter

theorem foldl_write_spec {β : Type} (f : BitWriter → β → BitWriter) (g : β → List Nat)
    (hstep : ∀ (w : BitWriter) (b : β), Inv w → Inv (f w b) ∧ (f w b).wbits = w.wbits ++ g b) :
    ∀ (l : List β) (w : BitWriter), Inv w →
      Inv (l.foldl f w) ∧ (l.foldl f w).wbits = w.wbits ++ l.flatMap g := by
  intro l
  induction l with
  | nil =>
      intro w hw
      exact ⟨hw, by simp⟩
  | cons b t ih =>
      intro w hw
      obtain ⟨h1, h2⟩ := hstep w b hw
      obtain ⟨h3, h4⟩ := ih (f w b) h1
      refine ⟨h3, ?_⟩
      show (List.foldl f (f w b) t).wbits = w.wbits ++ (b :: t).flatMap g
      rw [h4, h2, List.flatMap_cons, List.append_assoc]

end BitWriter

namespace Huffman

theorem save_metadata_spec (hf : Huff) :
    (∀ b ∈ save_metadata hf, b < 256) ∧
    bytesToBits (save_metadata hf) =
      (toBits 16 hf.symbols.length ++
        metadataBits hf.code_lengths (sortBy (fun a b => a ≤ b) hf.symbols)) ++
      List.replicate
        ((8 - (toBits 16 hf.symbols.length ++
          metadataBits hf.code_lengths (sortBy (fun a b => a ≤ b) hf.symbols)).length % 8) % 8) 0 ∧
    (save_metadata hf).length =
      ((toBits 16 hf.symbols.length ++
        metadataBits hf.code_lengths (sortBy (fun a b => a ≤ b) hf.symbols)).length + 7) / 8 := by
  obtain ⟨hw1, hb1⟩ := BitWriter.write_bits_spec BitWriter.init hf.symbols.length 16
    BitWriter.winit_inv
  obtain ⟨hw2, hb2⟩ := BitWriter.foldl_write_spec
    (fun w symbol => (w.write_bits symbol 9).write_bits (dget hf.code_lengths symbol 0) 5)
    (fun s => toBits 9 s ++ toBits 5 (dget hf.code_lengths s 0))
    (by
      intro w b hw
      obtain ⟨hwa, hba⟩ := BitWriter.write_bits_spec w b 9 hw
      obtain ⟨hwb, hbb⟩ := BitWriter.write_bits_spec (w.write_bits b 9)
        (dget hf.code_lengths b 0) 5 hwa
      exact ⟨hwb, by rw [hbb, hba, List.append_assoc]⟩)
    (sortBy (fun a b => a ≤ b) hf.symbols) _ hw1
  obtain ⟨hfl1, hfl2, hfl3⟩ := BitWriter.flush_spec _ hw2
  have hwb : (((sortBy (fun a b => a ≤ b) hf.symbols)).foldl
      (fun w symbol => (w.write_bits symbol 9).write_bits (dget hf.code_lengths symbol 0) 5)
      (BitWriter.init.write_bits hf.symbols.length 16)).wbits =
      toBits 16 hf.symbols.length ++
        metadataBits hf.code_lengths (sortBy (fun a b => a ≤ b) hf.symbols) := by
    rw [hb2, hb1, BitWriter.init_wbits, List.nil_append]
    rfl
  refine ⟨?_, ?_, ?_⟩
  · intro b hb
    exact hfl2 b hb
  · show bytesToBits (save_metadata hf) = _
    unfold save_metadata
    rw [hfl1, hwb]
  · show (save_metadata hf).length = _
    unfold save_metadata
    rw [hfl3, hwb]

end Huffman

namespace Arch

theorem compress_spec (x : List Nat) (hx : ¬ x.isEmpty) :
    (∀ b ∈ compress x, b < 256) ∧
    bytesToBits (compress x) =
      streamBits x ++ List.replicate ((8 - (streamBits x).length % 8) % 8) 0 ∧
    (compress x).length = ((streamBits x).length + 7) / 8 := by
  obtain ⟨hw1, hb1⟩ := BitWriter.write_bits_spec BitWriter.init VERSION 8 BitWriter.winit_inv
  obtain ⟨hw2, hb2⟩ := BitWriter.write_bits_spec _ x.length 32 hw1
  obtain ⟨hw3, hb3⟩ := BitWriter.write_bits_spec _ (mdOf x).length 16 hw2
  have hmd := Huffman.save_metadata_spec (hfOf x)
  have hcnt3 : (((BitWriter.init.write_bits VERSION 8).write_bits x.length 32).write_bits
      (mdOf x).length 16).bit_count = 0 := by
    rw [BitWriter.bit_count_eq_mod _ hw3, hb3, hb2, hb1, BitWriter.init_wbits]
    simp [toBits_length]
  obtain ⟨hw4, hb4, _⟩ := BitWriter.write_bytes_aligned_spec _ (mdOf x) hw3 hcnt3 hmd.1
  obtain ⟨hw5, hb5⟩ := @BitWriter.foldl_write_spec Token
    (fun w t =>
      if 0 ≤ t.2.2 then
        let cl := Huffman.encode_symbol (hfOf x) t.2.2.toNat
        w.write_bits cl.1 cl.2
      else
        let cl := Huffman.encode_symbol (hfOf x) (256 + (t.2.1 - LZ77.MIN_MATCH))
        (w.write_bits cl.1 cl.2).write_bits (t.1 - 1) 15)
    (tokenBits (hfOf x))
    (by
      intro w t hw
      by_cases hlit : 0 ≤ t.2.2
      · simp only [if_pos hlit, tokenBits]
        exact BitWriter.write_bits_spec w _ _ hw
      · simp only [if_neg hlit, tokenBits]
        obtain ⟨hwa, hba⟩ := BitWriter.write_bits_spec w
          (Huffman.encode_symbol (hfOf x) (256 + (t.2.1 - LZ77.MIN_MATCH))).1
          (Huffman.encode_symbol (hfOf x) (256 + (t.2.1 - LZ77.MIN_MATCH))).2 hw
        obtain ⟨hwb, hbb⟩ := BitWriter.write_bits_spec _ (t.1 - 1) 15 hwa
        exact ⟨hwb, by rw [hbb, hba, List.append_assoc]⟩)
    (LZ77.compress x).1 _ hw4
  have hbits : ((LZ77.compress x).1.foldl
      (fun w t =>
        if 0 ≤ t.2.2 then
          let cl := Huffman.encode_symbol (hfOf x) t.2.2.toNat
          w.write_bits cl.1 cl.2
        else
          let cl := Huffman.encode_symbol (hfOf x) (256 + (t.2.1 - LZ77.MIN_MATCH))
          (w.write_bits cl.1 cl.2).write_bits (t.1 - 1) 15)
      ((((BitWriter.init.write_bits VERSION 8).write_bits x.length 32).write_bits
        (mdOf x).length 16).write_bytes (mdOf x))).wbits = streamBits x := by
    rw [hb5, hb4, hb3, hb2, hb1, BitWriter.init_wbits, List.nil_append]
    unfold streamBits tokensBits
    simp only [List.append_assoc]
  obtain ⟨hf1, hf2, hf3⟩ := BitWriter.flush_spec _ hw5
  have hcdef : compress x = ((LZ77.compress x).1.foldl
      (fun w t =>
        if 0 ≤ t.2.2 then
          let cl := Huffman.encode_symbol (hfOf x) t.2.2.toNat
          w.write_bits cl.1 cl.2
        else
          let cl := Huffman.encode_symbol (hfOf x) (256 + (t.2.1 - LZ77.MIN_MATCH))
          (w.write_bits cl.1 cl.2).write_bits (t.1 - 1) 15)
      ((((BitWriter.init.write_bits VERSION 8).write_bits x.length 32).write_bits
        (mdOf x).length 16).write_bytes (mdOf x))).flush := by
    unfold compress
    rw [if_neg hx]
    rfl
  refine ⟨?_, ?_, ?_⟩
  · rw [hcdef]
    exact hf2
  · rw [hcdef, hf1, hbits]
  · rw [hcdef, hf3, hbits]

end Arch

/-! ### Claim C3 -/

/-- C3 (amended): bytes 1 through 4 of `Archiver.compress(x)` encode the
low 32 bits of `len(x)` as a 4-byte BIG-endian unsigned integer
(`write_bits` emits the size most-significant bit first); for empty input
the field is four zero bytes, on which both byte orders agree. -/
theorem C3_original_size_big_endian (x : List Nat) :
    ((Arch.compress x).drop 1).take 4 = be32 x.length := by
  by_cases hx : x.isEmpty
  · have hxe : x = [] := List.isEmpty_iff.mp hx
    subst hxe
    rfl
  · obtain ⟨hlt, hbits, _⟩ := Arch.compress_spec x hx
    have hpre : bytesToBits ((1 : Nat) :: be32 x.length) =
        toBits 8 Arch.VERSION ++ toBits 32 x.length := by
      rw [bytesToBits_cons, bytesToBits_be32]
      rfl
    have hstream : bytesToBits (Arch.compress x) =
        bytesToBits ((1 : Nat) :: be32 x.length) ++
          (toBits 16 (Arch.mdOf x).length ++ bytesToBits (Arch.mdOf x) ++
            Arch.tokensBits (Arch.hfOf x) (LZ77.compress x).1 ++
            List.replicate ((8 - (Arch.streamBits x).length % 8) % 8) 0) := by
      rw [hbits, hpre]
      unfold Arch.streamBits
      simp only [List.append_assoc]
    obtain ⟨bs', hbs', _, _⟩ := bytesToBits_peel_list ((1 : Nat) :: be32 x.length)
      (Arch.compress x) _ hlt
      (by
        intro b hb
        rcases List.mem_cons.mp hb with h | h
        · rw [h]; norm_num
        · exact be32_bytes_lt _ b h)
      hstream
    rw [hbs']
    show (((1 : Nat) :: be32 x.length) ++ bs').tail.take 4 = be32 x.length
    rw [List.cons_append, List.tail_cons, List.take_append_of_le_length (by simp [be32]),
      List.take_of_length_le (by simp [be32])]

set_option maxRecDepth 4000 in
/-- C3 counterexample: for the one-byte input `b"A"` the size field is
`[0,0,0,1]` (big-endian), not the little-endian `[1,0,0,0]` the claim
requires. -/
theorem C3_counterexample :
    ((Arch.compress [65]).drop 1).take 4 = [0, 0, 0, 1] ∧
    ((Arch.compress [65]).drop 1).take 4 ≠ le32 ([65] : List Nat).length := by
  constructor
  · decide
  · decide


/-! ### Claim C5 -/

theorem get_code_lengths_pos : ∀ (t : HTree) (d : Nat),
    ∀ p ∈ Huffman.get_code_lengths t d, 1 ≤ p.2 := by
  intro t
  induction t with
  | leaf s f =>
      intro d p hp
      simp [Huffman.get_code_lengths] at hp
      rw [hp]
      simp
  | node f l r ihl ihr =>
      intro d p hp
      rw [Huffman.get_code_lengths, List.mem_append] at hp
      rcases hp with h | h
      · exact ihl (d + 1) p h
      · exact ihr (d + 1) p h

theorem generate_canonical_codes_lengths (cl : List (Nat × Nat)) :
    (Huffman.generate_canonical_codes cl).code_lengths = cl := by
  unfold Huffman.generate_canonical_codes
  by_cases h : (Huffman.sortBy (fun a b => a ≤ b) (cl.map Prod.fst)).isEmpty
  · simp only [h]
    rfl
  · simp only [h]
    rfl

/-- C5 (amended): for every non-empty frequency map, every code length
assigned by `CanonicalHuffman.build_from_frequencies` is at least 1
(`_get_code_lengths` stores `max(1, depth)` and the single-symbol case
stores 1); the upper bound of 25 does NOT hold in general, so the
decoder's 25-bit probe cannot match every code the encoder can emit. -/
theorem C5_lengths_positive (frequencies : List (Nat × Nat))
    (h : ¬ frequencies.isEmpty) :
    ∀ p ∈ (Huffman.build_from_frequencies frequencies).code_lengths, 1 ≤ p.2 := by
  unfold Huffman.build_from_frequencies
  rw [if_neg h]
  by_cases h1 : frequencies.length = 1
  · rw [if_pos h1, generate_canonical_codes_lengths]
    intro p hp
    simp at hp
    rw [hp]
  · rw [if_neg h1]
    simp only [generate_canonical_codes_lengths]
    exact get_code_lengths_pos _ 0

theorem C5_lengths_positive_witness :
    ¬ ([(65, 1), (66, 2)] : List (Nat × Nat)).isEmpty ∧
    ∀ p ∈ (Huffman.build_from_frequencies [(65, 1), (66, 2)]).code_lengths, 1 ≤ p.2 :=
  ⟨by decide, C5_lengths_positive [(65, 1), (66, 2)] (by decide)⟩

set_option maxRecDepth 4000 in
/-- C5 counterexample: 27 symbols with doubling weights 2^0 .. 2^26 build
a maximally skewed Huffman tree; symbol 0 gets code length 26, which
exceeds the claimed bound of 25 (so `_decode_symbol`'s 25-bit probe would
raise on that code). -/
theorem C5_counterexample :
    dget (Huffman.build_from_frequencies
      ((List.range 27).map (fun i => (i, 2 ^ i)))).code_lengths 0 0 = 26 ∧
    ¬ ∀ p ∈ (Huffman.build_from_frequencies
      ((List.range 27).map (fun i => (i, 2 ^ i)))).code_lengths, p.2 ≤ 25 := by
  constructor
  · decide
  · decide


/-! ### Claim C4 -/

/-- C4 (amended): only the final `on_progress(len(data), len(data))` call
in `Archiver.compress` is wrapped in `try ... except Exception: pass`;
the per-position calls inside the LZ77 loop are unprotected.  Hence
compression raises exactly when the input is non-empty and some
per-position callback invocation raises, and a raise in the final call
alone is swallowed. -/
theorem C4_final_raise_swallowed {σ : Type} (cb : ProgressCb σ) (data : List Nat) (st : σ) :
    Arch.compress_cb cb data st = .error () ↔
      ¬ data.isEmpty ∧ LZ77.compress_cb cb data st = .error () := by
  unfold Arch.compress_cb
  by_cases hd : data.isEmpty
  · rw [if_pos hd]
    simp [hd]
  · rw [if_neg hd]
    cases hlz : LZ77.compress_cb cb data st with
    | error e =>
        cases e
        simp [hd]
    | ok r =>
        obtain ⟨tokens, freq, ht, st1⟩ := r
        simp [hd]

/-- C4 counterexample: on input `b"A"` with a callback that always raises,
the raise from the per-position call inside the LZ77 loop propagates out
of `Archiver.compress` instead of being swallowed. -/
theorem C4_counterexample :
    Arch.compress_cb ⟨fun st _ _ => (st, true)⟩ [65] () = .error () := by
  rfl


/-! ### Claim C2 -/

theorem tokSum_nil : tokSum [] = 0 := rfl

theorem tokSum_append_one (ts : List Token) (t : Token) :
    tokSum (ts ++ [t]) = tokSum ts + tokLen t := by
  simp [tokSum]

theorem copy_match_length : ∀ (n : Nat) (output : List Nat) (mp : Nat),
    (LZ77.copy_match output mp n).length = output.length + n := by
  intro n
  induction n with
  | zero => intro output mp; rfl
  | succ n ih =>
      intro output mp
      have hstep : LZ77.copy_match output mp (n + 1) =
          LZ77.copy_match (output ++ [output.getD mp 0]) (mp + 1) n := rfl
      rw [hstep, ih, List.length_append]
      simp only [List.length_cons, List.length_nil]
      omega

theorem decompress_tokens_length : ∀ (ts : List Token) (acc out : List Nat),
    LZ77.decompress_tokens ts acc = .ok out → out.length = acc.length + tokSum ts := by
  intro ts
  induction ts with
  | nil =>
      intro acc out h
      have hae : acc = out := by simpa [LZ77.decompress_tokens] using h
      rw [← hae, tokSum_nil]
      omega
  | cons t rest ih =>
      intro acc out h
      obtain ⟨d, l, lit⟩ := t
      have hstep : LZ77.decompress_tokens ((d, l, lit) :: rest) acc =
          (if 0 ≤ lit then LZ77.decompress_tokens rest (acc ++ [lit.toNat])
           else if d = 0 ∨ acc.length < d then .error .valueError
           else LZ77.decompress_tokens rest
             (LZ77.copy_match acc (acc.length - d) l)) := rfl
      rw [hstep] at h
      have hcons : tokSum ((d, l, lit) :: rest) = tokLen (d, l, lit) + tokSum rest := by
        simp [tokSum]
      by_cases hlit : 0 ≤ lit
      · rw [if_pos hlit] at h
        have h2 := ih _ _ h
        rw [List.length_append] at h2
        have ht : tokLen (d, l, lit) = 1 := by simp [tokLen, hlit]
        simp only [List.length_cons, List.length_nil] at h2
        rw [hcons, ht]
        omega
      · rw [if_neg hlit] at h
        by_cases hd : d = 0 ∨ acc.length < d
        · rw [if_pos hd] at h
          simp at h
        · rw [if_neg hd] at h
          have h2 := ih _ _ h
          rw [copy_match_length] at h2
          have ht : tokLen (d, l, lit) = l := by simp [tokLen, hlit]
          rw [hcons, ht]
          omega

theorem decompress_loop_ge (tree : List ((Nat × Nat) × Nat)) (orig : Nat) :
    ∀ (fuel : Nat) (r : BitReader) (tokens : List Token) (out_len : Nat)
      (tokens2 : List Token),
      orig - out_len ≤ fuel →
      Arch.decompress_loop tree orig fuel r tokens out_len = .ok tokens2 →
      orig + tokSum tokens ≤ out_len + tokSum tokens2 := by
  intro fuel
  induction fuel with
  | zero =>
      intro r tokens out_len tokens2 hf hok
      have hte : tokens = tokens2 := by simpa [Arch.decompress_loop] using hok
      rw [hte]
      omega
  | succ fuel ih =>
      intro r tokens out_len tokens2 hf hok
      unfold Arch.decompress_loop at hok
      by_cases hlt : out_len < orig
      · rw [if_pos hlt] at hok
        cases hds : Arch.decode_symbol r tree with
        | error e =>
            simp only [hds] at hok
            simp at hok
        | ok p =>
            obtain ⟨symbol, r1⟩ := p
            simp only [hds] at hok
            by_cases hsym : symbol < 256
            · rw [if_pos hsym] at hok
              have h2 := ih r1 (tokens ++ [(0, 0, Int.ofNat symbol)]) (out_len + 1)
                tokens2 (by omega) hok
              rw [tokSum_append_one] at h2
              have ht : tokLen (0, 0, Int.ofNat symbol) = 1 := by
                simp [tokLen]
              rw [ht] at h2
              omega
            · rw [if_neg hsym] at hok
              cases h15 : r1.read_bits 15 with
              | error e =>
                  simp only [h15] at hok
                  simp at hok
              | ok q =>
                  obtain ⟨d, r2⟩ := q
                  simp only [h15] at hok
                  have hmm : LZ77.MIN_MATCH = 3 := rfl
                  have h2 := ih r2
                    (tokens ++ [(d + 1, symbol - 256 + LZ77.MIN_MATCH, -1)])
                    (out_len + (symbol - 256 + LZ77.MIN_MATCH))
                    tokens2 (by omega) hok
                  rw [tokSum_append_one] at h2
                  have ht : tokLen (d + 1, symbol - 256 + LZ77.MIN_MATCH, -1) =
                      symbol - 256 + LZ77.MIN_MATCH := by
                    simp [tokLen]
                  rw [ht] at h2
                  omega
      · rw [if_neg hlt] at hok
        have hte : tokens = tokens2 := by simpa using hok
        rw [hte]
        omega

/-- C2 (amended): whenever `Archiver.decompress` returns, the length of the
returned byte string is at least the 32-bit `original_size` field read from
the blob header; it can strictly exceed it, because the token loop tests
`output_len < orig_size` only between tokens and a final match token can
carry `output_len` past `orig_size`. -/
theorem C2_output_ge_size (data out : List Nat) (v sz : Nat) (r0 r1 : BitReader)
    (h8 : (BitReader.init data).read_bits 8 = .ok (v, r0))
    (h32 : r0.read_bits 32 = .ok (sz, r1))
    (hok : Arch.decompress data = .ok out) :
    sz ≤ out.length := by
  unfold Arch.decompress at hok
  simp only [h8] at hok
  by_cases hv : v = Arch.VERSION
  · rw [if_neg (by simp [hv])] at hok
    simp only [h32] at hok
    by_cases hsz : sz = 0
    · rw [if_pos hsz] at hok
      omega
    · rw [if_neg hsz] at hok
      cases h16 : r1.read_bits 16 with
      | error e =>
          simp only [h16] at hok
          simp at hok
      | ok q =>
          obtain ⟨mlen, r2⟩ := q
          simp only [h16] at hok
          cases hlm : Huffman.load_metadata (r2.read_bytes mlen).1 with
          | error e =>
              simp only [hlm] at hok
              simp at hok
          | ok hq =>
              obtain ⟨hf, npos⟩ := hq
              simp only [hlm] at hok
              cases hloop : Arch.decompress_loop (Arch.build_decode_tree hf) sz sz
                  (r2.read_bytes mlen).2 [] 0 with
              | error e =>
                  simp only [hloop] at hok
                  simp at hok
              | ok tokens =>
                  simp only [hloop] at hok
                  have h1 := decompress_loop_ge (Arch.build_decode_tree hf) sz sz
                    (r2.read_bytes mlen).2 [] 0 tokens (by omega) hloop
                  have h2 := decompress_tokens_length tokens [] out hok
                  rw [tokSum_nil] at h1
                  simp only [List.length_nil] at h2
                  omega
  · rw [if_pos (by simp [hv])] at hok
    simp at hok

theorem C2_output_ge_size_witness :
    (BitReader.init [1, 0, 0, 0, 3, 0, 6, 0, 2, 32, 134, 2, 16, 64, 0, 0]).read_bits 8 =
      .ok (1, ⟨[1, 0, 0, 0, 3, 0, 6, 0, 2, 32, 134, 2, 16, 64, 0, 0], 1, 1, 0⟩) ∧
    (BitReader.mk [1, 0, 0, 0, 3, 0, 6, 0, 2, 32, 134, 2, 16, 64, 0, 0] 1 1 0).read_bits 32 =
      .ok (3, ⟨[1, 0, 0, 0, 3, 0, 6, 0, 2, 32, 134, 2, 16, 64, 0, 0], 5, 3, 0⟩) ∧
    Arch.decompress [1, 0, 0, 0, 3, 0, 6, 0, 2, 32, 134, 2, 16, 64, 0, 0] =
      .ok [65, 65, 65, 65, 65] ∧
    3 ≤ ([65, 65, 65, 65, 65] : List Nat).length :=
  ⟨rfl, rfl, rfl,
    C2_output_ge_size [1, 0, 0, 0, 3, 0, 6, 0, 2, 32, 134, 2, 16, 64, 0, 0]
      [65, 65, 65, 65, 65] 1 3
      ⟨[1, 0, 0, 0, 3, 0, 6, 0, 2, 32, 134, 2, 16, 64, 0, 0], 1, 1, 0⟩
      ⟨[1, 0, 0, 0, 3, 0, 6, 0, 2, 32, 134, 2, 16, 64, 0, 0], 5, 3, 0⟩
      rfl rfl rfl⟩

set_option maxRecDepth 4000 in
/-- C2 counterexample: a crafted blob whose header records `original_size
= 3` but whose token stream is a literal `A` followed by a
distance-1/length-4 match; `Archiver.decompress` returns `b"AAAAA"` of
length 5, not 3. -/
theorem C2_counterexample :
    Arch.decompress [1, 0, 0, 0, 3, 0, 6, 0, 2, 32, 134, 2, 16, 64, 0, 0] =
      .ok [65, 65, 65, 65, 65] ∧
    (BitReader.mk [1, 0, 0, 0, 3, 0, 6, 0, 2, 32, 134, 2, 16, 64, 0, 0] 1 1 0).read_bits 32 =
      .ok (3, ⟨[1, 0, 0, 0, 3, 0, 6, 0, 2, 32, 134, 2, 16, 64, 0, 0], 5, 3, 0⟩) ∧
    ([65, 65, 65, 65, 65] : List Nat).length ≠ 3 := by
  refine ⟨rfl, rfl, by decide⟩


/-! ### Claim C7: sorting lemmas -/

namespace Huffman

theorem insertSorted_perm {α : Type} (le : α → α → Bool) (x : α) :
    ∀ (l : List α), (insertSorted le x l).Perm (x :: l) := by
  intro l
  induction l with
  | nil => exact List.Perm.refl _
  | cons y ys ih =>
      show (if le x y then x :: y :: ys else y :: insertSorted le x ys).Perm (x :: y :: ys)
      by_cases h : le x y
      · rw [if_pos h]
      · rw [if_neg h]
        exact ((ih.cons y).trans (List.Perm.swap x y ys))

theorem sortBy_perm {α : Type} (le : α → α → Bool) :
    ∀ (l : List α), (sortBy le l).Perm l := by
  intro l
  induction l with
  | nil => exact List.Perm.refl _
  | cons x xs ih =>
      show (insertSorted le x (sortBy le xs)).Perm (x :: xs)
      exact (insertSorted_perm le x (sortBy le xs)).trans (ih.cons x)

theorem mem_sortBy {α : Type} (le : α → α → Bool) (l : List α) (x : α)
    (h : x ∈ sortBy le l) : x ∈ l :=
  (sortBy_perm le l).mem_iff.mp h

theorem sortBy_length {α : Type} (le : α → α → Bool) (l : List α) :
    (sortBy le l).length = l.length :=
  (sortBy_perm le l).length_eq

theorem insertSorted_pairwise (x : Nat) :
    ∀ (l : List Nat), l.Pairwise (fun a b => a ≤ b) →
      (insertSorted (fun a b => a ≤ b) x l).Pairwise (fun a b => a ≤ b) := by
  intro l
  induction l with
  | nil =>
      intro _
      simp [insertSorted]
  | cons y ys ih =>
      intro hp
      show (if (x ≤ y : Bool) then x :: y :: ys else
        y :: insertSorted (fun a b => a ≤ b) x ys).Pairwise (fun a b => a ≤ b)
      by_cases h : x ≤ y
      · rw [if_pos (by simpa using h)]
        refine List.Pairwise.cons ?_ hp
        intro b hb
        rcases List.mem_cons.mp hb with hby | hbys
        · omega
        · have := List.rel_of_pairwise_cons hp hbys
          omega
      · rw [if_neg (by simpa using h)]
        refine List.Pairwise.cons ?_ (ih (List.Pairwise.sublist (by simp) hp))
        intro b hb
        have hb2 : b ∈ x :: ys :=
          (insertSorted_perm (fun a b => a ≤ b) x ys).mem_iff.mp hb
        rcases List.mem_cons.mp hb2 with hbx | hbys
        · omega
        · exact List.rel_of_pairwise_cons hp hbys

theorem sortBy_le_pairwise :
    ∀ (l : List Nat), (sortBy (fun a b => a ≤ b) l).Pairwise (fun a b => a ≤ b) := by
  intro l
  induction l with
  | nil => simp [sortBy]
  | cons x xs ih => exact insertSorted_pairwise x _ ih

theorem sortBy_eq_of_pairwise :
    ∀ (l : List Nat), l.Pairwise (fun a b => a ≤ b) →
      sortBy (fun a b => a ≤ b) l = l := by
  intro l
  induction l with
  | nil => intro _; rfl
  | cons x xs ih =>
      intro hp
      show insertSorted (fun a b => a ≤ b) x (sortBy (fun a b => a ≤ b) xs) = x :: xs
      rw [ih (List.Pairwise.sublist (by simp) hp)]
      cases xs with
      | nil => rfl
      | cons y ys =>
          show (if (x ≤ y : Bool) then x :: y :: ys else
            y :: insertSorted (fun a b => a ≤ b) x ys) = x :: y :: ys
          rw [if_pos (by simpa using List.rel_of_pairwise_cons hp (by simp))]

theorem sortBy_le_idem (l : List Nat) :
    sortBy (fun a b => a ≤ b) (sortBy (fun a b => a ≤ b) l) =
      sortBy (fun a b => a ≤ b) l :=
  sortBy_eq_of_pairwise _ (sortBy_le_pairwise l)

theorem insertSorted_congr {α : Type} (le le2 : α → α → Bool) (x : α) :
    ∀ (l : List α), (∀ y ∈ l, le x y = le2 x y) →
      insertSorted le x l = insertSorted le2 x l := by
  intro l
  induction l with
  | nil => intro _; rfl
  | cons y ys ih =>
      intro h
      show (if le x y then x :: y :: ys else y :: insertSorted le x ys) =
        (if le2 x y then x :: y :: ys else y :: insertSorted le2 x ys)
      rw [h y (by simp), ih (fun z hz => h z (by simp [hz]))]

theorem sortBy_congr {α : Type} (le le2 : α → α → Bool) :
    ∀ (l : List α), (∀ a ∈ l, ∀ b ∈ l, le a b = le2 a b) →
      sortBy le l = sortBy le2 l := by
  intro l
  induction l with
  | nil => intro _; rfl
  | cons x xs ih =>
      intro h
      show insertSorted le x (sortBy le xs) = insertSorted le2 x (sortBy le2 xs)
      rw [ih (fun a ha b hb => h a (by simp [ha]) b (by simp [hb]))]
      exact insertSorted_congr le le2 x _
        (fun y hy => h x (by simp) y (by simp [mem_sortBy le2 xs y hy]))

theorem lexLe_congr (cl cl2 : List (Nat × Nat)) (a b : Nat)
    (ha : dget cl a 0 = dget cl2 a 0) (hb : dget cl b 0 = dget cl2 b 0) :
    lexLe cl a b = lexLe cl2 a b := by
  unfold lexLe
  rw [ha, hb]

theorem canon_loop_congr (cl cl2 : List (Nat × Nat)) :
    ∀ (syms : List Nat) (c p : Nat), (∀ s ∈ syms, dget cl s 0 = dget cl2 s 0) →
      canon_loop cl syms c p = canon_loop cl2 syms c p := by
  intro syms
  induction syms with
  | nil => intro c p _; rfl
  | cons s rest ih =>
      intro c p h
      show (s, (c <<< (dget cl s 0 - p), dget cl s 0)) ::
          canon_loop cl rest (c <<< (dget cl s 0 - p) + 1) (dget cl s 0) = _
      rw [h s (by simp), ih _ _ (fun z hz => h z (by simp [hz]))]
      rfl

end Huffman

theorem dset_not_mem {κ α : Type} [DecidableEq κ] (d : List (κ × α)) (k : κ) (v : α)
    (h : dmem d k = false) : dset d k v = d ++ [(k, v)] := by
  unfold dset
  rw [if_neg (by simp [h])]

theorem dmem_append {κ α : Type} [DecidableEq κ] (a b : List (κ × α)) (k : κ) :
    dmem (a ++ b) k = (dmem a k || dmem b k) := by
  simp [dmem, List.any_append]

theorem dmem_singleton {κ α : Type} [DecidableEq κ] (k k2 : κ) (v : α) :
    dmem [(k, v)] k2 = decide (k = k2) := by
  simp [dmem]

theorem foldl_dset_map (f : Nat → Nat) :
    ∀ (S : List Nat) (acc : List (Nat × Nat)),
      (∀ x ∈ S, dmem acc x = false) → S.Nodup →
      S.foldl (fun a x => dset a x (f x)) acc = acc ++ S.map (fun x => (x, f x)) := by
  intro S
  induction S with
  | nil => intro acc _ _; simp
  | cons x t ih =>
      intro acc hmem hnd
      show t.foldl (fun a x => dset a x (f x)) (dset acc x (f x)) = _
      rw [dset_not_mem acc x (f x) (hmem x (by simp))]
      rw [ih (acc ++ [(x, f x)]) ?_ (List.Nodup.of_cons hnd)]
      · simp
      · intro y hy
        rw [dmem_append, hmem y (by simp [hy]), dmem_singleton]
        simp
        exact fun hxy => (List.nodup_cons.mp hnd).1 (hxy ▸ hy)

theorem dget_map_pairs (f : Nat → Nat) :
    ∀ (S : List Nat) (x : Nat), x ∈ S →
      dget (S.map (fun y => (y, f y))) x 0 = f x := by
  intro S
  induction S with
  | nil => intro x hx; simp at hx
  | cons y t ih =>
      intro x hx
      rw [List.map_cons, dget_cons]
      by_cases hxy : y = x
      · rw [if_pos (by simp [hxy])]
        rw [hxy]
      · rw [if_neg (by simp [hxy])]
        have hxt : x ∈ t := by
          rcases List.mem_cons.mp hx with h | h
          · exact absurd h.symm hxy
          · exact h
        exact ih x hxt

theorem metadataBits_length (cl : List (Nat × Nat)) (syms : List Nat) :
    (Huffman.metadataBits cl syms).length = 14 * syms.length := by
  induction syms with
  | nil => rfl
  | cons s t ih =>
      show (Huffman.metadataBits cl (s :: t)).length = _
      unfold Huffman.metadataBits at ih ⊢
      rw [List.flatMap_cons]
      simp only [List.length_append, toBits_length, ih, List.length_cons]
      omega


theorem load_loop_spec (B : List Nat) (hB : ∀ b ∈ B, b < 256) (cl : List (Nat × Nat)) :
    ∀ (syms : List Nat) (k : Nat) (s : BitReader) (acc : List (Nat × Nat)) (rest : List Nat),
      BitReader.Inv B k s →
      (bytesToBits B).drop k = Huffman.metadataBits cl syms ++ rest →
      (∀ x ∈ syms, x < 512) → (∀ x ∈ syms, dget cl x 0 < 32) →
      ∃ s2, Huffman.load_loop syms.length s acc =
          .ok (syms.foldl (fun a x => dset a x (dget cl x 0)) acc, s2) ∧
        BitReader.Inv B (k + 14 * syms.length) s2 ∧
        (bytesToBits B).drop (k + 14 * syms.length) = rest := by
  intro syms
  induction syms with
  | nil =>
      intro k s acc rest hs hdrop _ _
      refine ⟨s, rfl, by simpa using hs, by simpa [Huffman.metadataBits] using hdrop⟩
  | cons x t ih =>
      intro k s acc rest hs hdrop h9 h5
      have hdrop1 : (bytesToBits B).drop k =
          toBits 9 x ++ (toBits 5 (dget cl x 0) ++ (Huffman.metadataBits cl t ++ rest)) := by
        rw [hdrop]
        unfold Huffman.metadataBits
        rw [List.flatMap_cons]
        simp only [List.append_assoc]
      obtain ⟨s1, hr1, hs1, hd1⟩ := BitReader.read_bits_spec B hB 9 x _ k s hs hdrop1
        (by have := h9 x (by simp); omega)
      obtain ⟨s2, hr2, hs2, hd2⟩ := BitReader.read_bits_spec B hB 5 (dget cl x 0) _
        (k + 9) s1 hs1 hd1 (by have := h5 x (by simp); omega)
      obtain ⟨s3, hr3, hs3, hd3⟩ := ih (k + 9 + 5) s2 (dset acc x (dget cl x 0)) rest hs2 hd2
        (fun z hz => h9 z (by simp [hz])) (fun z hz => h5 z (by simp [hz]))
      refine ⟨s3, ?_, ?_, ?_⟩
      · have hstep : Huffman.load_loop (x :: t).length s acc =
            (match s.read_bits 9 with
             | .error e => .error e
             | .ok (symbol, r1) =>
                 match r1.read_bits 5 with
                 | .error e => .error e
                 | .ok (length, r2) => Huffman.load_loop t.length r2 (dset acc symbol length)) := rfl
        rw [hstep]
        simp only [hr1, hr2]
        exact hr3
      · have harith : k + 14 * (x :: t).length = k + 9 + 5 + 14 * t.length := by
          simp only [List.length_cons]
          omega
        rw [harith]
        exact hs3
      · have harith : k + 14 * (x :: t).length = k + 9 + 5 + 14 * t.length := by
          simp only [List.length_cons]
          omega
        rw [harith]
        exact hd3

theorem generate_canonical_codes_symbols (cl : List (Nat × Nat)) :
    (Huffman.generate_canonical_codes cl).symbols =
      Huffman.sortBy (fun a b => a ≤ b) (cl.map Prod.fst) := by
  unfold Huffman.generate_canonical_codes
  by_cases h : (Huffman.sortBy (fun a b => a ≤ b) (cl.map Prod.fst)).isEmpty
  · simp only [h]
    rfl
  · simp only [h]
    rfl

theorem generate_canonical_codes_codes (cl : List (Nat × Nat)) :
    (Huffman.generate_canonical_codes cl).codes =
      (if (Huffman.sortBy (fun a b => a ≤ b) (cl.map Prod.fst)).isEmpty then []
       else Huffman.canon_loop cl
         (Huffman.sortBy (Huffman.lexLe cl)
           (Huffman.sortBy (fun a b => a ≤ b) (cl.map Prod.fst))) 0 0) := by
  unfold Huffman.generate_canonical_codes
  by_cases h : (Huffman.sortBy (fun a b => a ≤ b) (cl.map Prod.fst)).isEmpty
  · simp only [h]
    rfl
  · simp only [h]
    rfl



/-- C7: for a coherent code-lengths table (distinct keys, symbols below
512, lengths below 32, symbol count below 65536 — all true of every table
the program builds) saving the generated code book's metadata and loading
it back reproduces the same symbol-to-(code, length) map — in fact the
identical canonical `codes` table and `symbols` list — and `load_metadata`
returns exactly the length of the metadata byte string. -/
theorem metadata_roundtrip_spec (cl : List (Nat × Nat))
    (hnd : (cl.map Prod.fst).Nodup)
    (hs9 : ∀ p ∈ cl, p.1 < 512)
    (hl5 : ∀ p ∈ cl, p.2 < 32)
    (hn16 : cl.length < 65536) :
    ∃ hf2 : Huffman.Huff,
      Huffman.load_metadata (Huffman.save_metadata (Huffman.generate_canonical_codes cl)) =
        .ok (hf2, (Huffman.save_metadata (Huffman.generate_canonical_codes cl)).length) ∧
      hf2.codes = (Huffman.generate_canonical_codes cl).codes ∧
      hf2.symbols = (Huffman.generate_canonical_codes cl).symbols ∧
      hf2.code_lengths = (Huffman.generate_canonical_codes cl).symbols.map
        (fun s => (s, dget cl s 0)) := by
  have hcl : (Huffman.generate_canonical_codes cl).code_lengths = cl :=
    generate_canonical_codes_lengths cl
  have hsy : (Huffman.generate_canonical_codes cl).symbols =
      Huffman.sortBy (fun a b => a ≤ b) (cl.map Prod.fst) :=
    generate_canonical_codes_symbols cl
  obtain ⟨hBlt, hBbits, hBlen⟩ :=
    Huffman.save_metadata_spec (Huffman.generate_canonical_codes cl)
  rw [hcl, hsy, Huffman.sortBy_le_idem] at hBbits hBlen
  have hperm := Huffman.sortBy_perm (fun a b => a ≤ b) (cl.map Prod.fst)
  have hndS : (Huffman.sortBy (fun a b => a ≤ b) (cl.map Prod.fst)).Nodup :=
    hperm.nodup_iff.mpr hnd
  have hlenS : (Huffman.sortBy (fun a b => a ≤ b) (cl.map Prod.fst)).length = cl.length := by
    rw [Huffman.sortBy_length, List.length_map]
  have h9S : ∀ x ∈ Huffman.sortBy (fun a b => a ≤ b) (cl.map Prod.fst), x < 512 := by
    intro x hx
    obtain ⟨p, hp, hpx⟩ := List.mem_map.mp (Huffman.mem_sortBy _ _ _ hx)
    have := hs9 p hp
    omega
  have h5S : ∀ x, dget cl x 0 < 32 := by
    intro x
    rcases dget_mem cl x 0 with h | h
    · omega
    · exact hl5 _ h
  have hd0 : (bytesToBits (Huffman.save_metadata (Huffman.generate_canonical_codes cl))).drop 0 =
      toBits 16 (Huffman.sortBy (fun a b => a ≤ b) (cl.map Prod.fst)).length ++
        (Huffman.metadataBits cl (Huffman.sortBy (fun a b => a ≤ b) (cl.map Prod.fst)) ++
          List.replicate
            ((8 - (toBits 16 (Huffman.sortBy (fun a b => a ≤ b) (cl.map Prod.fst)).length ++
              Huffman.metadataBits cl
                (Huffman.sortBy (fun a b => a ≤ b) (cl.map Prod.fst))).length % 8) % 8) 0) := by
    rw [List.drop_zero, hBbits, List.append_assoc]
  have hvlt : (Huffman.sortBy (fun a b => a ≤ b) (cl.map Prod.fst)).length < 2 ^ 16 := by
    have h2 : (2 : Nat) ^ 16 = 65536 := by norm_num
    rw [hlenS, h2]
    exact hn16
  obtain ⟨s1, hr16, hs1, hd16⟩ :=
    BitReader.read_bits_spec
      (Huffman.save_metadata (Huffman.generate_canonical_codes cl)) hBlt 16
      (Huffman.sortBy (fun a b => a ≤ b) (cl.map Prod.fst)).length
      (Huffman.metadataBits cl (Huffman.sortBy (fun a b => a ≤ b) (cl.map Prod.fst)) ++
        List.replicate
          ((8 - (toBits 16 (Huffman.sortBy (fun a b => a ≤ b) (cl.map Prod.fst)).length ++
            Huffman.metadataBits cl
              (Huffman.sortBy (fun a b => a ≤ b) (cl.map Prod.fst))).length % 8) % 8) 0)
      0
      (BitReader.init (Huffman.save_metadata (Huffman.generate_canonical_codes cl)))
      (BitReader.init_inv (Huffman.save_metadata (Huffman.generate_canonical_codes cl)))
      hd0 hvlt
  obtain ⟨s2, hrloop, hs2, hdloop⟩ :=
    load_loop_spec _ hBlt cl (Huffman.sortBy (fun a b => a ≤ b) (cl.map Prod.fst))
      16 s1 [] _ hs1 hd16 h9S (fun x _ => h5S x)
  have hfold : (Huffman.sortBy (fun a b => a ≤ b) (cl.map Prod.fst)).foldl
      (fun a x => dset a x (dget cl x 0)) [] =
      (Huffman.sortBy (fun a b => a ≤ b) (cl.map Prod.fst)).map
        (fun x => (x, dget cl x 0)) := by
    rw [foldl_dset_map (fun x => dget cl x 0) _ [] (fun x _ => rfl) hndS]
    rw [List.nil_append]
  have hpos : s2.pos =
      (Huffman.save_metadata (Huffman.generate_canonical_codes cl)).length := by
    have h8 := hs2.pos8
    have hc := hs2.cnt
    rw [List.length_append, toBits_length, metadataBits_length] at hBlen
    omega
  have hload : Huffman.load_metadata
      (Huffman.save_metadata (Huffman.generate_canonical_codes cl)) =
      .ok (Huffman.generate_canonical_codes
        ((Huffman.sortBy (fun a b => a ≤ b) (cl.map Prod.fst)).map
          (fun x => (x, dget cl x 0))), s2.pos) := by
    unfold Huffman.load_metadata
    simp only [hr16]
    simp only [hrloop]
    rw [hfold]
  have hkeys2 : ((Huffman.sortBy (fun a b => a ≤ b) (cl.map Prod.fst)).map
      (fun x => (x, dget cl x 0))).map Prod.fst =
      Huffman.sortBy (fun a b => a ≤ b) (cl.map Prod.fst) := by
    rw [List.map_map]
    have hcomp : (Prod.fst ∘ fun x : Nat => (x, dget cl x 0)) = id := by
      funext y
      rfl
    rw [hcomp, List.map_id]
  have hdg : ∀ s ∈ Huffman.sortBy (fun a b => a ≤ b) (cl.map Prod.fst),
      dget ((Huffman.sortBy (fun a b => a ≤ b) (cl.map Prod.fst)).map
        (fun x => (x, dget cl x 0))) s 0 = dget cl s 0 :=
    fun s hs => dget_map_pairs (fun x => dget cl x 0) _ s hs
  refine ⟨Huffman.generate_canonical_codes
    ((Huffman.sortBy (fun a b => a ≤ b) (cl.map Prod.fst)).map
      (fun x => (x, dget cl x 0))), by rw [hload, hpos], ?_, ?_, ?_⟩
  · rw [generate_canonical_codes_codes, generate_canonical_codes_codes cl,
      hkeys2, Huffman.sortBy_le_idem]
    by_cases hemp : (Huffman.sortBy (fun a b => a ≤ b) (cl.map Prod.fst)).isEmpty
    · rw [if_pos hemp, if_pos hemp]
    · rw [if_neg hemp, if_neg hemp]
      have hsort : Huffman.sortBy
          (Huffman.lexLe ((Huffman.sortBy (fun a b => a ≤ b) (cl.map Prod.fst)).map
            (fun x => (x, dget cl x 0))))
          (Huffman.sortBy (fun a b => a ≤ b) (cl.map Prod.fst)) =
          Huffman.sortBy (Huffman.lexLe cl)
            (Huffman.sortBy (fun a b => a ≤ b) (cl.map Prod.fst)) := by
        apply Huffman.sortBy_congr
        intro a ha b hb
        exact Huffman.lexLe_congr _ _ a b (hdg a ha) (hdg b hb)
      rw [hsort]
      apply Huffman.canon_loop_congr
      intro s hsmem
      exact hdg s (Huffman.mem_sortBy _ _ _ hsmem)
  · rw [generate_canonical_codes_symbols, hkeys2, Huffman.sortBy_le_idem, hsy]
  · rw [generate_canonical_codes_lengths, hsy]

/-- C7: for every coherent code-lengths table, `save_metadata` then
`load_metadata` reproduces the same symbol-to-`(code, length)` map and the
same symbol list, and the byte count `load_metadata` returns equals the
length of the metadata byte string. -/
theorem C7_metadata_roundtrip (cl : List (Nat × Nat))
    (hnd : (cl.map Prod.fst).Nodup)
    (hs9 : ∀ p ∈ cl, p.1 < 512)
    (hl5 : ∀ p ∈ cl, p.2 < 32)
    (hn16 : cl.length < 65536) :
    ∃ hf2 : Huffman.Huff,
      Huffman.load_metadata (Huffman.save_metadata (Huffman.generate_canonical_codes cl)) =
        .ok (hf2, (Huffman.save_metadata (Huffman.generate_canonical_codes cl)).length) ∧
      hf2.codes = (Huffman.generate_canonical_codes cl).codes ∧
      hf2.symbols = (Huffman.generate_canonical_codes cl).symbols ∧
      hf2.code_lengths = (Huffman.generate_canonical_codes cl).symbols.map
        (fun s => (s, dget cl s 0)) :=
  metadata_roundtrip_spec cl hnd hs9 hl5 hn16

theorem C7_metadata_roundtrip_witness :
    ((([(65, 1), (66, 2)] : List (Nat × Nat)).map Prod.fst).Nodup ∧
      (∀ p ∈ ([(65, 1), (66, 2)] : List (Nat × Nat)), p.1 < 512) ∧
      (∀ p ∈ ([(65, 1), (66, 2)] : List (Nat × Nat)), p.2 < 32) ∧
      ([(65, 1), (66, 2)] : List (Nat × Nat)).length < 65536) ∧
    (∃ hf2 : Huffman.Huff,
      Huffman.load_metadata (Huffman.save_metadata
        (Huffman.generate_canonical_codes [(65, 1), (66, 2)])) =
        .ok (hf2, (Huffman.save_metadata
          (Huffman.generate_canonical_codes [(65, 1), (66, 2)])).length) ∧
      hf2.codes = (Huffman.generate_canonical_codes [(65, 1), (66, 2)]).codes ∧
      hf2.symbols = (Huffman.generate_canonical_codes [(65, 1), (66, 2)]).symbols ∧
      hf2.code_lengths = (Huffman.generate_canonical_codes [(65, 1), (66, 2)]).symbols.map
        (fun s => (s, dget [(65, 1), (66, 2)] s 0))) :=
  ⟨⟨by decide, by decide, by decide, by decide⟩,
    C7_metadata_roundtrip [(65, 1), (66, 2)] (by decide) (by decide) (by decide) (by decide)⟩


/-! ### Claim C8: path lemmas -/

theorem splitSlash_ne_nil : ∀ (p : List Char), splitSlash p ≠ [] := by
  intro p
  induction p with
  | nil => simp [splitSlash]
  | cons c rest ih =>
      show (if c = '/' then [] :: splitSlash rest else
        match splitSlash rest with
        | [] => [[c]]
        | s :: ss => (c :: s) :: ss) ≠ []
      by_cases h : c = '/'
      · rw [if_pos h]
        simp
      · rw [if_neg h]
        cases hs : splitSlash rest with
        | nil => simp
        | cons s ss => simp

theorem splitSlash_no_slash : ∀ (p : List Char), ∀ c ∈ splitSlash p, '/' ∉ c := by
  intro p
  induction p with
  | nil =>
      intro c hc
      simp [splitSlash] at hc
      simp [hc]
  | cons x rest ih =>
      intro c hc
      by_cases h : x = '/'
      · rw [show splitSlash (x :: rest) = [] :: splitSlash rest by
          show (if x = '/' then _ else _) = _; rw [if_pos h]] at hc
        rcases List.mem_cons.mp hc with h1 | h1
        · simp [h1]
        · exact ih c h1
      · rw [show splitSlash (x :: rest) = (match splitSlash rest with
          | [] => [[x]]
          | s :: ss => (x :: s) :: ss) by
          show (if x = '/' then _ else _) = _; rw [if_neg h]] at hc
        cases hs : splitSlash rest with
        | nil =>
            rw [hs] at hc
            simp at hc
            rw [hc]
            intro hmem
            rcases List.mem_cons.mp hmem with h2 | h2
            · exact h h2.symm
            · simp at h2
        | cons s ss =>
            rw [hs] at hc
            rcases List.mem_cons.mp hc with h1 | h1
            · rw [h1]
              intro hmem
              rcases List.mem_cons.mp hmem with h2 | h2
              · exact h h2.symm
              · exact ih s (hs ▸ List.mem_cons_self s ss) h2
            · exact ih c (hs ▸ List.mem_cons_of_mem s h1)

theorem splitSlash_of_no_slash : ∀ (c : List Char), '/' ∉ c → splitSlash c = [c] := by
  intro c
  induction c with
  | nil => intro _; rfl
  | cons x rest ih =>
      intro h
      have hx : ¬ x = '/' := fun hh => h (by rw [hh]; simp)
      show (if x = '/' then _ else
        match splitSlash rest with
        | [] => [[x]]
        | s :: ss => (x :: s) :: ss) = [x :: rest]
      rw [if_neg hx, ih (fun hh => h (List.mem_cons_of_mem x hh))]

theorem splitSlash_append : ∀ (c : List Char) (rest : List Char), '/' ∉ c →
    splitSlash (c ++ '/' :: rest) = c :: splitSlash rest := by
  intro c
  induction c with
  | nil =>
      intro rest _
      show (if '/' = '/' then [] :: splitSlash rest else _) = [] :: splitSlash rest
      rw [if_pos rfl]
  | cons x xs ih =>
      intro rest h
      have hx : ¬ x = '/' := fun hh => h (by rw [hh]; simp)
      show (if x = '/' then _ else
        match splitSlash (xs ++ '/' :: rest) with
        | [] => [[x]]
        | s :: ss => (x :: s) :: ss) = (x :: xs) :: splitSlash rest
      rw [if_neg hx, ih rest (fun hh => h (List.mem_cons_of_mem x hh))]

theorem joinSlash_cons (c : List Char) (rest : List (List Char)) (h : rest ≠ []) :
    joinSlash (c :: rest) = c ++ '/' :: joinSlash rest := by
  cases rest with
  | nil => exact absurd rfl h
  | cons d ds => rfl

theorem splitSlash_join : ∀ (l : List (List Char)), l ≠ [] → (∀ c ∈ l, '/' ∉ c) →
    splitSlash (joinSlash l) = l := by
  intro l
  induction l with
  | nil => intro h _; exact absurd rfl h
  | cons c rest ih =>
      intro _ hsl
      cases rest with
      | nil =>
          show splitSlash (joinSlash [c]) = [c]
          exact splitSlash_of_no_slash c (hsl c (by simp))
      | cons d ds =>
          rw [joinSlash_cons c (d :: ds) (by simp)]
          rw [splitSlash_append c _ (hsl c (by simp))]
          rw [ih (by simp) (fun z hz => hsl z (List.mem_cons_of_mem c hz))]

theorem splitSlash_replicate_append : ∀ (k : Nat) (s : List Char),
    splitSlash (List.replicate k '/' ++ s) = List.replicate k [] ++ splitSlash s := by
  intro k
  induction k with
  | zero => intro s; simp
  | succ k ih =>
      intro s
      rw [List.replicate_succ, List.cons_append]
      show (if ('/' : Char) = '/' then [] :: splitSlash (List.replicate k '/' ++ s) else _) = _
      rw [if_pos rfl, ih]
      rfl

theorem comps_normform (k : Nat) (nc : List (List Char)) (hk : 1 ≤ k)
    (h1 : ∀ c ∈ nc, c ≠ []) (h2 : ∀ c ∈ nc, c ≠ ['.']) (h3 : ∀ c ∈ nc, '/' ∉ c) :
    comps (List.replicate k '/' ++ joinSlash nc) = nc := by
  unfold comps
  cases nc with
  | nil =>
      show (splitSlash (List.replicate k '/' ++ [])).filter _ = []
      rw [List.append_nil, show (List.replicate k '/' : List Char) =
        List.replicate k '/' ++ [] by simp, splitSlash_replicate_append]
      show (List.replicate k [] ++ [[]]).filter _ = []
      rw [List.filter_append]
      simp
  | cons c rest =>
      rw [splitSlash_replicate_append, splitSlash_join (c :: rest) (by simp) h3]
      rw [List.filter_append]
      have he : (List.replicate k ([] : List Char)).filter
          (fun c => decide (c ≠ [] ∧ c ≠ ['.'])) = [] := by
        simp
      rw [he, List.nil_append]
      rw [List.filter_eq_self]
      intro a ha
      simp only [decide_eq_true_eq]
      exact ⟨h1 a ha, h2 a ha⟩

theorem normLoop_ok : ∀ (l : List (List Char)) (ini : Nat) (acc : List (List Char)),
    1 ≤ ini → (∀ c ∈ l, '/' ∉ c) →
    (∀ c ∈ acc, c ≠ [] ∧ c ≠ ['.'] ∧ c ≠ ['.', '.'] ∧ '/' ∉ c) →
    ∀ c ∈ normLoop ini acc l, c ≠ [] ∧ c ≠ ['.'] ∧ c ≠ ['.', '.'] ∧ '/' ∉ c := by
  intro l
  induction l with
  | nil =>
      intro ini acc _ _ hacc c hc
      exact hacc c hc
  | cons comp rest ih =>
      intro ini acc hini hl hacc
      show ∀ c ∈ (if comp = [] ∨ comp = ['.'] then normLoop ini acc rest
        else if comp ≠ ['.', '.'] ∨ (ini = 0 ∧ acc = []) ∨
            (acc ≠ [] ∧ acc.getLast? = some ['.', '.']) then
          normLoop ini (acc ++ [comp]) rest
        else if acc ≠ [] then normLoop ini acc.dropLast rest
        else normLoop ini acc rest), _
      by_cases hskip : comp = [] ∨ comp = ['.']
      · rw [if_pos hskip]
        exact ih ini acc hini (fun z hz => hl z (List.mem_cons_of_mem comp hz)) hacc
      · rw [if_neg hskip]
        by_cases happ : comp ≠ ['.', '.'] ∨ (ini = 0 ∧ acc = []) ∨
            (acc ≠ [] ∧ acc.getLast? = some ['.', '.'])
        · rw [if_pos happ]
          refine ih ini (acc ++ [comp]) hini
            (fun z hz => hl z (List.mem_cons_of_mem comp hz)) ?_
          intro c hc
          rcases List.mem_append.mp hc with h | h
          · exact hacc c h
          · simp at h
            subst h
            refine ⟨fun hh => hskip (Or.inl hh), fun hh => hskip (Or.inr hh), ?_,
              hl c (by simp)⟩
            intro hdd
            rcases happ with h | h | h
            · exact h hdd
            · omega
            · obtain ⟨hne, hlast⟩ := h
              obtain ⟨hnn, heq⟩ := List.mem_getLast?_eq_getLast
                (Option.mem_def.mpr hlast)
              have := (hacc _ (heq ▸ List.getLast_mem hnn)).2.2.1
              exact this rfl
        · rw [if_neg happ]
          by_cases hne : acc ≠ []
          · rw [if_pos hne]
            refine ih ini acc.dropLast hini
              (fun z hz => hl z (List.mem_cons_of_mem comp hz)) ?_
            intro c hc
            exact hacc c (List.mem_of_mem_dropLast hc)
          · rw [if_neg hne]
            exact ih ini acc hini (fun z hz => hl z (List.mem_cons_of_mem comp hz)) hacc

theorem isAbs_ne_nil (p : List Char) (h : isAbs p = true) : p ≠ [] := by
  intro hp
  rw [hp] at h
  simp [isAbs] at h

theorem isAbs_cons (p : List Char) (h : isAbs p = true) : ∃ t, p = '/' :: t := by
  cases p with
  | nil => simp [isAbs] at h
  | cons c t =>
      simp [isAbs] at h
      exact ⟨t, by rw [h]⟩

theorem normpath_abs_form (p : List Char) (h : isAbs p = true) :
    ∃ (k : Nat) (nc : List (List Char)), 1 ≤ k ∧ k ≤ 2 ∧
      normpath p = List.replicate k '/' ++ joinSlash nc ∧
      ∀ c ∈ nc, c ≠ [] ∧ c ≠ ['.'] ∧ c ≠ ['.', '.'] ∧ '/' ∉ c := by
  have hpn : p ≠ [] := isAbs_ne_nil p h
  have ht1 : p.take 1 = ['/'] := by simpa [isAbs] using h
  by_cases h2 : p.take 2 = ['/', '/'] ∧ p.take 3 ≠ ['/', '/', '/']
  · refine ⟨2, normLoop 2 [] (splitSlash p), by omega, by omega, ?_, ?_⟩
    · have hini : (if List.take 1 p = ['/'] then
          if List.take 2 p = ['/', '/'] ∧ List.take 3 p ≠ ['/', '/', '/'] then 2 else 1
        else 0) = 2 := by
        rw [if_pos ht1, if_pos h2]
      simp only [normpath, if_neg hpn]
      rw [hini]
      rw [if_neg (by simp)]
    · exact normLoop_ok (splitSlash p) 2 [] (by omega) (splitSlash_no_slash p) (by simp)
  · refine ⟨1, normLoop 1 [] (splitSlash p), by omega, by omega, ?_, ?_⟩
    · have hini : (if List.take 1 p = ['/'] then
          if List.take 2 p = ['/', '/'] ∧ List.take 3 p ≠ ['/', '/', '/'] then 2 else 1
        else 0) = 1 := by
        rw [if_pos ht1, if_neg h2]
      simp only [normpath, if_neg hpn]
      rw [hini]
      rw [if_neg (by simp)]
    · exact normLoop_ok (splitSlash p) 1 [] (by omega) (splitSlash_no_slash p) (by simp)

theorem isAbs_normpath (p : List Char) (h : isAbs p = true) :
    isAbs (normpath p) = true := by
  obtain ⟨k, nc, hk1, _, heq, _⟩ := normpath_abs_form p h
  rw [heq]
  cases k with
  | zero => omega
  | succ k =>
      rw [List.replicate_succ]
      simp [isAbs]

theorem isAbs_pjoin (a b : List Char) (ha : isAbs a = true) :
    isAbs (pjoin a b) = true := by
  obtain ⟨t, hat⟩ := isAbs_cons a ha
  unfold pjoin
  by_cases hb : b.take 1 = ['/']
  · rw [if_pos hb]
    simpa [isAbs] using hb
  · rw [if_neg hb]
    by_cases hmid : a = [] ∨ a.getLast? = some '/'
    · rw [if_pos hmid, hat]
      simp [isAbs]
    · rw [if_neg hmid, hat]
      simp [isAbs]

theorem isAbs_abspath (cwd p : List Char) (hcwd : isAbs cwd = true) :
    isAbs (abspath cwd p) = true := by
  unfold abspath
  by_cases hp : p.take 1 = ['/']
  · rw [if_pos hp]
    exact isAbs_normpath p (by simpa [isAbs] using hp)
  · rw [if_neg hp]
    exact isAbs_normpath _ (isAbs_pjoin cwd p hcwd)

theorem abspath_form (cwd p : List Char) (hcwd : isAbs cwd = true) :
    ∃ (k : Nat) (nc : List (List Char)), 1 ≤ k ∧ k ≤ 2 ∧
      abspath cwd p = List.replicate k '/' ++ joinSlash nc ∧
      ∀ c ∈ nc, c ≠ [] ∧ c ≠ ['.'] ∧ c ≠ ['.', '.'] ∧ '/' ∉ c := by
  unfold abspath
  by_cases hp : p.take 1 = ['/']
  · rw [if_pos hp]
    exact normpath_abs_form p (by simpa [isAbs] using hp)
  · rw [if_neg hp]
    exact normpath_abs_form _ (isAbs_pjoin cwd p hcwd)

theorem commonInit_nil_left : ∀ (b : List (List Char)), commonInit [] b = [] := by
  intro b
  cases b <;> rfl

theorem commonInit_nil_right : ∀ (a : List (List Char)), commonInit a [] = [] := by
  intro a
  cases a <;> rfl

theorem commonInit_comm : ∀ (a b : List (List Char)), commonInit a b = commonInit b a := by
  intro a
  induction a with
  | nil => intro b; rw [commonInit_nil_left, commonInit_nil_right]
  | cons x xs ih =>
      intro b
      cases b with
      | nil => rw [commonInit_nil_left, commonInit_nil_right]
      | cons y ys =>
          show (if x = y then x :: commonInit xs ys else []) =
            (if y = x then y :: commonInit ys xs else [])
          by_cases h : x = y
          · rw [if_pos h, if_pos h.symm, ih ys, h]
          · rw [if_neg h, if_neg (fun hh => h hh.symm)]

theorem strLt_asymm : ∀ (a b : List Char), strLt a b = true → strLt b a = false := by
  intro a
  induction a with
  | nil =>
      intro b hab
      cases b with
      | nil => simp [strLt] at hab
      | cons y ys => rfl
  | cons x xs ih =>
      intro b hab
      cases b with
      | nil => simp [strLt] at hab
      | cons y ys =>
          show (if y = x then strLt ys xs else decide (y < x)) = false
          by_cases h : x = y
          · rw [if_pos h.symm]
            subst h
            exact ih ys (by simpa [strLt] using hab)
          · rw [if_neg (fun hh => h hh.symm)]
            have hxy : x < y := by
              have : strLt (x :: xs) (y :: ys) = decide (x < y) := by
                show (if x = y then _ else _) = _
                rw [if_neg h]
              rw [this] at hab
              exact of_decide_eq_true hab
            simp [not_lt_of_lt hxy]

theorem strLt_total : ∀ (a b : List Char), strLt a b = false → strLt b a = false → a = b := by
  intro a
  induction a with
  | nil =>
      intro b _ hba
      cases b with
      | nil => rfl
      | cons y ys => simp [strLt] at *
  | cons x xs ih =>
      intro b hab hba
      cases b with
      | nil => simp [strLt] at hba
      | cons y ys =>
          by_cases h : x = y
          · subst h
            have h1 : strLt xs ys = false := by simpa [strLt] using hab
            have h2 : strLt ys xs = false := by simpa [strLt] using hba
            rw [ih ys h1 h2]
          · have h1 : decide (x < y) = false := by
              have : strLt (x :: xs) (y :: ys) = decide (x < y) := by
                show (if x = y then _ else _) = _
                rw [if_neg h]
              rw [← this]
              exact hab
            have h2 : decide (y < x) = false := by
              have : strLt (y :: ys) (x :: xs) = decide (y < x) := by
                show (if y = x then _ else _) = _
                rw [if_neg (fun hh => h hh.symm)]
              rw [← this]
              exact hba
            rcases lt_trichotomy x y with hlt | heq | hgt
            · exact absurd hlt (by simpa using h1)
            · exact absurd heq h
            · exact absurd hgt (by simpa using h2)

theorem strListLt_asymm : ∀ (a b : List (List Char)),
    strListLt a b = true → strListLt b a = false := by
  intro a
  induction a with
  | nil =>
      intro b hab
      cases b with
      | nil => simp [strListLt] at hab
      | cons y ys => rfl
  | cons x xs ih =>
      intro b hab
      cases b with
      | nil => simp [strListLt] at hab
      | cons y ys =>
          show (if y = x then strListLt ys xs else strLt y x) = false
          by_cases h : x = y
          · rw [if_pos h.symm]
            subst h
            exact ih ys (by simpa [strListLt] using hab)
          · rw [if_neg (fun hh => h hh.symm)]
            have hxy : strLt x y = true := by
              have : strListLt (x :: xs) (y :: ys) = strLt x y := by
                show (if x = y then _ else _) = _
                rw [if_neg h]
              rw [this] at hab
              exact hab
            exact strLt_asymm x y hxy

theorem strListLt_total : ∀ (a b : List (List Char)),
    strListLt a b = false → strListLt b a = false → a = b := by
  intro a
  induction a with
  | nil =>
      intro b _ hba
      cases b with
      | nil => rfl
      | cons y ys => simp [strListLt] at *
  | cons x xs ih =>
      intro b hab hba
      cases b with
      | nil => simp [strListLt] at hba
      | cons y ys =>
          by_cases h : x = y
          · subst h
            have h1 : strListLt xs ys = false := by simpa [strListLt] using hab
            have h2 : strListLt ys xs = false := by simpa [strListLt] using hba
            rw [ih ys h1 h2]
          · have h1 : strLt x y = false := by
              have : strListLt (x :: xs) (y :: ys) = strLt x y := by
                show (if x = y then _ else _) = _
                rw [if_neg h]
              rw [← this]
              exact hab
            have h2 : strLt y x = false := by
              have : strListLt (y :: ys) (x :: xs) = strLt y x := by
                show (if y = x then _ else _) = _
                rw [if_neg (fun hh => h hh.symm)]
              rw [← this]
              exact hba
            exact absurd (strLt_total x y h1 h2) h

theorem commonInit_minmax (sp sq : List (List Char)) :
    commonInit (if strListLt sq sp then sq else sp)
      (if strListLt sp sq then sq else sp) = commonInit sp sq := by
  by_cases h1 : strListLt sq sp
  · by_cases h2 : strListLt sp sq
    · exact absurd h1 (by rw [strListLt_asymm sp sq h2]; simp)
    · rw [if_pos h1, if_neg h2]
      exact commonInit_comm sq sp
  · by_cases h2 : strListLt sp sq
    · rw [if_neg h1, if_pos h2]
    · rw [if_neg h1, if_neg h2]
      have := strListLt_total sp sq (by simpa using h2) (by simpa using h1)
      rw [this]

theorem commonInit_take : ∀ (a b : List (List Char)),
    ∃ n, commonInit a b = a.take n ∧ commonInit a b = b.take n := by
  intro a
  induction a with
  | nil =>
      intro b
      exact ⟨0, by rw [commonInit_nil_left, List.take_zero],
        by rw [commonInit_nil_left, List.take_zero]⟩
  | cons x xs ih =>
      intro b
      cases b with
      | nil =>
          exact ⟨0, by rw [commonInit_nil_right, List.take_zero],
            by rw [commonInit_nil_right, List.take_zero]⟩
      | cons y ys =>
          by_cases h : x = y
          · obtain ⟨n, h1, h2⟩ := ih ys
            refine ⟨n + 1, ?_, ?_⟩
            · show (if x = y then x :: commonInit xs ys else []) = _
              rw [if_pos h, h1]
              rfl
            · show (if x = y then x :: commonInit xs ys else []) = _
              rw [if_pos h, h2, h]
              rfl
          · refine ⟨0, ?_, ?_⟩
            · show (if x = y then x :: commonInit xs ys else []) = _
              rw [if_neg h, List.take_zero]
            · show (if x = y then x :: commonInit xs ys else []) = _
              rw [if_neg h, List.take_zero]

theorem joinSlash_len_lt : ∀ (l : List (List Char)) (n : Nat),
    (∀ c ∈ l, c ≠ []) → n < l.length →
    (joinSlash (l.take n)).length < (joinSlash l).length := by
  intro l
  induction l with
  | nil =>
      intro n _ hn
      simp at hn
  | cons c rest ih =>
      intro n hne hn
      have hc1 : 1 ≤ c.length := by
        have := hne c (by simp)
        cases c with
        | nil => exact absurd rfl this
        | cons a as => simp
      cases n with
      | zero =>
          show (joinSlash []).length < (joinSlash (c :: rest)).length
          rw [show joinSlash ([] : List (List Char)) = [] from rfl]
          cases rest with
          | nil =>
              show (0 : Nat) < c.length
              omega
          | cons d ds =>
              rw [joinSlash_cons c (d :: ds) (by simp)]
              simp only [List.length_append, List.length_cons, List.length_nil]
              omega
      | succ m =>
          have hmr : m < rest.length := by simpa using hn
          have hrne : rest ≠ [] := by
            cases rest with
            | nil => simp at hmr
            | cons d ds => simp
          rw [List.take_succ_cons]
          rw [joinSlash_cons c rest hrne]
          cases hrm : rest.take m with
          | nil =>
              rw [show joinSlash [c] = c from rfl]
              simp only [List.length_append, List.length_cons]
              omega
          | cons e es =>
              rw [← hrm]
              rw [joinSlash_cons c (rest.take m) (by rw [hrm]; simp)]
              simp only [List.length_append, List.length_cons]
              have := ih m (fun z hz => hne z (List.mem_cons_of_mem c hz)) hmr
              omega

theorem commonpath2_abs (p q : List Char) (hp : isAbs p = true) (hq : isAbs q = true) :
    commonpath2 p q = .ok ('/' :: joinSlash (commonInit (comps p) (comps q))) := by
  simp only [commonpath2]
  rw [if_neg (by rw [hp, hq]; simp)]
  rw [commonInit_minmax]
  rw [if_pos hp]


/-- C8: `_safe_join(base, arc_path)` either raises `ValueError` (the
`UnsafePath` rejection) or returns an absolute path whose canonical
component list extends that of the canonical destination directory — the
result is the destination itself or lies strictly within it, so any
archive path whose joined form escapes the destination root is rejected.
`cwd` is the process working directory, which is always absolute. -/
theorem C8_safe_join_contained (cwd base arc r : List Char)
    (hcwd : isAbs cwd = true)
    (h : safe_join cwd base arc = .ok r) :
    isAbs r = true ∧ ∃ extra, comps r = comps (abspath cwd base) ++ extra := by
  have hb : isAbs (abspath cwd base) = true := isAbs_abspath cwd base hcwd
  have hc : isAbs (abspath cwd (pjoin (abspath cwd base)
      (arc.map (fun c => if c = '\\' then '/' else c)))) = true :=
    isAbs_abspath cwd _ hcwd
  simp only [safe_join] at h
  simp only [commonpath2_abs _ _ hc hb] at h
  generalize hgc : abspath cwd (pjoin (abspath cwd base)
      (arc.map (fun c => if c = '\\' then '/' else c))) = cand at hc h
  by_cases hcp : ('/' :: joinSlash (commonInit (comps cand) (comps (abspath cwd base)))) =
      abspath cwd base
  · rw [if_neg (not_not_intro hcp)] at h
    have hrc : cand = r := by
      simpa using h
    obtain ⟨k, bc, hk1, hk2, heq, hP⟩ := abspath_form cwd base hcwd
    have hcompsb : comps (abspath cwd base) = bc := by
      rw [heq]
      exact comps_normform k bc hk1 (fun c hcm => (hP c hcm).1)
        (fun c hcm => (hP c hcm).2.1) (fun c hcm => (hP c hcm).2.2.2)
    rw [hcompsb] at hcp
    rw [heq] at hcp
    obtain ⟨n, hta, htb⟩ := commonInit_take (comps cand) bc
    have hbne : ∀ c ∈ bc, c ≠ [] := fun c hcm => (hP c hcm).1
    rcases k with _ | _ | _ | k
    · omega
    · -- k = 1
      have hcp2 : '/' :: joinSlash (commonInit (comps cand) bc) =
          '/' :: joinSlash bc := by
        simpa using hcp
      have hJ : joinSlash (commonInit (comps cand) bc) = joinSlash bc := by
        injection hcp2
      have hcommon : commonInit (comps cand) bc = bc := by
        by_cases hn : bc.length ≤ n
        · rw [htb, List.take_of_length_le hn]
        · exfalso
          have hlt := joinSlash_len_lt bc n hbne (by omega)
          rw [← htb, hJ] at hlt
          omega
      refine ⟨by rw [← hrc]; exact hc, (comps cand).drop n, ?_⟩
      rw [← hrc, hcompsb]
      conv_lhs => rw [← List.take_append_drop n (comps cand)]
      rw [← hta, hcommon]
    · -- k = 2: impossible
      exfalso
      have hcp2 : joinSlash (commonInit (comps cand) bc) = '/' :: joinSlash bc := by
        have h2 := hcp
        rw [show (List.replicate 2 '/' : List Char) = ['/', '/'] from rfl] at h2
        injection h2
      cases hcm : commonInit (comps cand) bc with
      | nil =>
          rw [hcm] at hcp2
          simp [joinSlash] at hcp2
      | cons c0 cs =>
          have hc0bc : c0 ∈ bc := by
            have hmem : c0 ∈ bc.take n := by
              rw [← htb, hcm]
              simp
            exact List.take_subset n bc hmem
          have hc0ne : c0 ≠ [] := (hP c0 hc0bc).1
          have hc0sl : '/' ∉ c0 := (hP c0 hc0bc).2.2.2
          cases c0 with
          | nil => exact hc0ne rfl
          | cons ch ct =>
              have hhead : (joinSlash ((ch :: ct) :: cs)).head? = some ch := by
                cases cs with
                | nil => rfl
                | cons d ds =>
                    rw [joinSlash_cons _ _ (by simp)]
                    rfl
              rw [hcm] at hcp2
              rw [hcp2] at hhead
              simp at hhead
              exact hc0sl (by rw [hhead]; simp)
    · omega
  · rw [if_pos hcp] at h
    simp at h

theorem C8_safe_join_contained_witness :
    isAbs ("/w".toList) = true ∧
    safe_join ("/w".toList) ("/dst".toList) ("f.txt".toList) = .ok ("/dst/f.txt".toList) ∧
    isAbs ("/dst/f.txt".toList) = true ∧
    ∃ extra, comps ("/dst/f.txt".toList) =
      comps (abspath ("/w".toList) ("/dst".toList)) ++ extra := by
  have h := C8_safe_join_contained ("/w".toList) ("/dst".toList) ("f.txt".toList)
    ("/dst/f.txt".toList) rfl rfl
  exact ⟨rfl, rfl, h.1, h.2⟩


/-! ### Claim C6: the canonical code construction -/

theorem mem_insertSorted {α : Type} (le : α → α → Bool) (x : α) (l : List α) (y : α)
    (h : y ∈ Huffman.insertSorted le x l) : y = x ∨ y ∈ l := by
  have := (Huffman.insertSorted_perm le x l).mem_iff.mp h
  simpa using this

theorem insertSorted_pairwise_of {α : Type} (le : α → α → Bool)
    (htot : ∀ a b, le a b = false → le b a = true)
    (htrans : ∀ a b c, le a b = true → le b c = true → le a c = true) (x : α) :
    ∀ l, List.Pairwise (fun a b => le a b = true) l →
      List.Pairwise (fun a b => le a b = true) (Huffman.insertSorted le x l) := by
  intro l
  induction l with
  | nil =>
      intro _
      simp [Huffman.insertSorted]
  | cons y ys ih =>
      intro hp
      show List.Pairwise _ (if le x y then x :: y :: ys else
        y :: Huffman.insertSorted le x ys)
      by_cases h : le x y
      · rw [if_pos h]
        refine List.Pairwise.cons ?_ hp
        intro b hb
        rcases List.mem_cons.mp hb with hby | hbys
        · rw [hby]
          exact h
        · exact htrans x y b h (List.rel_of_pairwise_cons hp hbys)
      · rw [if_neg h]
        refine List.Pairwise.cons ?_ (ih (List.Pairwise.sublist (by simp) hp))
        intro b hb
        rcases mem_insertSorted le x ys b hb with hbx | hbys
        · rw [hbx]
          exact htot x y (by simpa using h)
        · exact List.rel_of_pairwise_cons hp hbys

theorem sortBy_pairwise_of {α : Type} (le : α → α → Bool)
    (htot : ∀ a b, le a b = false → le b a = true)
    (htrans : ∀ a b c, le a b = true → le b c = true → le a c = true) :
    ∀ l, List.Pairwise (fun a b => le a b = true) (Huffman.sortBy le l) := by
  intro l
  induction l with
  | nil => simp [Huffman.sortBy]
  | cons x xs ih => exact insertSorted_pairwise_of le htot htrans x _ ih

theorem lexLe_iff (cl : List (Nat × Nat)) (a b : Nat) :
    Huffman.lexLe cl a b = true ↔
      dget cl a 0 < dget cl b 0 ∨ (dget cl a 0 = dget cl b 0 ∧ a ≤ b) := by
  simp [Huffman.lexLe]

theorem lexLe_tot (cl : List (Nat × Nat)) (a b : Nat)
    (h : Huffman.lexLe cl a b = false) : Huffman.lexLe cl b a = true := by
  rw [lexLe_iff]
  have h2 : ¬ (dget cl a 0 < dget cl b 0 ∨ (dget cl a 0 = dget cl b 0 ∧ a ≤ b)) := by
    rw [← lexLe_iff]
    simp [h]
  omega

theorem lexLe_trans (cl : List (Nat × Nat)) (a b c : Nat)
    (h1 : Huffman.lexLe cl a b = true) (h2 : Huffman.lexLe cl b c = true) :
    Huffman.lexLe cl a c = true := by
  rw [lexLe_iff] at h1 h2 ⊢
  omega

theorem sorted_lengths (cl : List (Nat × Nat)) (l : List Nat) :
    List.Pairwise (fun a b => dget cl a 0 ≤ dget cl b 0)
      (Huffman.sortBy (Huffman.lexLe cl) l) := by
  have hp := sortBy_pairwise_of (Huffman.lexLe cl) (lexLe_tot cl) (lexLe_trans cl) l
  refine hp.imp ?_
  intro a b hab
  rw [lexLe_iff] at hab
  omega


theorem canon_loop_cons (cl : List (Nat × Nat)) (s : Nat) (rest : List Nat)
    (code prev : Nat) :
    Huffman.canon_loop cl (s :: rest) code prev =
      (s, (code <<< (dget cl s 0 - prev), dget cl s 0)) ::
        Huffman.canon_loop cl rest (code <<< (dget cl s 0 - prev) + 1) (dget cl s 0) := rfl

theorem canon_loop_lower (cl : List (Nat × Nat)) : ∀ (syms : List Nat) (code prev : Nat),
    List.Pairwise (fun a b => dget cl a 0 ≤ dget cl b 0) syms →
    (∀ s ∈ syms, prev ≤ dget cl s 0) →
    ∀ p ∈ Huffman.canon_loop cl syms code prev,
      prev ≤ p.2.2 ∧ code * 2 ^ (p.2.2 - prev) ≤ p.2.1 := by
  intro syms
  induction syms with
  | nil =>
      intro code prev _ _ p hp
      simp [Huffman.canon_loop] at hp
  | cons s rest ih =>
      intro code prev hsort hge p hp
      rw [canon_loop_cons] at hp
      rcases List.mem_cons.mp hp with hph | hpt
      · subst hph
        refine ⟨hge s (by simp), ?_⟩
        show code * 2 ^ (dget cl s 0 - prev) ≤ code <<< (dget cl s 0 - prev)
        rw [Nat.shiftLeft_eq]
      · have hrec := ih (code <<< (dget cl s 0 - prev) + 1) (dget cl s 0)
          (List.Pairwise.sublist (by simp) hsort)
          (fun z hz => List.rel_of_pairwise_cons hsort hz) p hpt
        have hs : prev ≤ dget cl s 0 := hge s (by simp)
        refine ⟨le_trans hs hrec.1, ?_⟩
        calc code * 2 ^ (p.2.2 - prev)
            = code * (2 ^ (dget cl s 0 - prev) * 2 ^ (p.2.2 - dget cl s 0)) := by
              rw [← pow_add, show dget cl s 0 - prev + (p.2.2 - dget cl s 0) = p.2.2 - prev from by
                have h1 := hrec.1
                omega]
          _ = (code * 2 ^ (dget cl s 0 - prev)) * 2 ^ (p.2.2 - dget cl s 0) := by ring
          _ ≤ (code <<< (dget cl s 0 - prev) + 1) * 2 ^ (p.2.2 - dget cl s 0) := by
              rw [Nat.shiftLeft_eq]
              exact Nat.mul_le_mul_right _ (by omega)
          _ ≤ p.2.1 := hrec.2

theorem canon_loop_pairwise (cl : List (Nat × Nat)) : ∀ (syms : List Nat) (code prev : Nat),
    List.Pairwise (fun a b => dget cl a 0 ≤ dget cl b 0) syms →
    (∀ s ∈ syms, prev ≤ dget cl s 0) →
    List.Pairwise (fun p q => p.2.2 ≤ q.2.2 ∧ (p.2.1 + 1) * 2 ^ (q.2.2 - p.2.2) ≤ q.2.1)
      (Huffman.canon_loop cl syms code prev) := by
  intro syms
  induction syms with
  | nil =>
      intro code prev _ _
      simp [Huffman.canon_loop]
  | cons s rest ih =>
      intro code prev hsort hge
      rw [canon_loop_cons]
      refine List.Pairwise.cons ?_ (ih (code <<< (dget cl s 0 - prev) + 1) (dget cl s 0)
        (List.Pairwise.sublist (by simp) hsort)
        (fun z hz => List.rel_of_pairwise_cons hsort hz))
      intro q hq
      have hrec := canon_loop_lower cl rest (code <<< (dget cl s 0 - prev) + 1)
        (dget cl s 0) (List.Pairwise.sublist (by simp) hsort)
        (fun z hz => List.rel_of_pairwise_cons hsort hz) q hq
      exact ⟨hrec.1, hrec.2⟩

theorem canon_loop_fit (cl : List (Nat × Nat)) (L : Nat) : ∀ (syms : List Nat) (code prev : Nat),
    List.Pairwise (fun a b => dget cl a 0 ≤ dget cl b 0) syms →
    (∀ s ∈ syms, prev ≤ dget cl s 0) →
    (∀ s ∈ syms, dget cl s 0 ≤ L) → prev ≤ L →
    code * 2 ^ (L - prev) + (syms.map (fun s => 2 ^ (L - dget cl s 0))).sum ≤ 2 ^ L →
    ∀ p ∈ Huffman.canon_loop cl syms code prev,
      p.2.2 ≤ L ∧ (p.2.1 + 1) * 2 ^ (L - p.2.2) ≤ 2 ^ L := by
  intro syms
  induction syms with
  | nil =>
      intro code prev _ _ _ _ _ p hp
      simp [Huffman.canon_loop] at hp
  | cons s rest ih =>
      intro code prev hsort hge hLe hpL hbudget p hp
      have hs1 : prev ≤ dget cl s 0 := hge s (by simp)
      have hs2 : dget cl s 0 ≤ L := hLe s (by simp)
      have hhead : (code <<< (dget cl s 0 - prev) + 1) * 2 ^ (L - dget cl s 0) =
          code * 2 ^ (L - prev) + 2 ^ (L - dget cl s 0) := by
        rw [Nat.shiftLeft_eq, Nat.add_mul, Nat.one_mul, Nat.mul_assoc, ← pow_add]
        congr 3
        omega
      have hsum : ((s :: rest).map (fun z => 2 ^ (L - dget cl z 0))).sum =
          2 ^ (L - dget cl s 0) + (rest.map (fun z => 2 ^ (L - dget cl z 0))).sum := by
        simp
      rw [canon_loop_cons] at hp
      rcases List.mem_cons.mp hp with hph | hpt
      · subst hph
        refine ⟨hs2, ?_⟩
        show (code <<< (dget cl s 0 - prev) + 1) * 2 ^ (L - dget cl s 0) ≤ 2 ^ L
        rw [hhead]
        rw [hsum] at hbudget
        omega
      · refine ih (code <<< (dget cl s 0 - prev) + 1) (dget cl s 0)
          (List.Pairwise.sublist (by simp) hsort)
          (fun z hz => List.rel_of_pairwise_cons hsort hz)
          (fun z hz => hLe z (by simp [hz])) hs2 ?_ p hpt
        rw [hhead]
        rw [hsum] at hbudget
        omega

theorem canon_loop_contig (cl : List (Nat × Nat)) : ∀ (syms : List Nat) (code prev : Nat),
    List.Pairwise (fun a b => dget cl a 0 ≤ dget cl b 0) syms →
    (∀ s ∈ syms, prev ≤ dget cl s 0) →
    ∀ l, ∃ a k,
      ((Huffman.canon_loop cl syms code prev).filter
        (fun p => decide (p.2.2 = l))).map (fun p => p.2.1) = List.range' a k ∧
      (0 < k → l = prev → a = code) := by
  intro syms
  induction syms with
  | nil =>
      intro code prev _ _ l
      refine ⟨0, 0, by simp [Huffman.canon_loop], ?_⟩
      intro hk _
      omega
  | cons s rest ih =>
      intro code prev hsort hge l
      have hsort2 := List.Pairwise.sublist (by simp : rest.Sublist (s :: rest)) hsort
      have hge2 : ∀ z ∈ rest, dget cl s 0 ≤ dget cl z 0 :=
        fun z hz => List.rel_of_pairwise_cons hsort hz
      obtain ⟨a, k, hfil, hfirst⟩ := ih (code <<< (dget cl s 0 - prev) + 1)
        (dget cl s 0) hsort2 hge2 l
      rw [canon_loop_cons]
      by_cases hls : dget cl s 0 = l
      · rw [List.filter_cons_of_pos (by simp [hls])]
        rw [List.map_cons, hfil]
        cases k with
        | zero =>
            refine ⟨code <<< (dget cl s 0 - prev), 1, ?_, ?_⟩
            · rfl
            · intro _ hlp
              show code <<< (dget cl s 0 - prev) = code
              rw [Nat.shiftLeft_eq, show dget cl s 0 - prev = 0 by omega]
              simp
        | succ k2 =>
            have ha : a = code <<< (dget cl s 0 - prev) + 1 :=
              hfirst (by omega) hls.symm
            refine ⟨code <<< (dget cl s 0 - prev), k2 + 2, ?_, ?_⟩
            · rw [ha]
              conv_rhs => rw [List.range'_succ]
            · intro _ hlp
              show code <<< (dget cl s 0 - prev) = code
              rw [Nat.shiftLeft_eq, show dget cl s 0 - prev = 0 by omega]
              simp
      · rw [List.filter_cons_of_neg (by simp [hls])]
        refine ⟨a, k, hfil, ?_⟩
        intro hk hlp
        exfalso
        have hempty : (Huffman.canon_loop cl rest (code <<< (dget cl s 0 - prev) + 1)
            (dget cl s 0)).filter (fun p => decide (p.2.2 = l)) = [] := by
          rw [List.filter_eq_nil]
          intro p hp
          have := (canon_loop_lower cl rest (code <<< (dget cl s 0 - prev) + 1)
            (dget cl s 0) hsort2 hge2 p hp).1
          have hsp : prev ≤ dget cl s 0 := hge s (by simp)
          simp only [decide_eq_true_eq]
          omega
        rw [hempty] at hfil
        have hkl := congrArg List.length hfil
        simp [List.length_range'] at hkl
        omega


theorem toBits_take (n m v : Nat) (h : m ≤ n) :
    (toBits n v).take m = toBits m (v >>> (n - m)) := by
  have hsplit := toBits_append m (n - m) v
  rw [show m + (n - m) = n by omega] at hsplit
  have htl := List.take_left (toBits m (v >>> (n - m))) (toBits (n - m) v)
  rw [toBits_length] at htl
  rw [hsplit, htl]

theorem canonical_codes_pf (l1 c1 l2 c2 : Nat)
    (hf1 : c1 < 2 ^ l1) (hf2 : c2 < 2 ^ l2)
    (hle : l1 ≤ l2) (hlt : (c1 + 1) * 2 ^ (l2 - l1) ≤ c2) :
    toBits l1 c1 ≠ (toBits l2 c2).take l1 ∧ toBits l2 c2 ≠ (toBits l1 c1).take l2 := by
  have hpos : 0 < 2 ^ (l2 - l1) := pow_pos (by norm_num) _
  have hdivlt : c2 >>> (l2 - l1) < 2 ^ l1 := by
    rw [Nat.shiftRight_eq_div_pow]
    apply (Nat.div_lt_iff_lt_mul hpos).mpr
    calc c2 < 2 ^ l2 := hf2
      _ = 2 ^ l1 * 2 ^ (l2 - l1) := by
          rw [← pow_add]
          congr 1
          omega
  have hdivge : c1 + 1 ≤ c2 >>> (l2 - l1) := by
    rw [Nat.shiftRight_eq_div_pow]
    exact (Nat.le_div_iff_mul_le hpos).mpr hlt
  constructor
  · rw [toBits_take l2 l1 c2 hle]
    intro heq
    have := toBits_inj l1 c1 (c2 >>> (l2 - l1)) hf1 hdivlt heq
    omega
  · by_cases heql : l1 = l2
    · subst heql
      rw [List.take_of_length_le (by rw [toBits_length])]
      intro heq
      have := toBits_inj l1 c2 c1 hf2 hf1 heq
      simp at hlt
      omega
    · intro heq
      have hlen := congrArg List.length heq
      rw [toBits_length, List.length_take, toBits_length] at hlen
      omega

/-- C6 (amended): for every code-lengths table whose lengths satisfy the
Kraft inequality at granularity `L` (true of the lengths of every Huffman
tree built by `build_from_frequencies`), the canonical codes
`_generate_canonical_codes` assigns are numerically contiguous within each
bit length (they form an integer range), and no symbol's emitted codeword
is a bit-prefix of another symbol's.  The parenthetical extension of the
claim to arbitrary code-length sets is false: without the Kraft condition
distinct symbols can receive identical codewords. -/
theorem C6_canonical_codes (cl : List (Nat × Nat)) (L : Nat)
    (hL : ∀ p ∈ cl, p.2 ≤ L)
    (hkraft : (((Huffman.generate_canonical_codes cl).symbols).map
      (fun s => 2 ^ (L - dget cl s 0))).sum ≤ 2 ^ L) :
    (∀ l, ∃ a k,
      (((Huffman.generate_canonical_codes cl).codes).filter
        (fun p => decide (p.2.2 = l))).map (fun p => p.2.1) = List.range' a k) ∧
    List.Pairwise (fun p q =>
      toBits p.2.2 p.2.1 ≠ (toBits q.2.2 q.2.1).take p.2.2 ∧
      toBits q.2.2 q.2.1 ≠ (toBits p.2.2 p.2.1).take q.2.2)
      (Huffman.generate_canonical_codes cl).codes := by
  have hLd : ∀ s, dget cl s 0 ≤ L := by
    intro s
    rcases dget_mem cl s 0 with h | h
    · omega
    · exact hL _ h
  rw [generate_canonical_codes_codes]
  rw [generate_canonical_codes_symbols] at hkraft
  by_cases hemp : (Huffman.sortBy (fun a b => a ≤ b) (cl.map Prod.fst)).isEmpty
  · rw [if_pos hemp]
    refine ⟨fun l => ⟨0, 0, by simp⟩, by simp⟩
  · rw [if_neg hemp]
    have hsort := sorted_lengths cl (Huffman.sortBy (fun a b => a ≤ b) (cl.map Prod.fst))
    have hge : ∀ s ∈ Huffman.sortBy (Huffman.lexLe cl)
        (Huffman.sortBy (fun a b => a ≤ b) (cl.map Prod.fst)), 0 ≤ dget cl s 0 :=
      fun s _ => Nat.zero_le _
    have hsum : ((Huffman.sortBy (Huffman.lexLe cl)
        (Huffman.sortBy (fun a b => a ≤ b) (cl.map Prod.fst))).map
          (fun s => 2 ^ (L - dget cl s 0))).sum =
        ((Huffman.sortBy (fun a b => a ≤ b) (cl.map Prod.fst)).map
          (fun s => 2 ^ (L - dget cl s 0))).sum :=
      List.Perm.sum_eq ((Huffman.sortBy_perm (Huffman.lexLe cl) _).map _)
    have hbudget : (0 : Nat) * 2 ^ (L - 0) + ((Huffman.sortBy (Huffman.lexLe cl)
        (Huffman.sortBy (fun a b => a ≤ b) (cl.map Prod.fst))).map
          (fun s => 2 ^ (L - dget cl s 0))).sum ≤ 2 ^ L := by
      rw [hsum]
      omega
    have hfit := canon_loop_fit cl L _ 0 0 hsort hge (fun s _ => hLd s) (Nat.zero_le L) hbudget
    have hfits : ∀ p ∈ Huffman.canon_loop cl (Huffman.sortBy (Huffman.lexLe cl)
        (Huffman.sortBy (fun a b => a ≤ b) (cl.map Prod.fst))) 0 0,
        p.2.1 < 2 ^ p.2.2 := by
      intro p hp
      obtain ⟨h1, h2⟩ := hfit p hp
      have h3 : (2 : Nat) ^ L = 2 ^ p.2.2 * 2 ^ (L - p.2.2) := by
        rw [← pow_add]
        congr 1
        omega
      rw [h3] at h2
      have h4 : 0 < 2 ^ (L - p.2.2) := pow_pos (by norm_num) _
      have := Nat.le_of_mul_le_mul_right h2 h4
      omega
    refine ⟨?_, ?_⟩
    · intro l
      obtain ⟨a, k, hfil, _⟩ := canon_loop_contig cl _ 0 0 hsort hge l
      exact ⟨a, k, hfil⟩
    · have hpw := canon_loop_pairwise cl _ 0 0 hsort hge
      refine List.Pairwise.imp_of_mem ?_ hpw
      intro p q hp hq hr
      exact canonical_codes_pf p.2.2 p.2.1 q.2.2 q.2.1 (hfits p hp) (hfits q hq) hr.1 hr.2

theorem C6_canonical_codes_witness :
    ((∀ p ∈ ([(65, 1), (66, 2), (67, 2)] : List (Nat × Nat)), p.2 ≤ 2) ∧
      (((Huffman.generate_canonical_codes [(65, 1), (66, 2), (67, 2)]).symbols).map
        (fun s => 2 ^ (2 - dget [(65, 1), (66, 2), (67, 2)] s 0))).sum ≤ 2 ^ 2) ∧
    ((∀ l, ∃ a k,
      (((Huffman.generate_canonical_codes [(65, 1), (66, 2), (67, 2)]).codes).filter
        (fun p => decide (p.2.2 = l))).map (fun p => p.2.1) = List.range' a k) ∧
    List.Pairwise (fun p q =>
      toBits p.2.2 p.2.1 ≠ (toBits q.2.2 q.2.1).take p.2.2 ∧
      toBits q.2.2 q.2.1 ≠ (toBits p.2.2 p.2.1).take q.2.2)
      (Huffman.generate_canonical_codes [(65, 1), (66, 2), (67, 2)]).codes) :=
  ⟨⟨by decide, by decide⟩,
    C6_canonical_codes [(65, 1), (66, 2), (67, 2)] 2 (by decide) (by decide)⟩

/-- C6 counterexample: with code lengths `{0: 1, 1: 1, 2: 1}` (not from a
Huffman tree, but a legal input to `_generate_canonical_codes`, e.g. via
`load_metadata`) symbols 0 and 2 receive codes `(0, 1)` and `(2, 1)`,
whose 1-bit codewords both read `0` — one code is a bit-prefix (indeed a
duplicate) of the other, refuting the claim for arbitrary code-length
sets. -/
theorem C6_counterexample :
    dget (Huffman.generate_canonical_codes [(0, 1), (1, 1), (2, 1)]).codes 0 (0, 0) = (0, 1) ∧
    dget (Huffman.generate_canonical_codes [(0, 1), (1, 1), (2, 1)]).codes 2 (0, 0) = (2, 1) ∧
    toBits 1 2 = (toBits 1 0).take 1 := by
  refine ⟨by decide, by decide, by decide⟩


/-! ### Claim C1: the counterexample -/

theorem decompress_zero_size (bs : List Nat) (hbs : ∀ b ∈ bs, b < 256) :
    Arch.decompress (1 :: 0 :: 0 :: 0 :: 0 :: bs) = .ok [] := by
  have hB : ∀ b ∈ (1 :: 0 :: 0 :: 0 :: 0 :: bs), b < 256 := by
    intro b hb
    simp only [List.mem_cons] at hb
    rcases hb with h | h | h | h | h | h
    · omega
    · omega
    · omega
    · omega
    · omega
    · exact hbs b h
  have hdrop0 : (bytesToBits (1 :: 0 :: 0 :: 0 :: 0 :: bs)).drop 0 =
      toBits 8 1 ++ (toBits 32 0 ++ bytesToBits bs) := by
    rw [List.drop_zero]
    rw [show (1 :: 0 :: 0 :: 0 :: 0 :: bs) = [1, 0, 0, 0, 0] ++ bs from rfl]
    rw [bytesToBits_append]
    rw [show bytesToBits [1, 0, 0, 0, 0] = toBits 8 1 ++ toBits 32 0 from by decide]
    rw [List.append_assoc]
  obtain ⟨s1, hr8, hs1, hd8⟩ := BitReader.read_bits_spec _ hB 8 1 _ 0 _
    (BitReader.init_inv _) hdrop0 (by norm_num)
  obtain ⟨s2, hr32, hs2, hd32⟩ := BitReader.read_bits_spec _ hB 32 0 _ (0 + 8) s1 hs1 hd8
    (by norm_num)
  unfold Arch.decompress
  simp only [hr8]
  rw [if_neg (by simp [Arch.VERSION])]
  simp only [hr32]
  simp

theorem c1_aux2 : ∃ bs2, Arch.compress (List.replicate (2 ^ 32) 97) = [1, 0, 0, 0, 0] ++ bs2 ∧
    ∀ b ∈ bs2, b < 256 := by
  have hne : ¬ (List.replicate (2 ^ 32) 97).isEmpty := by
    intro h
    rw [List.isEmpty_iff] at h
    have h3 := congrArg List.length h
    rw [List.length_replicate] at h3
    norm_num at h3
  obtain ⟨hlt, hbits, _⟩ := Arch.compress_spec (List.replicate (2 ^ 32) 97) hne
  have hlen : (List.replicate (2 ^ 32) 97).length = 2 ^ 32 := by
    rw [List.length_replicate]
  have hz : toBits 32 ((List.replicate (2 ^ 32) 97).length) = toBits 32 0 := by
    rw [hlen]
    have := toBits_mod 32 (2 ^ 32)
    rw [Nat.mod_self] at this
    exact this.symm
  have hstream : bytesToBits (Arch.compress (List.replicate (2 ^ 32) 97)) =
      bytesToBits [1, 0, 0, 0, 0] ++
        (toBits 16 (Arch.mdOf (List.replicate (2 ^ 32) 97)).length ++
          bytesToBits (Arch.mdOf (List.replicate (2 ^ 32) 97)) ++
          Arch.tokensBits (Arch.hfOf (List.replicate (2 ^ 32) 97))
            (LZ77.compress (List.replicate (2 ^ 32) 97)).1 ++
          List.replicate
            ((8 - (Arch.streamBits (List.replicate (2 ^ 32) 97)).length % 8) % 8) 0) := by
    have hsb : Arch.streamBits (List.replicate (2 ^ 32) 97) =
        toBits 8 1 ++ toBits 32 0 ++ toBits 16 (Arch.mdOf (List.replicate (2 ^ 32) 97)).length ++
          bytesToBits (Arch.mdOf (List.replicate (2 ^ 32) 97)) ++
          Arch.tokensBits (Arch.hfOf (List.replicate (2 ^ 32) 97))
            (LZ77.compress (List.replicate (2 ^ 32) 97)).1 := by
      unfold Arch.streamBits
      rw [hz, show Arch.VERSION = 1 from rfl]
    rw [hbits, hsb,
      show bytesToBits [1, 0, 0, 0, 0] = toBits 8 1 ++ toBits 32 0 from by decide]
    simp only [List.append_assoc]
  obtain ⟨bs2, hsplit, hbs2, _⟩ := bytesToBits_peel_list [1, 0, 0, 0, 0]
    (Arch.compress (List.replicate (2 ^ 32) 97)) _ hlt (by decide) hstream
  exact ⟨bs2, hsplit, hbs2⟩

/-- C1 counterexample: for the 2^32-byte input `b"a" * 2**32` the 32-bit
size field wraps to zero, so `decompress(compress(x))` returns `b""`,
not `x`. -/
theorem C1_counterexample :
    Arch.decompress (Arch.compress (List.replicate (2 ^ 32) 97)) = .ok [] ∧
    List.replicate (2 ^ 32) 97 ≠ ([] : List Nat) := by
  constructor
  · obtain ⟨bs2, hsplit, hbs2⟩ := c1_aux2
    rw [hsplit]
    exact decompress_zero_size bs2 hbs2
  · intro h
    have h3 := congrArg List.length h
    rw [List.length_replicate] at h3
    norm_num at h3


/-! ### Claim C1: the LZ77 stage is lossless -/

theorem getD_drop {α : Type} (l : List α) (a i : Nat) (d : α) :
    (l.drop a).getD i d = l.getD (a + i) d := by
  rw [List.getD_eq_getD_get?, List.getD_eq_getD_get?]
  rw [List.get?_eq_getElem?, List.get?_eq_getElem?]
  rw [List.getElem?_drop]

theorem getD_take_lt {α : Type} (l : List α) (n i : Nat) (d : α) (h : i < n) :
    (l.take n).getD i d = l.getD i d := by
  rw [List.getD_eq_getD_get?, List.getD_eq_getD_get?]
  rw [List.get?_eq_getElem?, List.get?_eq_getElem?]
  rw [List.getElem?_take_of_lt h]

theorem take_succ_getD {α : Type} (l : List α) (n : Nat) (d : α) (h : n < l.length) :
    l.take (n + 1) = l.take n ++ [l.getD n d] := by
  rw [List.take_succ]
  congr 1
  rw [List.getD_eq_getD_get?, List.get?_eq_getElem?]
  rw [List.getElem?_eq_getElem h]
  rfl

theorem extend_match_go_spec (data : List Nat) (prev pos max_len : Nat) :
    ∀ (fuel len : Nat), len ≤ max_len →
      (∀ i < len, data.getD (prev + i) 0 = data.getD (pos + i) 0) →
      len ≤ LZ77.extend_match_go data prev pos max_len fuel len ∧
      LZ77.extend_match_go data prev pos max_len fuel len ≤ max_len ∧
      ∀ i < LZ77.extend_match_go data prev pos max_len fuel len,
        data.getD (prev + i) 0 = data.getD (pos + i) 0 := by
  intro fuel
  induction fuel with
  | zero =>
      intro len hle hm
      exact ⟨le_refl _, hle, hm⟩
  | succ fuel ih =>
      intro len hle hm
      have hred : LZ77.extend_match_go data prev pos max_len (fuel + 1) len =
          (if len < max_len ∧ data.getD (prev + len) 0 = data.getD (pos + len) 0
           then LZ77.extend_match_go data prev pos max_len fuel (len + 1) else len) := rfl
      rw [hred]
      by_cases hc : len < max_len ∧ data.getD (prev + len) 0 = data.getD (pos + len) 0
      · rw [if_pos hc]
        have hm2 : ∀ i < len + 1, data.getD (prev + i) 0 = data.getD (pos + i) 0 := by
          intro i hi
          by_cases hil : i < len
          · exact hm i hil
          · have : i = len := by omega
            rw [this]
            exact hc.2
        obtain ⟨h1, h2, h3⟩ := ih (len + 1) (by omega) hm2
        exact ⟨by omega, h2, h3⟩
      · rw [if_neg hc]
        exact ⟨le_refl _, hle, hm⟩

theorem extend_match_spec (data : List Nat) (prev pos max_len : Nat)
    (h3 : 3 ≤ max_len)
    (hm : ∀ i < 3, data.getD (prev + i) 0 = data.getD (pos + i) 0) :
    3 ≤ LZ77.extend_match data prev pos max_len 3 ∧
    LZ77.extend_match data prev pos max_len 3 ≤ max_len ∧
    ∀ i < LZ77.extend_match data prev pos max_len 3,
      data.getD (prev + i) 0 = data.getD (pos + i) 0 :=
  extend_match_go_spec data prev pos max_len (max_len - 3) 3 h3 hm

theorem slice3_getD (data : List Nat) (a b : Nat) (hb : b + 3 ≤ data.length)
    (heq : (data.drop a).take 3 = (data.drop b).take 3) :
    ∀ i < 3, data.getD (a + i) 0 = data.getD (b + i) 0 := by
  intro i hi
  have h1 : ((data.drop a).take 3).getD i 0 = data.getD (a + i) 0 := by
    rw [getD_take_lt _ _ _ _ hi, getD_drop]
  have h2 : ((data.drop b).take 3).getD i 0 = data.getD (b + i) 0 := by
    rw [getD_take_lt _ _ _ _ hi, getD_drop]
  rw [← h1, ← h2, heq]

/-- The search result is a genuine match: whichever `(best_dist, best_len)`
the candidate loop returns with `best_len ≥ 3`, the `best_len` bytes at
distance `best_dist` before `pos` equal the bytes at `pos`, the distance is
positive, at least `window_start` away, and the length at most `max_len`. -/
theorem match_loop_spec (data : List Nat) (pos ws max_len : Nat)
    (hml3 : 3 ≤ max_len) (hmlN : pos + max_len ≤ data.length) :
    ∀ (bucket : List Nat) (ck bl bd : Nat),
      (3 ≤ bl → 1 ≤ bd ∧ bd ≤ pos - ws ∧ bd ≤ pos ∧ bl ≤ max_len ∧
        ∀ i < bl, data.getD (pos - bd + i) 0 = data.getD (pos + i) 0) →
      3 ≤ (LZ77.match_loop data pos ws max_len bucket ck bl bd).2 →
      1 ≤ (LZ77.match_loop data pos ws max_len bucket ck bl bd).1 ∧
      (LZ77.match_loop data pos ws max_len bucket ck bl bd).1 ≤ pos - ws ∧
      (LZ77.match_loop data pos ws max_len bucket ck bl bd).1 ≤ pos ∧
      (LZ77.match_loop data pos ws max_len bucket ck bl bd).2 ≤ max_len ∧
      ∀ i < (LZ77.match_loop data pos ws max_len bucket ck bl bd).2,
        data.getD (pos - (LZ77.match_loop data pos ws max_len bucket ck bl bd).1 + i) 0 =
          data.getD (pos + i) 0 := by
  intro bucket
  induction bucket with
  | nil =>
      intro ck bl bd hinv hres
      exact hinv hres
  | cons prev rest ih =>
      intro ck bl bd hinv hres
      rw [show LZ77.match_loop data pos ws max_len (prev :: rest) ck bl bd =
        (if prev < ws then (bd, bl)
         else if LZ77.MAX_HASH_CHAIN ≤ ck then (bd, bl)
         else if pos ≤ prev then LZ77.match_loop data pos ws max_len rest (ck + 1) bl bd
         else if (data.drop prev).take 3 ≠ (data.drop pos).take 3 then
           LZ77.match_loop data pos ws max_len rest (ck + 1) bl bd
         else
           let length := LZ77.extend_match data prev pos max_len 3
           if bl < length then
             if length = max_len then (pos - prev, length)
             else LZ77.match_loop data pos ws max_len rest (ck + 1) length (pos - prev)
           else LZ77.match_loop data pos ws max_len rest (ck + 1) bl bd) from rfl] at hres ⊢
      by_cases h1 : prev < ws
      · rw [if_pos h1] at hres ⊢
        exact hinv hres
      · rw [if_neg h1] at hres ⊢
        by_cases h2 : LZ77.MAX_HASH_CHAIN ≤ ck
        · rw [if_pos h2] at hres ⊢
          exact hinv hres
        · rw [if_neg h2] at hres ⊢
          by_cases h3 : pos ≤ prev
          · rw [if_pos h3] at hres ⊢
            exact ih (ck + 1) bl bd hinv hres
          · rw [if_neg h3] at hres ⊢
            by_cases h4 : (data.drop prev).take 3 ≠ (data.drop pos).take 3
            · rw [if_pos h4] at hres ⊢
              exact ih (ck + 1) bl bd hinv hres
            · rw [if_neg h4] at hres ⊢
              have hsl := slice3_getD data prev pos (by omega)
                (by push_neg at h4; exact h4)
              obtain ⟨he1, he2, he3⟩ := extend_match_spec data prev pos max_len hml3 hsl
              have hgood : 3 ≤ LZ77.extend_match data prev pos max_len 3 →
                  1 ≤ pos - prev ∧ pos - prev ≤ pos - ws ∧ pos - prev ≤ pos ∧
                  LZ77.extend_match data prev pos max_len 3 ≤ max_len ∧
                  ∀ i < LZ77.extend_match data prev pos max_len 3,
                    data.getD (pos - (pos - prev) + i) 0 = data.getD (pos + i) 0 := by
                intro _
                refine ⟨by omega, by omega, by omega, he2, ?_⟩
                intro i hi
                rw [show pos - (pos - prev) = prev by omega]
                exact he3 i hi
              by_cases h5 : bl < LZ77.extend_match data prev pos max_len 3
              · rw [if_pos h5] at hres ⊢
                by_cases h6 : LZ77.extend_match data prev pos max_len 3 = max_len
                · rw [if_pos h6] at hres ⊢
                  exact hgood hres
                · rw [if_neg h6] at hres ⊢
                  exact ih (ck + 1) _ _ hgood hres
              · rw [if_neg h5] at hres ⊢
                exact ih (ck + 1) bl bd hinv hres

theorem find_best_match_match_spec (ht : List (Nat × List Nat)) (data : List Nat)
    (pos : Nat)
    (hl : LZ77.MIN_MATCH ≤ (LZ77.find_best_match ht data pos).1.2) :
    1 ≤ (LZ77.find_best_match ht data pos).1.1 ∧
    (LZ77.find_best_match ht data pos).1.1 ≤ pos ∧
    (LZ77.find_best_match ht data pos).1.1 ≤ 32768 ∧
    pos + (LZ77.find_best_match ht data pos).1.2 ≤ data.length ∧
    (LZ77.find_best_match ht data pos).1.2 ≤ 258 ∧
    ∀ i < (LZ77.find_best_match ht data pos).1.2,
      data.getD (pos - (LZ77.find_best_match ht data pos).1.1 + i) 0 =
        data.getD (pos + i) 0 := by
  by_cases hN : data.length < pos + LZ77.MIN_MATCH
  · exfalso
    have : (LZ77.find_best_match ht data pos).1.2 = 0 := by
      unfold LZ77.find_best_match
      rw [if_pos hN]
    rw [this] at hl
    simp [LZ77.MIN_MATCH] at hl
  · have hdef : LZ77.find_best_match ht data pos =
        ((( LZ77.match_loop data pos (pos - LZ77.WINDOW_SIZE)
            (min LZ77.MAX_MATCH (data.length - pos))
            (dget ht (LZ77.hash3 data pos) []).reverse 0 (LZ77.MIN_MATCH - 1) 0).1,
          if LZ77.MIN_MATCH ≤ (LZ77.match_loop data pos (pos - LZ77.WINDOW_SIZE)
            (min LZ77.MAX_MATCH (data.length - pos))
            (dget ht (LZ77.hash3 data pos) []).reverse 0 (LZ77.MIN_MATCH - 1) 0).2
          then (LZ77.match_loop data pos (pos - LZ77.WINDOW_SIZE)
            (min LZ77.MAX_MATCH (data.length - pos))
            (dget ht (LZ77.hash3 data pos) []).reverse 0 (LZ77.MIN_MATCH - 1) 0).2 else 0),
         dset ht (LZ77.hash3 data pos)
           ((if 256 < (dget ht (LZ77.hash3 data pos) []).length
             then (dget ht (LZ77.hash3 data pos) []).tail
             else dget ht (LZ77.hash3 data pos) []) ++ [pos])) := by
      unfold LZ77.find_best_match
      rw [if_neg hN]
    have hmm : LZ77.MIN_MATCH = 3 := rfl
    have hWS : LZ77.WINDOW_SIZE = 32768 := rfl
    have hMM : LZ77.MAX_MATCH = 258 := rfl
    push_neg at hN
    rw [hdef]
    simp only []
    by_cases hge : LZ77.MIN_MATCH ≤ (LZ77.match_loop data pos (pos - LZ77.WINDOW_SIZE)
        (min LZ77.MAX_MATCH (data.length - pos))
        (dget ht (LZ77.hash3 data pos) []).reverse 0 (LZ77.MIN_MATCH - 1) 0).2
    · have hms := match_loop_spec data pos (pos - LZ77.WINDOW_SIZE)
        (min LZ77.MAX_MATCH (data.length - pos))
        (by omega) (by omega)
        (dget ht (LZ77.hash3 data pos) []).reverse 0 (LZ77.MIN_MATCH - 1) 0
        (by intro hcon; omega) hge
      rw [if_pos hge]
      obtain ⟨m1, m2, m3, m4, m5⟩ := hms
      refine ⟨m1, m3, by omega, by omega, by omega, m5⟩
    · exfalso
      rw [hdef] at hl
      simp only [] at hl
      rw [if_neg hge] at hl
      omega

theorem copy_match_take (x : List Nat) : ∀ (l pos d : Nat), 1 ≤ d → d ≤ pos →
    pos + l ≤ x.length →
    (∀ i < l, x.getD (pos - d + i) 0 = x.getD (pos + i) 0) →
    LZ77.copy_match (x.take pos) (pos - d) l = x.take (pos + l) := by
  intro l
  induction l with
  | zero =>
      intro pos d _ _ _ _
      show x.take pos = x.take (pos + 0)
      rfl
  | succ l ih =>
      intro pos d hd1 hdp hpl hm
      show LZ77.copy_match ((x.take pos) ++ [(x.take pos).getD (pos - d) 0]) (pos - d + 1) l =
        x.take (pos + (l + 1))
      have hg : (x.take pos).getD (pos - d) 0 = x.getD pos 0 := by
        rw [getD_take_lt x pos (pos - d) 0 (by omega)]
        have hm0 := hm 0 (by omega)
        simpa using hm0
      have htk : (x.take pos) ++ [(x.take pos).getD (pos - d) 0] = x.take (pos + 1) := by
        rw [hg]
        exact (take_succ_getD x pos 0 (by omega)).symm
      rw [htk, show pos - d + 1 = (pos + 1) - d by omega]
      rw [ih (pos + 1) d hd1 (by omega) (by omega) ?_]
      · congr 1
        omega
      · intro i hi
        have := hm (i + 1) (by omega)
        rw [show pos - d + (i + 1) = pos + 1 - d + i by omega,
          show pos + (i + 1) = pos + 1 + i by omega] at this
        exact this

theorem decompress_tokens_append (a b : List Token) : ∀ (acc : List Nat),
    LZ77.decompress_tokens (a ++ b) acc =
      (match LZ77.decompress_tokens a acc with
       | .error e => .error e
       | .ok out => LZ77.decompress_tokens b out) := by
  induction a with
  | nil => intro acc; rfl
  | cons t rest ih =>
      intro acc
      obtain ⟨d, l, lit⟩ := t
      show LZ77.decompress_tokens ((d, l, lit) :: (rest ++ b)) acc = _
      rw [show LZ77.decompress_tokens ((d, l, lit) :: (rest ++ b)) acc =
        (if 0 ≤ lit then LZ77.decompress_tokens (rest ++ b) (acc ++ [lit.toNat])
         else if d = 0 ∨ acc.length < d then .error .valueError
         else LZ77.decompress_tokens (rest ++ b)
           (LZ77.copy_match acc (acc.length - d) l)) from rfl]
      rw [show LZ77.decompress_tokens ((d, l, lit) :: rest) acc =
        (if 0 ≤ lit then LZ77.decompress_tokens rest (acc ++ [lit.toNat])
         else if d = 0 ∨ acc.length < d then .error .valueError
         else LZ77.decompress_tokens rest
           (LZ77.copy_match acc (acc.length - d) l)) from rfl]
      by_cases hlit : 0 ≤ lit
      · rw [if_pos hlit, if_pos hlit, ih]
      · rw [if_neg hlit, if_neg hlit]
        by_cases hd : d = 0 ∨ acc.length < d
        · rw [if_pos hd, if_pos hd]
        · rw [if_neg hd, if_neg hd, ih]

theorem compress_loop_roundtrip (x : List Nat) : ∀ (fuel pos : Nat) (tokens : List Token)
    (freq : List (Nat × Nat)) (ht : List (Nat × List Nat)),
    x.length - pos ≤ fuel → pos ≤ x.length →
    LZ77.decompress_tokens tokens [] = .ok (x.take pos) →
    LZ77.decompress_tokens (LZ77.compress_loop x fuel pos tokens freq ht).1 [] = .ok x := by
  intro fuel
  induction fuel with
  | zero =>
      intro pos tokens freq ht hf hp hdec
      have hpx : pos = x.length := by omega
      show LZ77.decompress_tokens tokens [] = .ok x
      rw [hdec, hpx, List.take_of_length_le (le_refl _)]
  | succ fuel ih =>
      intro pos tokens freq ht hf hp hdec
      show LZ77.decompress_tokens
        (if pos < x.length then
          (if LZ77.MIN_MATCH ≤ (LZ77.find_best_match ht x pos).1.2 then
            LZ77.compress_loop x fuel (pos + (LZ77.find_best_match ht x pos).1.2)
              (tokens ++ [((LZ77.find_best_match ht x pos).1.1,
                (LZ77.find_best_match ht x pos).1.2, -1)])
              (dincr freq (256 + ((LZ77.find_best_match ht x pos).1.2 - LZ77.MIN_MATCH)))
              (LZ77.find_best_match ht x pos).2
          else
            LZ77.compress_loop x fuel (pos + 1)
              (tokens ++ [(0, 0, Int.ofNat (x.getD pos 0))])
              (dincr freq (x.getD pos 0)) (LZ77.find_best_match ht x pos).2)
        else (tokens, freq, ht)).1 [] = .ok x
      by_cases hlt : pos < x.length
      · rw [if_pos hlt]
        by_cases hm : LZ77.MIN_MATCH ≤ (LZ77.find_best_match ht x pos).1.2
        · rw [if_pos hm]
          obtain ⟨f1, f2, f3, f4, f5, f6⟩ := find_best_match_match_spec ht x pos hm
          have hmm : LZ77.MIN_MATCH = 3 := rfl
          rw [hmm] at hm
          have hdec2 : LZ77.decompress_tokens
              (tokens ++ [((LZ77.find_best_match ht x pos).1.1,
                (LZ77.find_best_match ht x pos).1.2, -1)]) [] =
              .ok (x.take (pos + (LZ77.find_best_match ht x pos).1.2)) := by
            rw [decompress_tokens_append, hdec]
            show LZ77.decompress_tokens
              [((LZ77.find_best_match ht x pos).1.1,
                (LZ77.find_best_match ht x pos).1.2, -1)] (x.take pos) =
              .ok (x.take (pos + (LZ77.find_best_match ht x pos).1.2))
            rw [show LZ77.decompress_tokens
              [((LZ77.find_best_match ht x pos).1.1,
                (LZ77.find_best_match ht x pos).1.2, -1)] (x.take pos) =
              (if (0 : Int) ≤ -1 then LZ77.decompress_tokens [] (x.take pos ++ [(-1 : Int).toNat])
               else if (LZ77.find_best_match ht x pos).1.1 = 0 ∨
                   (x.take pos).length < (LZ77.find_best_match ht x pos).1.1 then
                 .error .valueError
               else LZ77.decompress_tokens []
                 (LZ77.copy_match (x.take pos)
                   ((x.take pos).length - (LZ77.find_best_match ht x pos).1.1)
                   (LZ77.find_best_match ht x pos).1.2)) from rfl]
            rw [if_neg (by omega)]
            have hlen : (x.take pos).length = pos := by
              rw [List.length_take]
              omega
            rw [if_neg (by rw [hlen]; omega)]
            rw [hlen]
            rw [copy_match_take x (LZ77.find_best_match ht x pos).1.2 pos
              (LZ77.find_best_match ht x pos).1.1 f1 f2 f4 f6]
            rfl
          exact ih (pos + (LZ77.find_best_match ht x pos).1.2) _ _ _
            (by omega) (by omega) hdec2
        · rw [if_neg hm]
          have hdec2 : LZ77.decompress_tokens
              (tokens ++ [(0, 0, Int.ofNat (x.getD pos 0))]) [] =
              .ok (x.take (pos + 1)) := by
            rw [decompress_tokens_append, hdec]
            show LZ77.decompress_tokens [(0, 0, Int.ofNat (x.getD pos 0))] (x.take pos) =
              .ok (x.take (pos + 1))
            rw [show LZ77.decompress_tokens [(0, 0, Int.ofNat (x.getD pos 0))] (x.take pos) =
              (if (0 : Int) ≤ Int.ofNat (x.getD pos 0) then
                LZ77.decompress_tokens [] (x.take pos ++ [(Int.ofNat (x.getD pos 0)).toNat])
               else if (0 : Nat) = 0 ∨ (x.take pos).length < 0 then .error .valueError
               else LZ77.decompress_tokens []
                 (LZ77.copy_match (x.take pos) ((x.take pos).length - 0) 0)) from rfl]
            rw [if_pos (show (0 : Int) ≤ Int.ofNat (x.getD pos 0) from Int.ofNat_nonneg _)]
            show Except.ok (x.take pos ++ [(Int.ofNat (x.getD pos 0)).toNat]) = _
            rw [show (Int.ofNat (x.getD pos 0)).toNat = x.getD pos 0 from rfl]
            rw [← take_succ_getD x pos 0 hlt]
          exact ih (pos + 1) _ _ _ (by omega) (by omega) hdec2
      · rw [if_neg hlt]
        have hpx : pos = x.length := by omega
        show LZ77.decompress_tokens tokens [] = .ok x
        rw [hdec, hpx, List.take_of_length_le (le_refl _)]

/-- The LZ77 stage is lossless on its own: decoding the token stream
`compress` produces returns exactly the input. -/
theorem LZ77_roundtrip (x : List Nat) :
    LZ77.decompress (LZ77.compress x).1 = .ok x := by
  show LZ77.decompress_tokens (LZ77.compress_loop x x.length 0 [] [] []).1 [] = .ok x
  exact compress_loop_roundtrip x x.length 0 [] [] [] (by omega) (by omega) rfl


/-! ### Claim C1: the canonical decoder inverts the encoder -/

theorem pairwise_mem_cases {α : Type} {R : α → α → Prop} :
    ∀ {l : List α}, l.Pairwise R → ∀ {a}, a ∈ l → ∀ {b}, b ∈ l →
      a = b ∨ R a b ∨ R b a := by
  intro l hp
  induction hp with
  | nil =>
      intro a ha
      simp at ha
  | cons hr _ ih =>
      intro a ha b hb
      rcases List.mem_cons.mp ha with h1 | h1 <;> rcases List.mem_cons.mp hb with h2 | h2
      · left
        rw [h1, h2]
      · right
        left
        rw [h1]
        exact hr b h2
      · right
        right
        rw [h2]
        exact hr a h1
      · exact ih h1 h2

theorem dget_of_mem_nodup {κ α : Type} [DecidableEq κ] :
    ∀ (d : List (κ × α)) (k : κ) (v : α) (dflt : α),
      (d.map Prod.fst).Nodup → (k, v) ∈ d → dget d k dflt = v := by
  intro d
  induction d with
  | nil =>
      intro k v dflt _ hm
      simp at hm
  | cons p t ih =>
      intro k v dflt hnd hm
      rw [dget_cons]
      rcases List.mem_cons.mp hm with h | h
      · rw [← h]
        rw [if_pos rfl]
      · by_cases hk : p.1 = k
        · exfalso
          have hkm : k ∈ t.map Prod.fst := List.mem_map.mpr ⟨(k, v), h, rfl⟩
          rw [List.map_cons, List.nodup_cons] at hnd
          exact hnd.1 (hk ▸ hkm)
        · rw [if_neg hk]
          exact ih k v dflt (by rw [List.map_cons, List.nodup_cons] at hnd; exact hnd.2) h

theorem dget_mem_of_mem_keys {κ α : Type} [DecidableEq κ] :
    ∀ (d : List (κ × α)) (k : κ) (dflt : α), k ∈ d.map Prod.fst →
      (k, dget d k dflt) ∈ d := by
  intro d
  induction d with
  | nil =>
      intro k dflt hk
      simp at hk
  | cons p t ih =>
      intro k dflt hk
      rw [dget_cons]
      by_cases hpk : p.1 = k
      · rw [if_pos hpk]
        refine List.mem_cons.mpr (Or.inl ?_)
        rw [← hpk]
      · rw [if_neg hpk]
        right
        apply ih
        rw [List.map_cons, List.mem_cons] at hk
        rcases hk with h | h
        · exact absurd h.symm hpk
        · exact h

theorem canon_keys (cl : List (Nat × Nat)) :
    ∀ (syms : List Nat) (code prev : Nat),
      (Huffman.canon_loop cl syms code prev).map Prod.fst = syms := by
  intro syms
  induction syms with
  | nil => intro code prev; rfl
  | cons s rest ih =>
      intro code prev
      rw [canon_loop_cons, List.map_cons, ih]

theorem canon_entry_len (cl : List (Nat × Nat)) :
    ∀ (syms : List Nat) (code prev : Nat),
      ∀ p ∈ Huffman.canon_loop cl syms code prev, p.2.2 = dget cl p.1 0 := by
  intro syms
  induction syms with
  | nil =>
      intro code prev p hp
      simp [Huffman.canon_loop] at hp
  | cons s rest ih =>
      intro code prev p hp
      rw [canon_loop_cons] at hp
      rcases List.mem_cons.mp hp with h | h
      · rw [h]
      · exact ih _ _ p h

theorem foldl_dset_mapk {κ : Type} [DecidableEq κ] (f : Nat → κ) :
    ∀ (S : List Nat) (acc : List (κ × Nat)),
      (∀ x ∈ S, dmem acc (f x) = false) → (S.map f).Nodup →
      S.foldl (fun a x => dset a (f x) x) acc = acc ++ S.map (fun s => (f s, s)) := by
  intro S
  induction S with
  | nil =>
      intro acc _ _
      simp
  | cons x t ih =>
      intro acc hmem hnd
      show t.foldl (fun a x => dset a (f x) x) (dset acc (f x) x) = _
      rw [dset_not_mem acc (f x) x (hmem x (by simp))]
      rw [List.map_cons, List.nodup_cons] at hnd
      rw [ih (acc ++ [(f x, x)]) ?_ hnd.2]
      · simp
      · intro y hy
        rw [dmem_append, hmem y (by simp [hy]), dmem_singleton]
        simp
        intro hxy
        exact hnd.1 (hxy ▸ (List.mem_map.mpr ⟨y, hy, rfl⟩))

theorem toBits_one (v : Nat) (hv : v < 2) : toBits 1 v = [v] := by
  show [(v >>> 0) &&& 1] = [v]
  rw [Nat.shiftRight_zero, Nat.and_one_is_mod, Nat.mod_eq_of_lt hv]

theorem shift_step (c m : Nat) :
    ((c >>> (m + 1)) <<< 1) ||| ((c >>> m) &&& 1) = c >>> m := by
  rw [shiftLeft_or_bit _ _ (Nat.lt_succ_of_le Nat.and_le_right)]
  rw [shiftRight_and_one]
  rw [Nat.shiftRight_eq_div_pow, Nat.shiftRight_eq_div_pow]
  have h1 : c / 2 ^ (m + 1) = c / 2 ^ m / 2 := by
    rw [pow_succ, Nat.div_div_eq_div_mul]
  rw [h1]
  omega

theorem decode_symbol_go_spec (B : List Nat) (hB : ∀ b ∈ B, b < 256)
    (tree : List ((Nat × Nat) × Nat)) (c l s : Nat)
    (hmem : dmem tree (c, l) = true) (hval : dget tree (c, l) 0 = s)
    (hnp : ∀ j, 1 ≤ j → j < l → dmem tree (c >>> (l - j), j) = false) :
    ∀ (fuel : Nat), ∀ (j k : Nat) (r : BitReader) (rest : List Nat),
      j < l → l - j ≤ fuel → BitReader.Inv B k r →
      (bytesToBits B).drop k = toBits (l - j) c ++ rest →
      ∃ r2, Arch.decode_symbol_go tree fuel r (c >>> (l - j)) (j + 1) = .ok (s, r2) ∧
        BitReader.Inv B (k + (l - j)) r2 ∧ (bytesToBits B).drop (k + (l - j)) = rest := by
  intro fuel
  induction fuel with
  | zero =>
      intro j k r rest hj hlf _ _
      omega
  | succ fuel ih =>
      intro j k r rest hj hlf hInv hdrop
      have hlj : l - j = (l - j - 1) + 1 := by omega
      have hbit2 : (c >>> (l - j - 1)) &&& 1 < 2 := Nat.lt_succ_of_le Nat.and_le_right
      have hsplit : toBits (l - j) c =
          ((c >>> (l - j - 1)) &&& 1) :: toBits (l - j - 1) c := by
        conv_lhs => rw [hlj]
        rfl
      have hdrop2 : (bytesToBits B).drop k =
          toBits 1 ((c >>> (l - j - 1)) &&& 1) ++ (toBits (l - j - 1) c ++ rest) := by
        rw [hdrop, hsplit, toBits_one _ hbit2]
        rfl
      obtain ⟨r1, hr1, hInv1, hdrop3⟩ := BitReader.read_bits_spec B hB 1
        ((c >>> (l - j - 1)) &&& 1) _ k r hInv hdrop2 (by omega)
      have hstep : Arch.decode_symbol_go tree (fuel + 1) r (c >>> (l - j)) (j + 1) =
          (match r.read_bits 1 with
           | .error e => .error e
           | .ok (bit, r1) =>
               if dmem tree (((c >>> (l - j)) <<< 1) ||| bit, j + 1) then
                 .ok (dget tree (((c >>> (l - j)) <<< 1) ||| bit, j + 1) 0, r1)
               else Arch.decode_symbol_go tree fuel r1 (((c >>> (l - j)) <<< 1) ||| bit)
                 (j + 1 + 1)) := rfl
      have hcode : ((c >>> (l - j)) <<< 1) ||| ((c >>> (l - j - 1)) &&& 1) =
          c >>> (l - j - 1) := by
        rw [hlj]
        exact shift_step c (l - j - 1)
      rw [hstep]
      simp only [hr1]
      rw [hcode]
      by_cases hend : j + 1 = l
      · have hc0 : c >>> (l - j - 1) = c := by
          rw [show l - j - 1 = 0 by omega, Nat.shiftRight_zero]
        rw [hc0]
        rw [if_pos (by rw [show j + 1 = l from hend]; exact hmem)]
        refine ⟨r1, ?_, ?_, ?_⟩
        · rw [show j + 1 = l from hend, hval]
        · rw [show k + (l - j) = k + 1 by omega]
          exact hInv1
        · rw [show k + (l - j) = k + 1 by omega]
          rw [hdrop3, show l - j - 1 = 0 by omega]
          rfl
      · have hnext : c >>> (l - j - 1) = c >>> (l - (j + 1)) := by
          rw [show l - j - 1 = l - (j + 1) by omega]
        rw [if_neg (by
          rw [hnext, hnp (j + 1) (by omega) (by omega)]
          simp)]
        obtain ⟨r2, hr2, hInv2, hdrop4⟩ := ih (j + 1) (k + 1) r1 rest (by omega) (by omega)
          hInv1 (by rw [hdrop3, show l - (j + 1) = l - j - 1 by omega])
        rw [hnext]
        refine ⟨r2, hr2, ?_, ?_⟩
        · rw [show k + (l - j) = k + 1 + (l - (j + 1)) by omega]
          exact hInv2
        · rw [show k + (l - j) = k + 1 + (l - (j + 1)) by omega]
          exact hdrop4

theorem decode_symbol_spec (B : List Nat) (hB : ∀ b ∈ B, b < 256)
    (tree : List ((Nat × Nat) × Nat)) (c l s : Nat)
    (hcl : c < 2 ^ l) (hl1 : 1 ≤ l) (hl25 : l ≤ 25)
    (hmem : dmem tree (c, l) = true) (hval : dget tree (c, l) 0 = s)
    (hnp : ∀ j, 1 ≤ j → j < l → dmem tree (c >>> (l - j), j) = false)
    (k : Nat) (r : BitReader) (rest : List Nat)
    (hInv : BitReader.Inv B k r)
    (hdrop : (bytesToBits B).drop k = toBits l c ++ rest) :
    ∃ r2, Arch.decode_symbol r tree = .ok (s, r2) ∧
      BitReader.Inv B (k + l) r2 ∧ (bytesToBits B).drop (k + l) = rest := by
  obtain ⟨r2, hgo, hInv2, hdrop2⟩ := decode_symbol_go_spec B hB tree c l s hmem hval hnp
    25 0 k r rest (by omega) (by omega) hInv
    (by rw [Nat.sub_zero]; exact hdrop)
  rw [Nat.sub_zero] at hgo hInv2 hdrop2
  have h0 : c >>> l = 0 := by
    rw [Nat.shiftRight_eq_div_pow, Nat.div_eq_of_lt hcl]
  rw [h0] at hgo
  exact ⟨r2, hgo, hInv2, hdrop2⟩


theorem dmem_iff_keys {κ α : Type} [DecidableEq κ] (d : List (κ × α)) (k : κ) :
    dmem d k = true ↔ k ∈ d.map Prod.fst := by
  unfold dmem
  rw [List.any_eq_true]
  constructor
  · rintro ⟨p, hp, hk⟩
    exact List.mem_map.mpr ⟨p, hp, by simpa using hk⟩
  · rintro hk
    obtain ⟨p, hp, hk2⟩ := List.mem_map.mp hk
    exact ⟨p, hp, by simpa using hk2⟩

theorem generate_canonical_codes_code_lengths (cl : List (Nat × Nat)) :
    (Huffman.generate_canonical_codes cl).code_lengths = cl := by
  unfold Huffman.generate_canonical_codes
  by_cases h : (Huffman.sortBy (fun a b => a ≤ b) (cl.map Prod.fst)).isEmpty
  · simp only [h]
    rfl
  · simp only [h]
    rfl

theorem build_eq_gcc (freqs : List (Nat × Nat)) (hne : freqs.isEmpty = false) :
    Huffman.build_from_frequencies freqs =
      Huffman.generate_canonical_codes
        ((Huffman.build_from_frequencies freqs).code_lengths) := by
  unfold Huffman.build_from_frequencies
  rw [hne]
  simp only [Bool.false_eq_true, if_false]
  by_cases h1 : freqs.length = 1
  · rw [if_pos h1, generate_canonical_codes_code_lengths]
  · rw [if_neg h1, generate_canonical_codes_code_lengths]

theorem canon_tree_spec (cl : List (Nat × Nat)) (SL symbols : List Nat)
    (hndk : (cl.map Prod.fst).Nodup)
    (hlen : ∀ p ∈ cl, 1 ≤ p.2 ∧ p.2 ≤ 25)
    (hkraft : ((cl.map Prod.fst).map (fun z => 2 ^ (25 - dget cl z 0))).sum ≤ 2 ^ 25)
    (hpSL : SL.Perm (cl.map Prod.fst))
    (hpsym : symbols.Perm (cl.map Prod.fst))
    (hsorted : List.Pairwise (fun a b => dget cl a 0 ≤ dget cl b 0) SL) :
    ∀ s ∈ cl.map Prod.fst,
      ∃ c l,
        dget (Huffman.canon_loop cl SL 0 0) s (0, 1) = (c, l) ∧
        c < 2 ^ l ∧ 1 ≤ l ∧ l ≤ 25 ∧
        dmem (symbols.foldl
          (fun t z => dset t (dget (Huffman.canon_loop cl SL 0 0) z (0, 0)) z) [])
          (c, l) = true ∧
        dget (symbols.foldl
          (fun t z => dset t (dget (Huffman.canon_loop cl SL 0 0) z (0, 0)) z) [])
          (c, l) 0 = s ∧
        (∀ j, 1 ≤ j → j < l →
          dmem (symbols.foldl
            (fun t z => dset t (dget (Huffman.canon_loop cl SL 0 0) z (0, 0)) z) [])
            (c >>> (l - j), j) = false) := by
  intro s hs
  have hndSL : SL.Nodup := hpSL.symm.nodup hndk
  have hndsym : symbols.Nodup := hpsym.symm.nodup hndk
  have hsSL : s ∈ SL := hpSL.mem_iff.mpr hs
  have hssym : s ∈ symbols := hpsym.mem_iff.mpr hs
  have hbound : ∀ z ∈ cl.map Prod.fst, 1 ≤ dget cl z 0 ∧ dget cl z 0 ≤ 25 := by
    intro z hz
    have := hlen (z, dget cl z 0) (dget_mem_of_mem_keys cl z 0 hz)
    simpa using this
  have hge0 : ∀ z ∈ SL, 0 ≤ dget cl z 0 := fun z _ => Nat.zero_le _
  have hLe25 : ∀ z ∈ SL, dget cl z 0 ≤ 25 := fun z hz => (hbound z (hpSL.mem_iff.mp hz)).2
  have hsum : (SL.map (fun z => 2 ^ (25 - dget cl z 0))).sum =
      ((cl.map Prod.fst).map (fun z => 2 ^ (25 - dget cl z 0))).sum :=
    (hpSL.map _).sum_eq
  have hfit := canon_loop_fit cl 25 SL 0 0 hsorted hge0 hLe25 (Nat.zero_le _)
    (by rw [Nat.zero_mul, Nat.zero_add, hsum]; exact hkraft)
  have hpw := canon_loop_pairwise cl SL 0 0 hsorted hge0
  have hkeys : (Huffman.canon_loop cl SL 0 0).map Prod.fst = SL := canon_keys cl SL 0 0
  have hndcodes : ((Huffman.canon_loop cl SL 0 0).map Prod.fst).Nodup := by
    rw [hkeys]
    exact hndSL
  have hentry : ∀ z ∈ SL, ∀ dflt : Nat × Nat,
      (z, dget (Huffman.canon_loop cl SL 0 0) z dflt) ∈ Huffman.canon_loop cl SL 0 0 := by
    intro z hz dflt
    exact dget_mem_of_mem_keys _ z dflt (by rw [hkeys]; exact hz)
  have hdflt : ∀ z ∈ SL, ∀ d1 d2 : Nat × Nat,
      dget (Huffman.canon_loop cl SL 0 0) z d1 = dget (Huffman.canon_loop cl SL 0 0) z d2 := by
    intro z hz d1 d2
    exact dget_of_mem_nodup _ z _ d1 hndcodes (hentry z hz d2)
  have hesmem : (s, dget (Huffman.canon_loop cl SL 0 0) s (0, 1)) ∈
      Huffman.canon_loop cl SL 0 0 := hentry s hsSL (0, 1)
  have hl_eq : (dget (Huffman.canon_loop cl SL 0 0) s (0, 1)).2 = dget cl s 0 :=
    canon_entry_len cl SL 0 0 _ hesmem
  have hl1 : 1 ≤ (dget (Huffman.canon_loop cl SL 0 0) s (0, 1)).2 := by
    rw [hl_eq]
    exact (hbound s hs).1
  have hl25 : (dget (Huffman.canon_loop cl SL 0 0) s (0, 1)).2 ≤ 25 := by
    rw [hl_eq]
    exact (hbound s hs).2
  have hcfit : (dget (Huffman.canon_loop cl SL 0 0) s (0, 1)).2 ≤ 25 ∧
      ((dget (Huffman.canon_loop cl SL 0 0) s (0, 1)).1 + 1) *
        2 ^ (25 - (dget (Huffman.canon_loop cl SL 0 0) s (0, 1)).2) ≤ 2 ^ 25 :=
    hfit _ hesmem
  have hclt : (dget (Huffman.canon_loop cl SL 0 0) s (0, 1)).1 <
      2 ^ (dget (Huffman.canon_loop cl SL 0 0) s (0, 1)).2 := by
    have h2 : (2 : Nat) ^ 25 =
        2 ^ (dget (Huffman.canon_loop cl SL 0 0) s (0, 1)).2 *
          2 ^ (25 - (dget (Huffman.canon_loop cl SL 0 0) s (0, 1)).2) := by
      rw [← pow_add]
      congr 1
      omega
    have hle2 := hcfit.2
    rw [h2] at hle2
    have h3 := Nat.le_of_mul_le_mul_right hle2 (pow_pos (by norm_num) _)
    omega
  have hinj : ∀ z ∈ symbols, ∀ w ∈ symbols,
      dget (Huffman.canon_loop cl SL 0 0) z (0, 0) =
        dget (Huffman.canon_loop cl SL 0 0) w (0, 0) → z = w := by
    intro z hz w hw hfzw
    by_contra hzw
    have hzSL : z ∈ SL := hpSL.mem_iff.mpr (hpsym.mem_iff.mp hz)
    have hwSL : w ∈ SL := hpSL.mem_iff.mpr (hpsym.mem_iff.mp hw)
    have hez := hentry z hzSL (0, 0)
    have hew := hentry w hwSL (0, 0)
    rcases pairwise_mem_cases hpw hez hew with heq | hR | hR
    · exact hzw (congrArg Prod.fst heq)
    · have hle2 := hR.2
      rw [hfzw] at hle2
      simp only [Nat.sub_self, pow_zero, Nat.mul_one] at hle2
      omega
    · have hle2 := hR.2
      rw [hfzw] at hle2
      simp only [Nat.sub_self, pow_zero, Nat.mul_one] at hle2
      omega
  have hmapnd : (symbols.map
      (fun z => dget (Huffman.canon_loop cl SL 0 0) z (0, 0))).Nodup :=
    List.Nodup.map_on hinj hndsym
  have htree : symbols.foldl
      (fun t z => dset t (dget (Huffman.canon_loop cl SL 0 0) z (0, 0)) z) [] =
      symbols.map (fun z => (dget (Huffman.canon_loop cl SL 0 0) z (0, 0), z)) := by
    have h := foldl_dset_mapk (fun z => dget (Huffman.canon_loop cl SL 0 0) z (0, 0))
      symbols [] (fun x _ => rfl) hmapnd
    simpa using h
  have htreekeys : (symbols.map
      (fun z => (dget (Huffman.canon_loop cl SL 0 0) z (0, 0), z))).map Prod.fst =
      symbols.map (fun z => dget (Huffman.canon_loop cl SL 0 0) z (0, 0)) := by
    rw [List.map_map]
    rfl
  have hfs : dget (Huffman.canon_loop cl SL 0 0) s (0, 0) =
      dget (Huffman.canon_loop cl SL 0 0) s (0, 1) := hdflt s hsSL (0, 0) (0, 1)
  have hmemtree : (dget (Huffman.canon_loop cl SL 0 0) s (0, 1), s) ∈
      symbols.map (fun z => (dget (Huffman.canon_loop cl SL 0 0) z (0, 0), z)) :=
    List.mem_map.mpr ⟨s, hssym, by rw [hfs]⟩
  have hndtreekeys : ((symbols.map
      (fun z => (dget (Huffman.canon_loop cl SL 0 0) z (0, 0), z))).map Prod.fst).Nodup := by
    rw [htreekeys]
    exact hmapnd
  refine ⟨(dget (Huffman.canon_loop cl SL 0 0) s (0, 1)).1,
    (dget (Huffman.canon_loop cl SL 0 0) s (0, 1)).2, rfl, hclt, hl1, hl25, ?_, ?_, ?_⟩
  · rw [htree, dmem_iff_keys, htreekeys]
    exact List.mem_map.mpr ⟨s, hssym, hfs⟩
  · rw [htree]
    exact dget_of_mem_nodup _ _ s 0 hndtreekeys hmemtree
  · intro j hj1 hj2
    by_contra hdm
    rw [Bool.not_eq_false] at hdm
    rw [htree, dmem_iff_keys, htreekeys] at hdm
    obtain ⟨t, ht, hft⟩ := List.mem_map.mp hdm
    have htSL : t ∈ SL := hpSL.mem_iff.mpr (hpsym.mem_iff.mp ht)
    have het := hentry t htSL (0, 0)
    rw [hft] at het
    rcases pairwise_mem_cases hpw het hesmem with heq | hR | hR
    · have := congrArg (fun p => p.2.2) heq
      simp only [] at this
      omega
    · have hR2 : ((dget (Huffman.canon_loop cl SL 0 0) s (0, 1)).1 >>>
          ((dget (Huffman.canon_loop cl SL 0 0) s (0, 1)).2 - j) + 1) *
          2 ^ ((dget (Huffman.canon_loop cl SL 0 0) s (0, 1)).2 - j) ≤
          (dget (Huffman.canon_loop cl SL 0 0) s (0, 1)).1 := by
        have h2 := hR.2
        simpa using h2
      rw [Nat.shiftRight_eq_div_pow] at hR2
      have hdm2 := Nat.div_add_mod (dget (Huffman.canon_loop cl SL 0 0) s (0, 1)).1
        (2 ^ ((dget (Huffman.canon_loop cl SL 0 0) s (0, 1)).2 - j))
      have hmlt : (dget (Huffman.canon_loop cl SL 0 0) s (0, 1)).1 %
          2 ^ ((dget (Huffman.canon_loop cl SL 0 0) s (0, 1)).2 - j) <
          2 ^ ((dget (Huffman.canon_loop cl SL 0 0) s (0, 1)).2 - j) :=
        Nat.mod_lt _ (pow_pos (by norm_num) _)
      have hmul : ((dget (Huffman.canon_loop cl SL 0 0) s (0, 1)).1 /
          2 ^ ((dget (Huffman.canon_loop cl SL 0 0) s (0, 1)).2 - j) + 1) *
          2 ^ ((dget (Huffman.canon_loop cl SL 0 0) s (0, 1)).2 - j) =
          2 ^ ((dget (Huffman.canon_loop cl SL 0 0) s (0, 1)).2 - j) *
          ((dget (Huffman.canon_loop cl SL 0 0) s (0, 1)).1 /
            2 ^ ((dget (Huffman.canon_loop cl SL 0 0) s (0, 1)).2 - j)) +
          2 ^ ((dget (Huffman.canon_loop cl SL 0 0) s (0, 1)).2 - j) := by
        ring
      rw [hmul] at hR2
      omega
    · have hle2 := hR.1
      simp only [] at hle2
      omega

theorem good_tree_spec (cl : List (Nat × Nat))
    (hndk : (cl.map Prod.fst).Nodup)
    (hlen : ∀ p ∈ cl, 1 ≤ p.2 ∧ p.2 ≤ 25)
    (hkraft : ((cl.map Prod.fst).map (fun z => 2 ^ (25 - dget cl z 0))).sum ≤ 2 ^ 25) :
    ∀ s ∈ cl.map Prod.fst,
      ∃ c l,
        Huffman.encode_symbol (Huffman.generate_canonical_codes cl) s = (c, l) ∧
        c < 2 ^ l ∧ 1 ≤ l ∧ l ≤ 25 ∧
        dmem (Arch.build_decode_tree (Huffman.generate_canonical_codes cl)) (c, l) = true ∧
        dget (Arch.build_decode_tree (Huffman.generate_canonical_codes cl)) (c, l) 0 = s ∧
        (∀ j, 1 ≤ j → j < l →
          dmem (Arch.build_decode_tree (Huffman.generate_canonical_codes cl))
            (c >>> (l - j), j) = false) := by
  intro s hs
  have hperm1 : (Huffman.sortBy (fun a b => a ≤ b) (cl.map Prod.fst)).Perm
      (cl.map Prod.fst) := Huffman.sortBy_perm _ _
  have hperm2 : (Huffman.sortBy (Huffman.lexLe cl)
      (Huffman.sortBy (fun a b => a ≤ b) (cl.map Prod.fst))).Perm (cl.map Prod.fst) :=
    (Huffman.sortBy_perm _ _).trans hperm1
  have hsorted := sorted_lengths cl (Huffman.sortBy (fun a b => a ≤ b) (cl.map Prod.fst))
  have hne : (Huffman.sortBy (fun a b => a ≤ b) (cl.map Prod.fst)).isEmpty = false := by
    cases hsym : Huffman.sortBy (fun a b => a ≤ b) (cl.map Prod.fst) with
    | nil =>
        exfalso
        have hmem := hperm1.mem_iff.mpr hs
        rw [hsym] at hmem
        simp at hmem
    | cons a t => rfl
  have hcodes : (Huffman.generate_canonical_codes cl).codes =
      Huffman.canon_loop cl (Huffman.sortBy (Huffman.lexLe cl)
        (Huffman.sortBy (fun a b => a ≤ b) (cl.map Prod.fst))) 0 0 := by
    rw [generate_canonical_codes_codes, hne]
    simp
  have htreedef : Arch.build_decode_tree (Huffman.generate_canonical_codes cl) =
      (Huffman.sortBy (fun a b => a ≤ b) (cl.map Prod.fst)).foldl
        (fun t z => dset t (dget (Huffman.canon_loop cl
          (Huffman.sortBy (Huffman.lexLe cl)
            (Huffman.sortBy (fun a b => a ≤ b) (cl.map Prod.fst))) 0 0) z (0, 0)) z) [] := by
    unfold Arch.build_decode_tree
    rw [generate_canonical_codes_symbols, hcodes]
  have hench : Huffman.encode_symbol (Huffman.generate_canonical_codes cl) s =
      dget (Huffman.canon_loop cl (Huffman.sortBy (Huffman.lexLe cl)
        (Huffman.sortBy (fun a b => a ≤ b) (cl.map Prod.fst))) 0 0) s (0, 1) := by
    unfold Huffman.encode_symbol
    rw [hcodes]
  obtain ⟨c, l, h1, h2, h3, h4, h5, h6, h7⟩ := canon_tree_spec cl
    (Huffman.sortBy (Huffman.lexLe cl) (Huffman.sortBy (fun a b => a ≤ b) (cl.map Prod.fst)))
    (Huffman.sortBy (fun a b => a ≤ b) (cl.map Prod.fst))
    hndk hlen hkraft hperm2 hperm1 hsorted s hs
  refine ⟨c, l, ?_, h2, h3, h4, ?_, ?_, ?_⟩
  · rw [hench]
    exact h1
  · rw [htreedef]
    exact h5
  · rw [htreedef]
    exact h6
  · intro j hj1 hj2
    rw [htreedef]
    exact h7 j hj1 hj2


theorem dincr_ne_nil (d : List (Nat × Nat)) (k : Nat) : dincr d k ≠ [] := by
  unfold dincr dset
  by_cases h : dmem d k = true
  · rw [if_pos h]
    cases d with
    | nil => simp [dmem] at h
    | cons p t => simp
  · rw [if_neg h]
    cases d <;> simp

theorem compress_loop_freq_keep (x : List Nat) : ∀ (fuel pos : Nat) (tokens : List Token)
    (freq : List (Nat × Nat)) (ht : List (Nat × List Nat)), freq ≠ [] →
    (LZ77.compress_loop x fuel pos tokens freq ht).2.1 ≠ [] := by
  intro fuel
  induction fuel with
  | zero =>
      intro pos tokens freq ht h
      exact h
  | succ fuel ih =>
      intro pos tokens freq ht h
      show (if pos < x.length then
          (if LZ77.MIN_MATCH ≤ (LZ77.find_best_match ht x pos).1.2 then
            LZ77.compress_loop x fuel (pos + (LZ77.find_best_match ht x pos).1.2)
              (tokens ++ [((LZ77.find_best_match ht x pos).1.1,
                (LZ77.find_best_match ht x pos).1.2, -1)])
              (dincr freq (256 + ((LZ77.find_best_match ht x pos).1.2 - LZ77.MIN_MATCH)))
              (LZ77.find_best_match ht x pos).2
          else
            LZ77.compress_loop x fuel (pos + 1)
              (tokens ++ [(0, 0, Int.ofNat (x.getD pos 0))])
              (dincr freq (x.getD pos 0)) (LZ77.find_best_match ht x pos).2)
        else (tokens, freq, ht)).2.1 ≠ []
      by_cases hlt : pos < x.length
      · rw [if_pos hlt]
        by_cases hm : LZ77.MIN_MATCH ≤ (LZ77.find_best_match ht x pos).1.2
        · rw [if_pos hm]
          exact ih _ _ _ _ (dincr_ne_nil _ _)
        · rw [if_neg hm]
          exact ih _ _ _ _ (dincr_ne_nil _ _)
      · rw [if_neg hlt]
        exact h

theorem compress_freq_ne (x : List Nat) (hxe : x ≠ []) : (LZ77.compress x).2 ≠ [] := by
  have hl : 0 < x.length := List.length_pos.mpr hxe
  show (LZ77.compress_full x).2.1 ≠ []
  unfold LZ77.compress_full
  cases hfl : x.length with
  | zero => omega
  | succ n =>
      show (if 0 < x.length then
          (if LZ77.MIN_MATCH ≤ (LZ77.find_best_match [] x 0).1.2 then
            LZ77.compress_loop x n (0 + (LZ77.find_best_match [] x 0).1.2)
              ([] ++ [((LZ77.find_best_match [] x 0).1.1,
                (LZ77.find_best_match [] x 0).1.2, -1)])
              (dincr [] (256 + ((LZ77.find_best_match [] x 0).1.2 - LZ77.MIN_MATCH)))
              (LZ77.find_best_match [] x 0).2
          else
            LZ77.compress_loop x n (0 + 1)
              ([] ++ [(0, 0, Int.ofNat (x.getD 0 0))])
              (dincr [] (x.getD 0 0)) (LZ77.find_best_match [] x 0).2)
        else ([], [], [])).2.1 ≠ []
      rw [if_pos hl]
      by_cases hm : LZ77.MIN_MATCH ≤ (LZ77.find_best_match [] x 0).1.2
      · rw [if_pos hm]
        exact compress_loop_freq_keep x n _ _ _ _ (dincr_ne_nil _ _)
      · rw [if_neg hm]
        exact compress_loop_freq_keep x n _ _ _ _ (dincr_ne_nil _ _)

theorem getD_lt_256 (x : List Nat) (hx : ∀ b ∈ x, b < 256) (p : Nat) :
    x.getD p 0 < 256 := by
  rw [List.getD_eq_getD_get?]
  cases hg : x.get? p with
  | none => simp
  | some b =>
      have hb : b ∈ x := List.get?_mem hg
      exact hx b hb

theorem compress_loop_shape (x : List Nat) (hx : ∀ b ∈ x, b < 256) :
    ∀ (fuel pos : Nat) (tokens : List Token) (freq : List (Nat × Nat))
      (ht : List (Nat × List Nat)),
      (∀ t ∈ tokens,
        (0 ≤ t.2.2 → t.1 = 0 ∧ t.2.1 = 0 ∧ t.2.2.toNat < 256) ∧
        (t.2.2 < 0 → t.2.2 = -1 ∧ 1 ≤ t.1 ∧ t.1 ≤ 32768 ∧ 3 ≤ t.2.1 ∧ t.2.1 ≤ 258)) →
      ∀ t ∈ (LZ77.compress_loop x fuel pos tokens freq ht).1,
        (0 ≤ t.2.2 → t.1 = 0 ∧ t.2.1 = 0 ∧ t.2.2.toNat < 256) ∧
        (t.2.2 < 0 → t.2.2 = -1 ∧ 1 ≤ t.1 ∧ t.1 ≤ 32768 ∧ 3 ≤ t.2.1 ∧ t.2.1 ≤ 258) := by
  intro fuel
  induction fuel with
  | zero =>
      intro pos tokens freq ht hacc t htm
      exact hacc t htm
  | succ fuel ih =>
      intro pos tokens freq ht hacc
      show ∀ t ∈ (if pos < x.length then
          (if LZ77.MIN_MATCH ≤ (LZ77.find_best_match ht x pos).1.2 then
            LZ77.compress_loop x fuel (pos + (LZ77.find_best_match ht x pos).1.2)
              (tokens ++ [((LZ77.find_best_match ht x pos).1.1,
                (LZ77.find_best_match ht x pos).1.2, -1)])
              (dincr freq (256 + ((LZ77.find_best_match ht x pos).1.2 - LZ77.MIN_MATCH)))
              (LZ77.find_best_match ht x pos).2
          else
            LZ77.compress_loop x fuel (pos + 1)
              (tokens ++ [(0, 0, Int.ofNat (x.getD pos 0))])
              (dincr freq (x.getD pos 0)) (LZ77.find_best_match ht x pos).2)
        else (tokens, freq, ht)).1, _
      by_cases hlt : pos < x.length
      · rw [if_pos hlt]
        by_cases hm : LZ77.MIN_MATCH ≤ (LZ77.find_best_match ht x pos).1.2
        · rw [if_pos hm]
          refine ih _ _ _ _ ?_
          intro t2 ht2
          rcases List.mem_append.mp ht2 with h1 | h1
          · exact hacc t2 h1
          · have ht2e : t2 = ((LZ77.find_best_match ht x pos).1.1,
                (LZ77.find_best_match ht x pos).1.2, -1) := by simpa using h1
            obtain ⟨f1, f2, f3, f4, f5, f6⟩ := find_best_match_match_spec ht x pos hm
            subst ht2e
            constructor
            · intro h0
              have h0n : (0 : Int) ≤ -1 := h0
              omega
            · intro _
              refine ⟨rfl, f1, f3, ?_, f5⟩
              exact hm
        · rw [if_neg hm]
          refine ih _ _ _ _ ?_
          intro t2 ht2
          rcases List.mem_append.mp ht2 with h1 | h1
          · exact hacc t2 h1
          · have ht2e : t2 = (0, 0, Int.ofNat (x.getD pos 0)) := by simpa using h1
            subst ht2e
            constructor
            · intro _
              refine ⟨rfl, rfl, ?_⟩
              have hlt2 : x.getD pos 0 < 256 := getD_lt_256 x hx pos
              have htn : (Int.ofNat (x.getD pos 0)).toNat = x.getD pos 0 := rfl
              exact htn ▸ hlt2
            · intro hneg
              have hneg2 : Int.ofNat (x.getD pos 0) < 0 := hneg
              exact absurd hneg2 (not_lt.mpr (Int.ofNat_nonneg _))
      · rw [if_neg hlt]
        exact hacc

theorem length_le_tokSum : ∀ (ts : List Token), (∀ t ∈ ts, 1 ≤ tokLen t) →
    ts.length ≤ tokSum ts := by
  intro ts
  induction ts with
  | nil =>
      intro _
      simp [tokSum]
  | cons t rest ih =>
      intro h
      have hcons : tokSum (t :: rest) = tokLen t + tokSum rest := by simp [tokSum]
      have h1 := h t (by simp)
      have h2 := ih (fun z hz => h z (by simp [hz]))
      rw [hcons]
      simp only [List.length_cons]
      omega

theorem decompress_loop_spec (B : List Nat) (hB : ∀ b ∈ B, b < 256)
    (hf : Huffman.Huff) (tree : List ((Nat × Nat) × Nat)) (orig : Nat) :
    ∀ (toks : List Token) (fuel k : Nat) (r : BitReader) (acc : List Token)
      (out_len : Nat) (rest : List Nat),
      (∀ t ∈ toks, GoodTok hf tree t) →
      BitReader.Inv B k r →
      (bytesToBits B).drop k = Arch.tokensBits hf toks ++ rest →
      out_len + tokSum toks = orig →
      toks.length ≤ fuel →
      Arch.decompress_loop tree orig fuel r acc out_len = .ok (acc ++ toks) := by
  intro toks
  induction toks with
  | nil =>
      intro fuel k r acc out_len rest _ _ _ hsum _
      have hts : tokSum [] = 0 := by simp [tokSum]
      cases fuel with
      | zero =>
          show Except.ok acc = .ok (acc ++ [])
          rw [List.append_nil]
      | succ fuel =>
          unfold Arch.decompress_loop
          rw [if_neg (show ¬ out_len < orig by omega), List.append_nil]
  | cons t toks ih =>
      intro fuel k r acc out_len rest htok hInv hdrop hsum hlen
      cases fuel with
      | zero => simp at hlen
      | succ fuel =>
      have hgt := htok t (by simp)
      have htoks2 : ∀ z ∈ toks, GoodTok hf tree z := fun z hz => htok z (by simp [hz])
      have hlen2 : toks.length ≤ fuel := by
        simp only [List.length_cons] at hlen
        omega
      have hbits_cons : Arch.tokensBits hf (t :: toks) =
          Arch.tokenBits hf t ++ Arch.tokensBits hf toks := by
        simp [Arch.tokensBits]
      rw [hbits_cons, List.append_assoc] at hdrop
      have hsum_cons : tokSum (t :: toks) = tokLen t + tokSum toks := by simp [tokSum]
      unfold Arch.decompress_loop
      by_cases hlit : 0 ≤ t.2.2
      · obtain ⟨h1, h2, h3, hds⟩ := hgt.1 hlit
        obtain ⟨c, l, henc, hclt, hl1, hl25, hmem, hval, hnp⟩ := hds
        have htlen : tokLen t = 1 := by simp [tokLen, hlit]
        have htb : Arch.tokenBits hf t = toBits l c := by
          unfold Arch.tokenBits
          rw [if_pos hlit, henc]
        rw [htb] at hdrop
        obtain ⟨r1, hdec, hInv1, hdrop1⟩ := decode_symbol_spec B hB tree c l
          t.2.2.toNat hclt hl1 hl25 hmem hval hnp k r _ hInv hdrop
        rw [if_pos (show out_len < orig by omega)]
        simp only [hdec]
        rw [if_pos h3]
        have hofnat : Int.ofNat t.2.2.toNat = t.2.2 := Int.toNat_of_nonneg hlit
        have hteq : ((0 : Nat), (0 : Nat), Int.ofNat t.2.2.toNat) = t := by
          calc ((0 : Nat), (0 : Nat), Int.ofNat t.2.2.toNat)
              = (t.1, t.2.1, t.2.2) := by rw [h1, h2, hofnat]
            _ = t := rfl
        rw [hteq]
        have happ := ih fuel (k + l) r1 (acc ++ [t]) (out_len + 1) rest htoks2 hInv1
          hdrop1 (by omega) hlen2
        rw [happ]
        simp
      · have hneg : t.2.2 < 0 := by omega
        obtain ⟨hm1, hd1, hd2, hl3, hl258, hds⟩ := hgt.2 hneg
        obtain ⟨c, l, henc, hclt, hl1, hl25, hmem, hval, hnp⟩ := hds
        have htlen : tokLen t = t.2.1 := by simp [tokLen, hlit]
        have htb : Arch.tokenBits hf t = toBits l c ++ toBits 15 (t.1 - 1) := by
          have hstep2 : Arch.tokenBits hf t =
              toBits (Huffman.encode_symbol hf (256 + (t.2.1 - 3))).2
                (Huffman.encode_symbol hf (256 + (t.2.1 - 3))).1 ++
                toBits 15 (t.1 - 1) := by
            unfold Arch.tokenBits
            rw [if_neg hlit, show LZ77.MIN_MATCH = 3 from rfl]
          rw [hstep2, henc]
        rw [htb, List.append_assoc] at hdrop
        obtain ⟨r1, hdec, hInv1, hdrop1⟩ := decode_symbol_spec B hB tree c l
          (256 + (t.2.1 - 3)) hclt hl1 hl25 hmem hval hnp k r _ hInv hdrop
        obtain ⟨r2, hr15, hInv2, hdrop2⟩ := BitReader.read_bits_spec B hB 15
          (t.1 - 1) _ (k + l) r1 hInv1 hdrop1 (by omega)
        rw [if_pos (show out_len < orig by omega)]
        simp only [hdec]
        rw [if_neg (show ¬ 256 + (t.2.1 - 3) < 256 by omega)]
        simp only [hr15]
        have hteq : ((t.1 - 1 + 1 : Nat),
            (256 + (t.2.1 - 3) - 256 + LZ77.MIN_MATCH : Nat), (-1 : Int)) = t := by
          have e1 : t.1 - 1 + 1 = t.1 := by omega
          have e2 : 256 + (t.2.1 - 3) - 256 + LZ77.MIN_MATCH = t.2.1 := by
            have hmm : LZ77.MIN_MATCH = 3 := rfl
            rw [hmm]
            omega
          calc ((t.1 - 1 + 1 : Nat),
              (256 + (t.2.1 - 3) - 256 + LZ77.MIN_MATCH : Nat), (-1 : Int))
              = (t.1, t.2.1, t.2.2) := by rw [e1, e2, ← hm1]
            _ = t := rfl
        rw [hteq]
        have hout : out_len + (256 + (t.2.1 - 3) - 256 + LZ77.MIN_MATCH) =
            out_len + t.2.1 := by
          have hmm : LZ77.MIN_MATCH = 3 := rfl
          rw [hmm]
          omega
        rw [hout]
        have happ := ih fuel (k + l + 15) r2 (acc ++ [t]) (out_len + t.2.1) rest htoks2
          hInv2 hdrop2 (by omega) hlen2
        rw [happ]
        simp


set_option maxHeartbeats 1600000 in
/-- C1 (amended): the round trip `decompress(compress(x)) == x` holds for
every byte string `x` whose length fits the 32-bit size field and whose
built code book is well formed — distinct symbols below 512 with code
lengths in `1..25` satisfying the Kraft inequality, every emitted token's
symbol present in the book, and the metadata and symbol counts below
2^16.  It is not unconditional: `len(x) = 2^32` wraps the size field to 0
(see the counterexample), and a book deeper than 25 bits breaks the
decoder's probe. -/
theorem C1_roundtrip (x : List Nat)
    (hx : ∀ b ∈ x, b < 256)
    (hxlen : x.length < 2 ^ 32)
    (hnd : (((Arch.hfOf x).code_lengths).map Prod.fst).Nodup)
    (hgood : ∀ p ∈ (Arch.hfOf x).code_lengths, 1 ≤ p.2 ∧ p.2 ≤ 25 ∧ p.1 < 512)
    (hkraft : ((((Arch.hfOf x).code_lengths).map Prod.fst).map
      (fun z => 2 ^ (25 - dget (Arch.hfOf x).code_lengths z 0))).sum ≤ 2 ^ 25)
    (hcover : ∀ t ∈ (LZ77.compress x).1,
      (if 0 ≤ t.2.2 then t.2.2.toNat else 256 + (t.2.1 - 3)) ∈
        ((Arch.hfOf x).code_lengths).map Prod.fst)
    (hmd16 : (Arch.mdOf x).length < 2 ^ 16)
    (hcl16 : (Arch.hfOf x).code_lengths.length < 2 ^ 16) :
    Arch.decompress (Arch.compress x) = .ok x := by
  by_cases hxe : x.isEmpty
  · have hx0 : x = [] := by rwa [List.isEmpty_iff] at hxe
    subst hx0
    rfl
  · obtain ⟨hbytes, hbits, _⟩ := Arch.compress_spec x hxe
    have hxne : x ≠ [] := fun h => hxe (by rw [h]; rfl)
    have hxpos : 0 < x.length := List.length_pos.mpr hxne
    have hfreq : (LZ77.compress x).2 ≠ [] := compress_freq_ne x hxne
    have hfreqE : ((LZ77.compress x).2).isEmpty = false := by
      cases hq : (LZ77.compress x).2 with
      | nil => exact absurd hq hfreq
      | cons a t => rfl
    have hhf : Arch.hfOf x =
        Huffman.generate_canonical_codes ((Arch.hfOf x).code_lengths) := by
      unfold Arch.hfOf
      exact build_eq_gcc _ hfreqE
    obtain ⟨hf2, hload, hc2, hs2, _⟩ :=
      metadata_roundtrip_spec ((Arch.hfOf x).code_lengths) hnd
        (fun p hp => (hgood p hp).2.2)
        (fun p hp => by have := (hgood p hp).2.1; omega)
        (by have h := hcl16; norm_num at h; exact h)
    have hmdeq : Arch.mdOf x = Huffman.save_metadata
        (Huffman.generate_canonical_codes ((Arch.hfOf x).code_lengths)) := by
      unfold Arch.mdOf
      conv_lhs => rw [hhf]
    have hload2 : Huffman.load_metadata (Arch.mdOf x) =
        .ok (hf2, (Arch.mdOf x).length) := by
      rw [hmdeq]
      exact hload
    have htree2 : Arch.build_decode_tree hf2 = Arch.build_decode_tree
        (Huffman.generate_canonical_codes ((Arch.hfOf x).code_lengths)) := by
      unfold Arch.build_decode_tree
      rw [hc2, hs2]
    have hshape2 : ∀ t ∈ (LZ77.compress x).1,
        (0 ≤ t.2.2 → t.1 = 0 ∧ t.2.1 = 0 ∧ t.2.2.toNat < 256) ∧
        (t.2.2 < 0 → t.2.2 = -1 ∧ 1 ≤ t.1 ∧ t.1 ≤ 32768 ∧ 3 ≤ t.2.1 ∧ t.2.1 ≤ 258) :=
      compress_loop_shape x hx x.length 0 [] [] [] (by intro t ht; simp at ht)
    have hgts := good_tree_spec ((Arch.hfOf x).code_lengths) hnd
      (fun p hp => ⟨(hgood p hp).1, (hgood p hp).2.1⟩) hkraft
    have htoks : ∀ t ∈ (LZ77.compress x).1,
        GoodTok (Arch.hfOf x) (Arch.build_decode_tree hf2) t := by
      intro t ht
      have hsh := hshape2 t ht
      have hcov := hcover t ht
      constructor
      · intro hlit
        obtain ⟨h1, h2, h3⟩ := hsh.1 hlit
        refine ⟨h1, h2, h3, ?_⟩
        rw [if_pos hlit] at hcov
        obtain ⟨c, l, henc, hclt, hl1, hl25, hdm, hdg, hj⟩ := hgts _ hcov
        refine ⟨c, l, ?_, hclt, hl1, hl25, ?_, ?_, ?_⟩
        · rw [hhf]
          exact henc
        · rw [htree2]
          exact hdm
        · rw [htree2]
          exact hdg
        · intro j hj1 hj2
          rw [htree2]
          exact hj j hj1 hj2
      · intro hneg
        have hlit2 : ¬ 0 ≤ t.2.2 := by omega
        obtain ⟨h1, h2, h3, h4, h5⟩ := hsh.2 hneg
        refine ⟨h1, h2, h3, h4, h5, ?_⟩
        rw [if_neg hlit2] at hcov
        obtain ⟨c, l, henc, hclt, hl1, hl25, hdm, hdg, hj⟩ := hgts _ hcov
        refine ⟨c, l, ?_, hclt, hl1, hl25, ?_, ?_, ?_⟩
        · rw [hhf]
          exact henc
        · rw [htree2]
          exact hdm
        · rw [htree2]
          exact hdg
        · intro j hj1 hj2
          rw [htree2]
          exact hj j hj1 hj2
    have hdec_toks : LZ77.decompress_tokens (LZ77.compress x).1 [] = .ok x :=
      LZ77_roundtrip x
    have htoksum : tokSum (LZ77.compress x).1 = x.length := by
      have h := decompress_tokens_length (LZ77.compress x).1 [] x hdec_toks
      simp at h
      omega
    have htlen1 : ∀ t ∈ (LZ77.compress x).1, 1 ≤ tokLen t := by
      intro t ht
      have hsh := hshape2 t ht
      by_cases hlit : 0 ≤ t.2.2
      · simp [tokLen, hlit]
      · have h3 := (hsh.2 (by omega)).2.2.2.1
        simp only [tokLen, if_neg hlit]
        omega
    have hlentoks : (LZ77.compress x).1.length ≤ x.length := by
      have := length_le_tokSum (LZ77.compress x).1 htlen1
      omega
    have hsb : Arch.streamBits x =
        toBits 8 1 ++ (toBits 32 x.length ++ (toBits 16 (Arch.mdOf x).length ++
          (bytesToBits (Arch.mdOf x) ++
            Arch.tokensBits (Arch.hfOf x) (LZ77.compress x).1))) := by
      unfold Arch.streamBits
      rw [show Arch.VERSION = 1 from rfl]
      simp only [List.append_assoc]
    have hCbits : bytesToBits (Arch.compress x) =
        toBits 8 1 ++ (toBits 32 x.length ++ (toBits 16 (Arch.mdOf x).length ++
          (bytesToBits (Arch.mdOf x) ++
            (Arch.tokensBits (Arch.hfOf x) (LZ77.compress x).1 ++
              List.replicate ((8 - (Arch.streamBits x).length % 8) % 8) 0)))) := by
      rw [hbits, hsb]
      simp only [List.append_assoc]
    obtain ⟨r1, hr1, hInv1, hdrop1⟩ := BitReader.read_bits_spec (Arch.compress x) hbytes
      8 1
      (toBits 32 x.length ++ (toBits 16 (Arch.mdOf x).length ++
        (bytesToBits (Arch.mdOf x) ++
          (Arch.tokensBits (Arch.hfOf x) (LZ77.compress x).1 ++
            List.replicate ((8 - (Arch.streamBits x).length % 8) % 8) 0))))
      0 (BitReader.init (Arch.compress x)) (BitReader.init_inv _)
      (by rw [List.drop_zero]; exact hCbits) (by norm_num)
    obtain ⟨r2, hr2, hInv2, hdrop2⟩ := BitReader.read_bits_spec (Arch.compress x) hbytes
      32 x.length
      (toBits 16 (Arch.mdOf x).length ++
        (bytesToBits (Arch.mdOf x) ++
          (Arch.tokensBits (Arch.hfOf x) (LZ77.compress x).1 ++
            List.replicate ((8 - (Arch.streamBits x).length % 8) % 8) 0)))
      (0 + 8) r1 hInv1 hdrop1 hxlen
    obtain ⟨r3, hr3, hInv3, hdrop3⟩ := BitReader.read_bits_spec (Arch.compress x) hbytes
      16 (Arch.mdOf x).length
      (bytesToBits (Arch.mdOf x) ++
        (Arch.tokensBits (Arch.hfOf x) (LZ77.compress x).1 ++
          List.replicate ((8 - (Arch.streamBits x).length % 8) % 8) 0))
      (0 + 8 + 32) r2 hInv2 hdrop2 hmd16
    have hpos3 : r3.pos = 7 ∧ r3.bit_count = 0 := by
      have h1 := hInv3.pos8
      have h2 := hInv3.cnt
      omega
    have hmdlt : ∀ b ∈ Arch.mdOf x, b < 256 :=
      (Huffman.save_metadata_spec (Arch.hfOf x)).1
    have hhdr_lt : ∀ b ∈ ([1] ++ be32 x.length ++
        [(Arch.mdOf x).length / 2 ^ 8, (Arch.mdOf x).length % 2 ^ 8] ++ Arch.mdOf x),
        b < 256 := by
      intro b hb
      simp only [List.mem_append] at hb
      rcases hb with ((hb | hb) | hb) | hb
      · simp at hb
        omega
      · exact be32_bytes_lt _ b hb
      · simp at hb
        rcases hb with h | h
        · have hdv : (Arch.mdOf x).length / 2 ^ 8 < 2 ^ 8 := by
            apply Nat.div_lt_iff_lt_mul (by norm_num) |>.mpr
            have : (2 : Nat) ^ 8 * 2 ^ 8 = 2 ^ 16 := by norm_num
            omega
          omega
        · have := Nat.mod_lt (Arch.mdOf x).length (show 0 < 2 ^ 8 by norm_num)
          omega
      · exact hmdlt b hb
    have hm16 : toBits 16 (Arch.mdOf x).length =
        toBits 8 ((Arch.mdOf x).length / 2 ^ 8) ++
          toBits 8 ((Arch.mdOf x).length % 2 ^ 8) := by
      rw [show (16 : Nat) = 8 + 8 from rfl, toBits_append]
      congr 1
      · rw [Nat.shiftRight_eq_div_pow]
      · conv_lhs => rw [← toBits_mod 8 (Arch.mdOf x).length]
    have hp_bits : bytesToBits ([1] ++ be32 x.length ++
        [(Arch.mdOf x).length / 2 ^ 8, (Arch.mdOf x).length % 2 ^ 8] ++ Arch.mdOf x) =
        toBits 8 1 ++ (toBits 32 x.length ++ (toBits 16 (Arch.mdOf x).length ++
          bytesToBits (Arch.mdOf x))) := by
      rw [bytesToBits_append, bytesToBits_append, bytesToBits_append]
      rw [show bytesToBits [1] = toBits 8 1 from by simp [bytesToBits]]
      rw [bytesToBits_be32]
      rw [show bytesToBits [(Arch.mdOf x).length / 2 ^ 8, (Arch.mdOf x).length % 2 ^ 8] =
          toBits 8 ((Arch.mdOf x).length / 2 ^ 8) ++
            toBits 8 ((Arch.mdOf x).length % 2 ^ 8) from by simp [bytesToBits]]
      rw [← hm16]
      simp only [List.append_assoc]
    obtain ⟨tailB, hCeq, htail_lt, htail_bits⟩ := bytesToBits_peel_list
      ([1] ++ be32 x.length ++
        [(Arch.mdOf x).length / 2 ^ 8, (Arch.mdOf x).length % 2 ^ 8] ++ Arch.mdOf x)
      (Arch.compress x)
      (Arch.tokensBits (Arch.hfOf x) (LZ77.compress x).1 ++
        List.replicate ((8 - (Arch.streamBits x).length % 8) % 8) 0)
      hbytes hhdr_lt
      (by rw [hCbits, hp_bits]; simp only [List.append_assoc])
    have hhdrlen : ([1] ++ be32 x.length ++
        [(Arch.mdOf x).length / 2 ^ 8, (Arch.mdOf x).length % 2 ^ 8]).length = 7 := by
      simp [be32]
    have hClen : (Arch.compress x).length =
        7 + (Arch.mdOf x).length + tailB.length := by
      rw [hCeq]
      simp only [List.length_append, be32, List.length_cons, List.length_nil]
    have hm_le : r3.pos + (Arch.mdOf x).length ≤ (Arch.compress x).length := by
      rw [hpos3.1, hClen]
      omega
    obtain ⟨hbr, hInv4⟩ := BitReader.read_bytes_spec (Arch.compress x) (0 + 8 + 32 + 16) r3
      (Arch.mdOf x).length hInv3 hpos3.2 hm_le
    have hslice : (((Arch.compress x).drop r3.pos).take (Arch.mdOf x).length) =
        Arch.mdOf x := by
      rw [hpos3.1, hCeq]
      rw [show ([1] ++ be32 x.length ++
          [(Arch.mdOf x).length / 2 ^ 8, (Arch.mdOf x).length % 2 ^ 8] ++ Arch.mdOf x) ++
          tailB =
          ([1] ++ be32 x.length ++
            [(Arch.mdOf x).length / 2 ^ 8, (Arch.mdOf x).length % 2 ^ 8]) ++
          (Arch.mdOf x ++ tailB) from by simp only [List.append_assoc]]
      rw [show (7 : Nat) = ([1] ++ be32 x.length ++
          [(Arch.mdOf x).length / 2 ^ 8, (Arch.mdOf x).length % 2 ^ 8]).length
        from hhdrlen.symm]
      rw [List.drop_left]
      exact List.take_left _ _
    have hbr2 : r3.read_bytes (Arch.mdOf x).length =
        (Arch.mdOf x, ⟨Arch.compress x, r3.pos + (Arch.mdOf x).length, r3.bit_buffer, 0⟩) := by
      rw [hbr, hslice]
    have hdrop4 : (bytesToBits (Arch.compress x)).drop
        (0 + 8 + 32 + 16 + 8 * (Arch.mdOf x).length) =
        Arch.tokensBits (Arch.hfOf x) (LZ77.compress x).1 ++
          List.replicate ((8 - (Arch.streamBits x).length % 8) % 8) 0 := by
      rw [hCeq, bytesToBits_append, htail_bits]
      rw [show 0 + 8 + 32 + 16 + 8 * (Arch.mdOf x).length =
          (bytesToBits ([1] ++ be32 x.length ++
            [(Arch.mdOf x).length / 2 ^ 8, (Arch.mdOf x).length % 2 ^ 8] ++
              Arch.mdOf x)).length from by
        rw [bytesToBits_length]
        simp [be32]
        omega]
      exact List.drop_left _ _
    have hloop := decompress_loop_spec (Arch.compress x) hbytes (Arch.hfOf x)
      (Arch.build_decode_tree hf2) x.length (LZ77.compress x).1 x.length
      (0 + 8 + 32 + 16 + 8 * (Arch.mdOf x).length)
      ⟨Arch.compress x, r3.pos + (Arch.mdOf x).length, r3.bit_buffer, 0⟩ [] 0
      (List.replicate ((8 - (Arch.streamBits x).length % 8) % 8) 0)
      htoks hInv4 hdrop4 (by omega) hlentoks
    have hloop2 : Arch.decompress_loop (Arch.build_decode_tree hf2) x.length x.length
        ⟨Arch.compress x, r3.pos + (Arch.mdOf x).length, r3.bit_buffer, 0⟩ [] 0 =
        .ok (LZ77.compress x).1 := by
      rw [hloop]
      simp
    unfold Arch.decompress
    simp only [hr1]
    rw [if_neg (show ¬ (1 ≠ Arch.VERSION) from by decide)]
    simp only [hr2]
    rw [if_neg (show ¬ x.length = 0 by omega)]
    simp only [hr3]
    simp only [hbr2]
    simp only [hload2]
    simp only [hloop2]
    exact LZ77_roundtrip x


/-- Witness for C1 at the one-byte input `[65]`: every hypothesis holds by
computation and the round trip returns the input. -/
theorem C1_roundtrip_witness :
    ((∀ b ∈ ([65] : List Nat), b < 256) ∧
     ([65] : List Nat).length < 2 ^ 32 ∧
     (((Arch.hfOf [65]).code_lengths).map Prod.fst).Nodup ∧
     (∀ p ∈ (Arch.hfOf [65]).code_lengths, 1 ≤ p.2 ∧ p.2 ≤ 25 ∧ p.1 < 512) ∧
     ((((Arch.hfOf [65]).code_lengths).map Prod.fst).map
       (fun z => 2 ^ (25 - dget (Arch.hfOf [65]).code_lengths z 0))).sum ≤ 2 ^ 25 ∧
     (∀ t ∈ (LZ77.compress [65]).1,
       (if 0 ≤ t.2.2 then t.2.2.toNat else 256 + (t.2.1 - 3)) ∈
         ((Arch.hfOf [65]).code_lengths).map Prod.fst) ∧
     (Arch.mdOf [65]).length < 2 ^ 16 ∧
     (Arch.hfOf [65]).code_lengths.length < 2 ^ 16) ∧
    Arch.decompress (Arch.compress [65]) = .ok [65] :=
  ⟨⟨by decide, by decide, by decide, by decide, by decide, by decide, by decide, by decide⟩,
   C1_roundtrip [65] (by decide) (by decide) (by decide) (by decide) (by decide)
     (by decide) (by decide) (by decide)⟩

end Archuffer
